import Mathlib

set_option maxRecDepth 40000

/-!
# Verification of the PelotonHashTable hash-multimap variants

This development shallowly embeds the three hash-table variants of the
repository (`src/HashTable_OA_KVL.h`, `src/HashTable_CA_CC.h`,
`src/HashTable_CA_SCC.h`) together with the policy functors of
`src/common.h`, and proves or refutes the frozen specification claims
about them.

Machine integers (`uint64_t`) are modelled as `Nat`, with an explicit
`% 2 ^ 64` at the only place where overflow matters (the multiplications
inside `SimpleInt64Hasher`).  Pointers into the closed-addressing node
heaps are modelled as indices (`Nat`) into an allocation list, with
`Option Nat` for possibly-null pointers; raw (uninitialized) key/value
storage of the open-addressing variant is modelled as `Option`-valued
slots, `none` standing for memory whose object has not been constructed
(or has been destroyed).  C++ loops that can dereference null or run
forever are modelled with an `Option` result (`none` = no defined
result) or with enough fuel to cover exactly the iterations the C++
loop can soundly perform.
-/

namespace Peloton

/-! ## Policy functors (`src/common.h`)

`LoadFactorHalfFull`, `LoadFactorThreeFourthFull` and
`LoadFactorPercent<p>` compute the resize threshold from the table
size; `SimpleInt64Hasher` is the Murmur-style 64-bit avalanching mixer
and `ConstantZero` the deliberately colliding hasher.  A load-factor
policy is modelled as a `Nat → Nat` function and a hasher as a
`Nat → Nat` function, exactly as the C++ functor objects are carried
inside each table. -/

/-- `LoadFactorHalfFull::operator()`: `table_size >> 1`. -/
def LoadFactorHalfFull (tableSize : Nat) : Nat := tableSize >>> 1

/-- `LoadFactorThreeFourthFull::operator()`: `(table_size >> 1) | (table_size >> 2)`. -/
def LoadFactorThreeFourthFull (tableSize : Nat) : Nat :=
  (tableSize >>> 1) ||| (tableSize >>> 2)

/-- `LoadFactorPercent<percentage>::operator()`: `table_size * percentage / 100`. -/
def LoadFactorPercent (percentage tableSize : Nat) : Nat :=
  tableSize * percentage / 100

/-- `SimpleInt64Hasher::operator()`: the Murmur-style finalizer over
`uint64_t`; multiplications are taken modulo `2 ^ 64` as in the C++
unsigned arithmetic. -/
def SimpleInt64Hasher (value : Nat) : Nat :=
  let v0 := value % 2 ^ 64
  let v1 := v0 ^^^ (v0 >>> 33)
  let v2 := (v1 * 0xff51afd7ed558ccd) % 2 ^ 64
  let v3 := v2 ^^^ (v2 >>> 33)
  let v4 := (v3 * 0xc4ceb9fe1a85ec53) % 2 ^ 64
  v4 ^^^ (v4 >>> 33)

/-- `ConstantZero::operator()`: returns zero for all hash requests. -/
def ConstantZero (_ : Nat) : Nat := 0

/-- Fuel-driven bit length: `bitLenAux fuel n` is the number of binary
digits of `n` provided `n < 2 ^ fuel`.  (Structural recursion on the
fuel keeps the definition kernel-reducible.) -/
def bitLenAux : Nat → Nat → Nat
  | 0, _ => 0
  | fuel + 1, n => if n = 0 then 0 else bitLenAux fuel (n >>> 1) + 1

/-- `64 - __builtin_clzl(n)`, the bit length of the 64-bit word `n`:
the unique `b` with `2 ^ (b - 1) ≤ n < 2 ^ b` (and `0` for `n = 0`,
where `__builtin_clzl` is undefined and the callers never pass `0`
meaningfully).  The 64 steps of fuel are exactly the 64-bit domain of
`__builtin_clzl`. -/
def effectiveBits (n : Nat) : Nat := bitLenAux 64 n

/-- The slot-count rounding performed by the `HashTable_CA_CC` and
`HashTable_CA_SCC` constructors.  The code sets
`slot_count = 1 << effective_bits` and `index_mask = slot_count - 1`,
and intends to shift both back when the request was already a power of
two — but tests `(slot_count >> 1) == slot_count` on the freshly
overwritten `slot_count`, a condition that never holds for a nonzero
value.  The model reproduces the test verbatim.  Returns
`(slot_count, index_mask)`. -/
def caRoundSlotCount (requested : Nat) : Nat × Nat :=
  let slotCount := 1 <<< effectiveBits requested
  let indexMask := slotCount - 1
  if slotCount >>> 1 = slotCount then
    (slotCount >>> 1, indexMask >>> 1)
  else
    (slotCount, indexMask)

/-! ## `HashTable_CA_SCC` (closed addressing, per-bucket chains)

Each bucket owns an independent singly-linked chain of heap nodes.
A chain is modelled as a `List` of nodes (the `next_p` pointer is the
list tail: a node's successor is the element after it), which is a
faithful rendering because every node is reachable from exactly one
bucket and the code only ever prepends (`Insert`, the `Resize`
re-hooking) and traverses (`GetValue`, `Resize`). -/

/-- A `HashTable_CA_SCC::HashEntry`: cached hash, key, value
(`next_p` is the position in the enclosing chain list). -/
structure SCCEntry (V : Type) where
  hash_value : Nat
  key : Nat
  value : V
  deriving Repr, DecidableEq

/-- The `HashTable_CA_SCC` state: the bucket array
`entry_p_list_p` (index → chain), plus the bookkeeping fields and the
policy functors carried by the table. -/
structure CASCC (V : Type) where
  entry_p_list_p : List (List (SCCEntry V))
  index_mask : Nat
  slot_count : Nat
  entry_count : Nat
  resize_threshold : Nat
  key_hash_obj : Nat → Nat
  lfc : Nat → Nat

namespace CASCC

variable {V : Type}

/-- The `HashTable_CA_SCC` constructor: round the requested slot count
(see `caRoundSlotCount`), compute the resize threshold from the
load-factor policy, and zero the bucket array. -/
def new (p_slot_count : Nat) (hashf : Nat → Nat) (lfc : Nat → Nat) : CASCC V :=
  { entry_p_list_p := List.replicate (caRoundSlotCount p_slot_count).1 []
    index_mask := (caRoundSlotCount p_slot_count).2
    slot_count := (caRoundSlotCount p_slot_count).1
    entry_count := 0
    resize_threshold := lfc (caRoundSlotCount p_slot_count).1
    key_hash_obj := hashf
    lfc := lfc }

/-- `HashTable_CA_SCC::Resize()`: double the slot count, recompute mask
and threshold, allocate a zeroed bucket array, then walk every old
bucket's chain head-to-tail and prepend each node onto its new bucket
(`entry_p->next_p = entry_p_list_p[new_index]; entry_p_list_p[new_index]
= entry_p`), reading the old `next_p` before overwriting it. -/
def Resize (t : CASCC V) : CASCC V :=
  let sc := t.slot_count <<< 1
  let mask := sc - 1
  let thr := t.lfc sc
  let newBuckets := t.entry_p_list_p.foldl
    (fun acc chain =>
      chain.foldl
        (fun acc e =>
          let newIndex := e.hash_value &&& mask
          acc.set newIndex (e :: acc.getD newIndex []))
        acc)
    (List.replicate sc [])
  { t with
    entry_p_list_p := newBuckets
    index_mask := mask
    slot_count := sc
    resize_threshold := thr }

/-- `HashTable_CA_SCC::Insert()`: resize when
`entry_count == resize_threshold`, then prepend a freshly allocated
node onto the chain of bucket `hash & index_mask`. -/
def Insert (t : CASCC V) (key : Nat) (value : V) : CASCC V :=
  let t := if t.entry_count = t.resize_threshold then t.Resize else t
  let hash_value := t.key_hash_obj key
  let index := t.index_mask &&& hash_value
  { t with
    entry_p_list_p :=
      t.entry_p_list_p.set index
        ({ hash_value := hash_value, key := key, value := value } ::
          t.entry_p_list_p.getD index [])
    entry_count := t.entry_count + 1 }

/-- `HashTable_CA_SCC::GetValue()` (vector overload): walk the chain of
bucket `hash & index_mask` and collect, in traversal order, the values
of the nodes whose key equals the query key. -/
def GetValue (t : CASCC V) (key : Nat) : List V :=
  let hash_value := t.key_hash_obj key
  let index := t.index_mask &&& hash_value
  ((t.entry_p_list_p.getD index []).filter (fun e => e.key == key)).map
    (fun e => e.value)

/-- One step of the `Resize` re-bucketing loop: prepend the node `e`
onto the bucket `e.hash_value & mask` of the accumulator array (this is
the body of the inner loop of `Resize`, named so that facts about the
fold can be stated). -/
def resizeStep (mask : Nat) (acc : List (List (SCCEntry V))) (e : SCCEntry V) :
    List (List (SCCEntry V)) :=
  let newIndex := e.hash_value &&& mask
  acc.set newIndex (e :: acc.getD newIndex [])

/-- Every node of the table, bucket by bucket. -/
def allNodes (t : CASCC V) : List (SCCEntry V) :=
  t.entry_p_list_p.flatten

/-- The structural invariant of a CA-SCC table: the bucket array spans
`slot_count` slots, the slot count is a power of two with
`index_mask = slot_count - 1`, every node caches the hash of its key,
and every node sits in the bucket selected by `hash & index_mask`. -/
def SCCInv (t : CASCC V) : Prop :=
  t.entry_p_list_p.length = t.slot_count ∧
  (∃ b : Nat, t.slot_count = 2 ^ b ∧ t.index_mask = 2 ^ b - 1) ∧
  (∀ j, j < t.entry_p_list_p.length →
    ∀ e ∈ t.entry_p_list_p.getD j [],
      e.hash_value = t.key_hash_obj e.key ∧ e.hash_value &&& t.index_mask = j)

/-- Run a list of `(key, value)` insertions left to right. -/
def runInserts (t : CASCC V) (ops : List (Nat × V)) : CASCC V :=
  ops.foldl (fun t pr => t.Insert pr.1 pr.2) t

end CASCC

/-- The C7 scenario: a CA-SCC table over `Nat` values, requested
capacity 30, the MurmurHash3-style hasher and the default 400% load
factor of the source, loaded with `(i, i)` for every `i < 1000`. -/
def c7Table : CASCC Nat :=
  CASCC.runInserts (CASCC.new 30 SimpleInt64Hasher (LoadFactorPercent 400))
    ((List.range 1000).map (fun i => (i, i)))

/-! ## `HashTable_CA_CC` (closed addressing, globally chained)

All nodes live on one singly-linked global chain rooted at
`dummy_entry`; the bucket array holds raw pointers into that chain.
Because nodes are shared between the bucket array and the global chain
(and the code mutates `next_p` through both), the heap is modelled
explicitly: a node is addressed by its allocation index in `nodes`,
null pointers are `none`.  Loops that chase `next_p` receive fuel
`nodes.length + 1`; running out of fuel — possible only when the chain
is cyclic or revisits nodes, in which case the C++ loop does not
terminate either — yields `none` ("no defined result"), as does
dereferencing a null pointer. -/

/-- A `HashTable_CA_CC::HashEntry`: hash, next pointer (a heap index or
null), and the key-value pair. -/
structure CCNode (V : Type) where
  hash_value : Nat
  next_p : Option Nat
  key : Nat
  value : V
  deriving Repr, DecidableEq

/-- The `HashTable_CA_CC` state.  `nodes` is the allocation heap
(`new HashEntry` appends), `entry_p_list_p` the bucket array, and
`dummy_next` the `next_p` field of the `dummy_entry` member. -/
structure CACC (V : Type) where
  nodes : List (CCNode V)
  entry_p_list_p : List (Option Nat)
  dummy_next : Option Nat
  index_mask : Nat
  slot_count : Nat
  entry_count : Nat
  resize_threshold : Nat
  key_hash_obj : Nat → Nat
  lfc : Nat → Nat

namespace CACC

variable {V : Type}

/-- Read a node field through a possibly dangling id; ids handed out by
`Insert` are always in range, so the default is never observed in the
states this development evaluates. -/
def nodeHash (t : CACC V) (i : Nat) : Nat :=
  ((t.nodes.get? i).map (fun n => n.hash_value)).getD 0

/-- The `next_p` field of node `i` (`none` doubles as null). -/
def nodeNext (t : CACC V) (i : Nat) : Option Nat :=
  ((t.nodes.get? i).map (fun n => n.next_p)).getD none

/-- The key of node `i`. -/
def nodeKey (t : CACC V) (i : Nat) : Nat :=
  ((t.nodes.get? i).map (fun n => n.key)).getD 0

/-- Overwrite the `next_p` field of node `i`. -/
def setNext (t : CACC V) (i : Nat) (nxt : Option Nat) : CACC V :=
  { t with nodes :=
      match t.nodes.get? i with
      | some n => t.nodes.set i { n with next_p := nxt }
      | none => t.nodes }

/-- Read bucket `index` of `entry_p_list_p`. -/
def getBucket (t : CACC V) (index : Nat) : Option Nat :=
  t.entry_p_list_p.getD index none

/-- Overwrite bucket `index` of `entry_p_list_p`. -/
def setBucket (t : CACC V) (index : Nat) (v : Option Nat) : CACC V :=
  { t with entry_p_list_p := t.entry_p_list_p.set index v }

/-- `HashTable_CA_CC::InsertIntoSlot()`, verbatim:

* empty slot: park the node in the slot, link it in front of the global
  chain (redirecting the bucket that owned the previous first node to
  the new node), making it `dummy_entry`'s successor;
* occupied slot (current node `p`): `entry_p->next_p = p` and then
  `entry_p_list_p[index]->next_p = entry_p` (note that this points the
  new node back at `p` itself, not at `p`'s former successor). -/
def InsertIntoSlot (t : CACC V) (entry_p : Nat) (index : Nat) : CACC V :=
  match t.getBucket index with
  | none =>
    let t := t.setBucket index (some entry_p)
    let t := t.setNext entry_p t.dummy_next
    match t.dummy_next with
    | none =>
      let t := t.setNext entry_p none
      let t := t.setBucket index (some entry_p)
      { t with dummy_next := some entry_p }
    | some first =>
      let prev_index := t.nodeHash first &&& t.index_mask
      let t := t.setBucket prev_index (some entry_p)
      { t with dummy_next := some entry_p }
  | some p =>
    let t := t.setNext entry_p (some p)
    t.setNext p (some entry_p)

/-- The chain walk of `HashTable_CA_CC::Resize()`: re-insert the node
at hand into the fresh bucket array, then advance through its (already
re-spliced) `next_p` — exactly as the C++ loop reads
`entry_p = entry_p->next_p` after `InsertIntoSlot`. -/
def resizeLoop (t : CACC V) : Option Nat → Nat → CACC V
  | none, _ => t
  | some _, 0 => t
  | some e, fuel + 1 =>
    let new_index := t.nodeHash e &&& t.index_mask
    let t := t.InsertIntoSlot e new_index
    resizeLoop t (t.nodeNext e) fuel

/-- `HashTable_CA_CC::Resize()`: double the slot count, recompute mask
and threshold, replace the bucket array by a zeroed one, detach the
global chain from the dummy head and walk it with `resizeLoop`. -/
def Resize (t : CACC V) : CACC V :=
  let sc := t.slot_count <<< 1
  let t := { t with
    slot_count := sc
    index_mask := sc - 1
    resize_threshold := t.lfc sc
    entry_p_list_p := List.replicate sc none }
  let start := t.dummy_next
  let t := { t with dummy_next := none }
  resizeLoop t start (t.nodes.length + 1)

/-- The `HashTable_CA_CC` constructor (same slot-count rounding as
`HashTable_CA_SCC`, zeroed bucket array, null dummy successor). -/
def new (p_slot_count : Nat) (hashf : Nat → Nat) (lfc : Nat → Nat) : CACC V :=
  { nodes := []
    entry_p_list_p := List.replicate (caRoundSlotCount p_slot_count).1 none
    dummy_next := none
    index_mask := (caRoundSlotCount p_slot_count).2
    slot_count := (caRoundSlotCount p_slot_count).1
    entry_count := 0
    resize_threshold := lfc (caRoundSlotCount p_slot_count).1
    key_hash_obj := hashf
    lfc := lfc }

/-- `HashTable_CA_CC::Insert()`: resize when
`entry_count == resize_threshold`, allocate a node (its `next_p` is
left uninitialized by the three-argument `HashEntry` constructor;
`InsertIntoSlot` always overwrites it before any read, so the model
initializes it to `none`), splice it in, bump the count. -/
def Insert (t : CACC V) (key : Nat) (value : V) : CACC V :=
  let t := if t.entry_count = t.resize_threshold then t.Resize else t
  let hash_value := t.key_hash_obj key
  let index := t.index_mask &&& hash_value
  let entry_p := t.nodes.length
  let t := { t with nodes := t.nodes ++
    [({ hash_value := hash_value, next_p := none, key := key, value := value } : CCNode V)] }
  let t := t.InsertIntoSlot entry_p index
  { t with entry_count := t.entry_count + 1 }

/-- The do-while body of `HashTable_CA_CC::GetValue()`: advance to
`entry_p->next_p` first, compare the key (dereferencing the advanced
pointer — `none` here is the null dereference the C++ performs), then
keep looping while the node is non-null and its hash equals the query
hash.  Returns `none` when the C++ has no defined result. -/
def getValueLoop (t : CACC V) (key hash : Nat) (acc : List V) :
    Nat → Nat → Option (List V)
  | _, 0 => none
  | cur, fuel + 1 =>
    match t.nodeNext cur with
    | none => none
    | some nid =>
      match t.nodes.get? nid with
      | none => none
      | some node =>
        let acc := if node.key == key then acc ++ [node.value] else acc
        if node.hash_value == hash then
          getValueLoop t key hash acc nid fuel
        else
          some acc

/-- `HashTable_CA_CC::GetValue()` (vector overload): null bucket means
an empty result; otherwise run the do-while loop starting from the
bucket pointer. -/
def GetValue (t : CACC V) (key : Nat) : Option (List V) :=
  let hash_value := t.key_hash_obj key
  let index := t.index_mask &&& hash_value
  match t.getBucket index with
  | none => some []
  | some p => getValueLoop t key hash_value [] p (t.nodes.length + 1)

/-- The ids on the global chain starting at `dummy_entry.next_p`, in
chain order (cut off by fuel on a cyclic chain). -/
def chainListAux (t : CACC V) : Option Nat → Nat → List Nat
  | none, _ => []
  | some _, 0 => []
  | some e, fuel + 1 => e :: chainListAux t (t.nodeNext e) fuel

/-- All node ids reachable from the dummy head along `next_p`. -/
def chainList (t : CACC V) : List Nat :=
  chainListAux t t.dummy_next (t.nodes.length + 1)

end CACC

/-! ## `HashTable_OA_KVL` (open addressing with key-value lists)

The entry array has `entry_count + 1` slots, the last being the
status-`INLINE_VALUE` sentinel that terminates iteration.  The C++
keeps key/value storage raw (uninitialized) except between the
explicit `Init`/`Fini` calls of the `Data<T>` wrapper; the model makes
that lifetime visible with `Option`-valued slots, `none` standing for
storage with no constructed object (reading such storage is undefined
behaviour in the C++; the model returns the `none`).  The
status-versus-pointer union of the entry is a sum type whose
`MULTIPLE_VALUES` constructor owns the key-value list.  All probe
loops receive fuel `entry_count`: the cyclic probe sequence revisits
its starting slot after exactly `entry_count` steps, so a C++ probe
either stops within the fuel or never stops; `none` models the latter
(and, for `resizeWalk`, the out-of-bounds walk the C++ performs when
`active_entry_count` overcounts the valid entries). -/

/-- `HashTable_OA_KVL::KeyValueList`: `size` and `capacity` headers
followed by `capacity` value slots of which the first `size` are
constructed. -/
structure KeyValueList (V : Type) where
  size : Nat
  capacity : Nat
  data : List (Option V)
  deriving Repr, DecidableEq

namespace KeyValueList

variable {V : Type}

/-- `KeyValueList::IsFull()`. -/
def IsFull (l : KeyValueList V) : Bool := l.size == l.capacity

/-- `KeyValueList::FillValue()`: placement-construct `value` at `index`. -/
def FillValue (l : KeyValueList V) (index : Nat) (value : V) : KeyValueList V :=
  { l with data := l.data.set index (some value) }

/-- `KeyValueList::DeleteIndex()`: destroy slot `index`, shift each of
the `size - index - 1` following values one slot forward
(copy-construct then destroy, leaving slot `size - 1` raw), decrement
`size`. -/
def DeleteIndex (l : KeyValueList V) (index : Nat) : KeyValueList V :=
  { l with
    size := l.size - 1
    data := (List.range l.data.length).map (fun j =>
      if j < index then l.data.getD j none
      else if j + 1 < l.size then l.data.getD (j + 1) none
      else if j + 1 = l.size then none
      else l.data.getD j none) }

/-- `KeyValueList::GetResized()`: a fresh list of double capacity whose
first `size` slots are copy-constructed from this one (called only
with `size == capacity`); the remaining slots are raw. -/
def GetResized (l : KeyValueList V) : KeyValueList V :=
  { size := l.size
    capacity := l.capacity <<< 1
    data := l.data.take l.size ++ List.replicate ((l.capacity <<< 1) - l.size) none }

end KeyValueList

/-- `HashEntry::StatusCode` together with the status-or-pointer union:
`MULTIPLE_VALUES` (status `>= 3`) carries the owned key-value list. -/
inductive StatusCode (V : Type) where
  | FREE
  | DELETED
  | INLINE_VALUE
  | MULTIPLE_VALUES (kv_p : KeyValueList V)
  deriving Repr, DecidableEq

/-- `HashTable_OA_KVL::HashEntry`: status word, cached hash, raw
inline key and value storage. -/
structure HashEntry (V : Type) where
  status : StatusCode V
  hash_value : Nat
  key : Option Nat
  value : Option V
  deriving Repr, DecidableEq

namespace HashEntry

variable {V : Type}

/-- `HashEntry::IsFree()`. -/
def IsFree (e : HashEntry V) : Bool :=
  match e.status with | .FREE => true | _ => false

/-- `HashEntry::IsDeleted()`. -/
def IsDeleted (e : HashEntry V) : Bool :=
  match e.status with | .DELETED => true | _ => false

/-- `HashEntry::IsProbeEndForInsert()`: `status < INLINE_VALUE`. -/
def IsProbeEndForInsert (e : HashEntry V) : Bool :=
  match e.status with | .FREE => true | .DELETED => true | _ => false

/-- `HashEntry::IsValidEntry()`: `status >= INLINE_VALUE`. -/
def IsValidEntry (e : HashEntry V) : Bool :=
  match e.status with | .INLINE_VALUE => true | .MULTIPLE_VALUES _ => true | _ => false

/-- `HashEntry::IsProbeEndForSearch()`: free entries end a search probe. -/
def IsProbeEndForSearch (e : HashEntry V) : Bool := e.IsFree

/-- `HashEntry::HasKeyValueList()`: `status >= MULTIPLE_VALUES`. -/
def HasKeyValueList (e : HashEntry V) : Bool :=
  match e.status with | .MULTIPLE_VALUES _ => true | _ => false

/-- The key-value list owned by a `MULTIPLE_VALUES` entry. -/
def kvList (e : HashEntry V) : Option (KeyValueList V) :=
  match e.status with | .MULTIPLE_VALUES kv => some kv | _ => none

end HashEntry

/-- A `FREE` slot as produced by `GetHashEntryListStatic`: only the
status word is initialized; hash and the key/value storage are
unconstructed memory, modelled as `0`/`none`. -/
def freeEntry (V : Type) : HashEntry V :=
  { status := .FREE, hash_value := 0, key := none, value := none }

/-- The terminator sentinel: status `INLINE_VALUE`, everything else
unconstructed. -/
def sentinelEntry (V : Type) : HashEntry V :=
  { status := .INLINE_VALUE, hash_value := 0, key := none, value := none }

/-- `HashTable_OA_KVL::GetHashEntryListStatic()`: `entry_count` free
slots followed by the sentinel. -/
def GetHashEntryListStatic (V : Type) (entry_count : Nat) : List (HashEntry V) :=
  List.replicate entry_count (freeEntry V) ++ [sentinelEntry V]

/-- The `HashTable_OA_KVL` state.  `esz` is `sizeof(HashEntry)` of the
C++ instantiation, a template-dependent positive constant that the
constructor uses for its page-size floor. -/
structure OAKVL (V : Type) where
  entry_list_p : List (HashEntry V)
  index_mask : Nat
  active_entry_count : Nat
  entry_count : Nat
  resize_threshold : Nat
  key_hash_obj : Nat → Nat
  lfc : Nat → Nat

namespace OAKVL

variable {V : Type}

/-- The entry at slot `index` (all defined accesses are in range:
`entry_list_p` has `entry_count + 1` entries). -/
def entryAt (t : OAKVL V) (index : Nat) : HashEntry V :=
  t.entry_list_p.getD index (freeEntry V)

/-- Overwrite the entry at slot `index`. -/
def setEntry (t : OAKVL V) (index : Nat) (e : HashEntry V) : OAKVL V :=
  { t with entry_list_p := t.entry_list_p.set index e }

/-- `HashTable_OA_KVL::GetNextEntry()`: advance the probe index,
wrapping to `0` when it reaches `entry_count`. -/
def nextIndex (t : OAKVL V) (index : Nat) : Nat :=
  if index + 1 = t.entry_count then 0 else index + 1

/-- The probe loop of `ProbeForResize()`: advance until a free slot. -/
def probeResizeAux (t : OAKVL V) : Nat → Nat → Option Nat
  | _, 0 => none
  | index, fuel + 1 =>
    if (t.entryAt index).IsFree then some index
    else probeResizeAux t (t.nextIndex index) fuel

/-- `HashTable_OA_KVL::ProbeForResize()`: first free slot of the probe
sequence of `hash_value`. -/
def ProbeForResize (t : OAKVL V) (hash_value : Nat) : Option Nat :=
  probeResizeAux t (hash_value &&& t.index_mask) t.entry_count

/-- The probe loop of `ProbeForSearch()`: stop (with no result) at a
free slot, return the slot whose non-deleted entry has the key, skip
everything else.  Beware: this rendering returns `none` both at a FREE
slot (the code's genuine miss) and on fuel exhaustion — the case in
which the C++ loop, which only ever stops at a FREE or matching slot,
never terminates (reachable once every slot is DELETED).  It is
adequate for reasoning about hits; `probeSearchAuxD` below keeps the
two outcomes apart. -/
def probeSearchAux (t : OAKVL V) (key : Nat) : Nat → Nat → Option Nat
  | _, 0 => none
  | index, fuel + 1 =>
    let e := t.entryAt index
    if e.IsProbeEndForSearch then none
    else if !e.IsDeleted && e.key == some key then some index
    else probeSearchAux t key (t.nextIndex index) fuel

/-- `HashTable_OA_KVL::ProbeForSearch()`. -/
def ProbeForSearch (t : OAKVL V) (key : Nat) : Option Nat :=
  probeSearchAux t key ((t.key_hash_obj key) &&& t.index_mask) t.entry_count

/-- Where `ProbeForInsert` tells its caller to construct the new value:
the inline slot of entry `i`, or slot `j` of the key-value list of
entry `i`. -/
inductive VLoc where
  | inlineSlot (i : Nat)
  | kvlSlot (i : Nat) (j : Nat)
  deriving Repr, DecidableEq

/-- The probe loop of `ProbeForInsert()`.  On a free or deleted slot
(`IsProbeEndForInsert`): switch it to `INLINE_VALUE`, record hash and
key, bump `active_entry_count`, and hand the caller the inline value
slot.  On a valid slot with a matching key: either materialize the
initial key-value list (capacity 4, size 2, the previously inline
value copy-constructed at index 0 and then destroyed inline, the new
value to go to index 1), or append to the existing list, doubling it
first via `GetResized` when full.  Otherwise keep probing. -/
def probeInsertAux (t : OAKVL V) (key hash_value : Nat) :
    Nat → Nat → Option (OAKVL V × VLoc)
  | _, 0 => none
  | index, fuel + 1 =>
    match (t.entryAt index).status with
    | .FREE | .DELETED =>
      some ({ t.setEntry index
                { t.entryAt index with
                  status := .INLINE_VALUE, hash_value := hash_value, key := some key } with
              active_entry_count := t.active_entry_count + 1 },
            .inlineSlot index)
    | .INLINE_VALUE =>
      if (t.entryAt index).key == some key then
        some (t.setEntry index
          { t.entryAt index with
            status := .MULTIPLE_VALUES
              { size := 2, capacity := 4,
                data := (List.replicate 4 (none : Option V)).set 0 (t.entryAt index).value }
            value := none },
          .kvlSlot index 1)
      else probeInsertAux t key hash_value (t.nextIndex index) fuel
    | .MULTIPLE_VALUES kv =>
      if (t.entryAt index).key == some key then
        if kv.IsFull then
          some (t.setEntry index
            { t.entryAt index with
              status := .MULTIPLE_VALUES { kv.GetResized with size := kv.GetResized.size + 1 } },
            .kvlSlot index kv.size)
        else
          some (t.setEntry index
            { t.entryAt index with
              status := .MULTIPLE_VALUES { kv with size := kv.size + 1 } },
            .kvlSlot index kv.size)
      else probeInsertAux t key hash_value (t.nextIndex index) fuel

/-- `HashTable_OA_KVL::ProbeForInsert()`: hash the key and run the
probe loop from `hash & index_mask`. -/
def ProbeForInsert (t : OAKVL V) (key : Nat) : Option (OAKVL V × VLoc) :=
  let hash_value := t.key_hash_obj key
  probeInsertAux t key hash_value (hash_value &&& t.index_mask) t.entry_count

/-- The caller-side `value_p->Init(value)` that finishes an insert:
construct the value in the slot `ProbeForInsert` returned. -/
def writeValue (t : OAKVL V) : VLoc → V → OAKVL V
  | .inlineSlot i, value => t.setEntry i { t.entryAt i with value := some value }
  | .kvlSlot i j, value =>
    match (t.entryAt i).status with
    | .MULTIPLE_VALUES kv =>
      t.setEntry i
        { t.entryAt i with status := .MULTIPLE_VALUES (kv.FillValue j value) }
    | _ => t

/-- The rehash loop of `HashTable_OA_KVL::Resize()`: scan the old
array while `remaining > 0`; every valid entry is copied
(`CopyTo`: status — carrying the key-value list pointer — hash and
key, plus the inline value only for `INLINE_VALUE` entries) onto the
free slot found by `ProbeForResize` in the new array, and its source
storage destroyed.  `none` models the undefined behaviour of walking
past the old array (reachable only when `active_entry_count`
overcounts) or of a never-ending probe. -/
def resizeWalk (t_new : OAKVL V) : List (HashEntry V) → Nat → Option (OAKVL V)
  | _, 0 => some t_new
  | [], _ + 1 => none
  | e :: rest, remaining + 1 =>
    if e.IsValidEntry then
      match t_new.ProbeForResize e.hash_value with
      | none => none
      | some idx =>
        let tgt := t_new.entryAt idx
        let tgt' := { tgt with
          status := e.status
          hash_value := e.hash_value
          key := e.key
          value := if e.HasKeyValueList then tgt.value else e.value }
        resizeWalk (t_new.setEntry idx tgt') rest remaining
    else
      resizeWalk t_new rest (remaining + 1)

/-- `HashTable_OA_KVL::Resize()`: double `entry_count`, recompute mask
and threshold, allocate a fresh entry array (with sentinel), rehash
the valid entries of the old array into it. -/
def Resize (t : OAKVL V) : Option (OAKVL V) :=
  let ec := t.entry_count <<< 1
  let t_new := { t with
    entry_count := ec
    index_mask := ec - 1
    resize_threshold := t.lfc ec
    entry_list_p := GetHashEntryListStatic V ec }
  resizeWalk t_new t.entry_list_p t.active_entry_count

/-- `HashTable_OA_KVL::GetInitEntryCount()`: raise the request to the
hard minimum 32, then to one page worth of entries
(`4096 / sizeof(HashEntry)`, the entry size `esz` being a template
constant). -/
def GetInitEntryCount (esz requested_size : Nat) : Nat :=
  if 4096 / esz > (if requested_size < 32 then 32 else requested_size) then 4096 / esz
  else (if requested_size < 32 then 32 else requested_size)

/-- `HashTable_OA_KVL::SetSizeAndMask()`: round the requested size up
to `1 << effective_bits`, then shift back once when the request was
already a power of two (here the comparison is against the saved
request, so — unlike the closed-addressing constructors — it fires
correctly). -/
def SetSizeAndMask (requested_size : Nat) : Nat × Nat :=
  if requested_size = (1 <<< effectiveBits requested_size) >>> 1 then
    ((1 <<< effectiveBits requested_size) >>> 1,
      ((1 <<< effectiveBits requested_size) - 1) >>> 1)
  else
    (1 <<< effectiveBits requested_size, (1 <<< effectiveBits requested_size) - 1)

/-- The `HashTable_OA_KVL` constructor: compute the initial entry
count (`GetInitEntryCount` then `SetSizeAndMask`), the threshold from
the load-factor policy, and the fresh entry array. -/
def new (V : Type) (esz init_entry_count : Nat)
    (hashf : Nat → Nat) (lfc : Nat → Nat) : OAKVL V :=
  { entry_list_p :=
      GetHashEntryListStatic V (SetSizeAndMask (GetInitEntryCount esz init_entry_count)).1
    index_mask := (SetSizeAndMask (GetInitEntryCount esz init_entry_count)).2
    active_entry_count := 0
    entry_count := (SetSizeAndMask (GetInitEntryCount esz init_entry_count)).1
    resize_threshold := lfc (SetSizeAndMask (GetInitEntryCount esz init_entry_count)).1
    key_hash_obj := hashf
    lfc := lfc }

/-- `HashTable_OA_KVL::Insert()`: resize when
`active_entry_count == resize_threshold`, then `ProbeForInsert` and
construct the value in the returned slot. -/
def Insert (t : OAKVL V) (key : Nat) (value : V) : Option (OAKVL V) :=
  match (if t.active_entry_count = t.resize_threshold then t.Resize else some t) with
  | none => none
  | some t =>
    match t.ProbeForInsert key with
    | none => none
    | some (t', loc) => some (t'.writeValue loc value)

/-- `HashTable_OA_KVL::GetValue()`: the contents of the returned
`(value pointer, count)` range — empty on a miss, the first `size`
slots of the key-value list, or the single inline value. -/
def GetValue (t : OAKVL V) (key : Nat) : List (Option V) :=
  match t.ProbeForSearch key with
  | none => []
  | some i =>
    match (t.entryAt i).status with
    | .MULTIPLE_VALUES kv => kv.data.take kv.size
    | _ => [(t.entryAt i).value]

/-- `HashTable_OA_KVL::DeleteEntry()`: destroy the values and free the
key-value list if there is one, destroy the inline key/value, set the
status to `DELETED` (the hash word is left behind), decrement
`active_entry_count`. -/
def DeleteEntry (t : OAKVL V) (i : Nat) : OAKVL V :=
  { t.setEntry i
      { status := .DELETED, hash_value := (t.entryAt i).hash_value,
        key := none, value := none } with
    active_entry_count := t.active_entry_count - 1 }

/-- `HashTable_OA_KVL::DeleteKey()`: search, return `false` on a miss,
otherwise delete the whole entry. -/
def DeleteKey (t : OAKVL V) (key : Nat) : Bool × OAKVL V :=
  match t.ProbeForSearch key with
  | none => (false, t)
  | some i => (true, t.DeleteEntry i)

/-- The `value_p` member of an iterator: a pointer into either the
inline value slot of an entry or a slot of its key-value list
(`addOff` is the C++ pointer arithmetic on it). -/
inductive ValuePtr where
  | inl (entry : Nat) (off : Nat)
  | kvl (entry : Nat) (off : Nat)
  deriving Repr, DecidableEq

/-- Pointer addition on `value_p`. -/
def ValuePtr.addOff : ValuePtr → Nat → ValuePtr
  | .inl e o, n => .inl e (o + n)
  | .kvl e o, n => .kvl e (o + n)

/-- `HashTable_OA_KVL::Iterator`: entry pointer, value pointer,
remaining count.  (`operator==` compares `entry_p` and `remaining`
only.) -/
structure Iterator where
  entry_p : Nat
  value_p : ValuePtr
  remaining : Nat
  deriving Repr, DecidableEq

/-- `HashTable_OA_KVL::BuildIterator()`: point at the first element of
the entry — the inline value with `remaining = 1`, or slot 0 of the
key-value list with `remaining = size`. -/
def BuildIterator (t : OAKVL V) (i : Nat) : Iterator :=
  match (t.entryAt i).status with
  | .MULTIPLE_VALUES kv =>
    { entry_p := i, value_p := .kvl i 0, remaining := kv.size }
  | _ => { entry_p := i, value_p := .inl i 0, remaining := 1 }

/-- `HashTable_OA_KVL::End()`: the iterator built on the sentinel
entry one past the last real slot. -/
def End (t : OAKVL V) : Iterator := t.BuildIterator t.entry_count

/-- `HashTable_OA_KVL::Begin(key)`: iterator on the entry of `key`, or
`End()` when absent. -/
def Begin (t : OAKVL V) (key : Nat) : Iterator :=
  match t.ProbeForSearch key with
  | none => t.End
  | some i => t.BuildIterator i

/-- `HashTable_OA_KVL::KeyRange()`: `(End(), End())` on a miss;
otherwise a pair of iterators on the found entry, the second obtained
from the first by `value_p += remaining - 1; remaining = 1`. -/
def KeyRange (t : OAKVL V) (key : Nat) : Iterator × Iterator :=
  match t.ProbeForSearch key with
  | none => (t.End, t.End)
  | some i =>
    let it1 := t.BuildIterator i
    let it2 := { it1 with
      value_p := it1.value_p.addOff (it1.remaining - 1), remaining := 1 }
    (it1, it2)

/-- `HashTable_OA_KVL::Delete(it)`: no key-value list — delete the
entry; a single-element list — delete the entry as well; otherwise
`DeleteIndex(size - it.remaining)` on the list. -/
def Delete (t : OAKVL V) (it : Iterator) : OAKVL V :=
  match (t.entryAt it.entry_p).status with
  | .MULTIPLE_VALUES kv =>
    if kv.size = 1 then t.DeleteEntry it.entry_p
    else t.setEntry it.entry_p
      { t.entryAt it.entry_p with
        status := .MULTIPLE_VALUES (kv.DeleteIndex (kv.size - it.remaining)) }
  | _ => t.DeleteEntry it.entry_p

/-- One loop iteration of `GetMaxSearchProbeLength()` on the state
`(count, max_count)`: at a free slot flush the counter into the
maximum and reset it to 1, otherwise increment it. -/
def maxScanStep (st : Nat × Nat) (e : HashEntry V) : Nat × Nat :=
  if e.IsProbeEndForSearch then
    (1, if st.1 > st.2 then st.1 else st.2)
  else
    (st.1 + 1, st.2)

/-- `HashTable_OA_KVL::GetMaxSearchProbeLength()`: scan the
`entry_count` real slots with `maxScanStep` from `(1, 0)` and return
the maximum. -/
def GetMaxSearchProbeLength (t : OAKVL V) : Nat :=
  ((t.entry_list_p.take t.entry_count).foldl maxScanStep ((1, 0) : Nat × Nat)).2

/-- One loop iteration of `GetMeanSearchProbeLength()` on the state
`(count, total_count, sequence_count, previous_valid)`: at a free slot
preceded by a non-free one the counter is added to `total_count` and
`sequence_count` is incremented; the counter resets at free slots and
increments elsewhere. -/
def meanScanStep (st : Nat × Nat × Nat × Bool) (e : HashEntry V) :
    Nat × Nat × Nat × Bool :=
  let (count, total_count, sequence_count, previous_valid) := st
  if e.IsProbeEndForSearch then
    if previous_valid then (1, total_count + count, sequence_count + 1, false)
    else (1, total_count, sequence_count, false)
  else (count + 1, total_count, sequence_count, true)

/-- `HashTable_OA_KVL::GetMeanSearchProbeLength()`: scan the
`entry_count` real slots with `meanScanStep` from `(1, 0, 0, false)`.
The C++ returns `total_count / sequence_count` as a `double`; the
model returns the two integers. -/
def GetMeanSearchProbeLength (t : OAKVL V) : Nat × Nat :=
  let st := (t.entry_list_p.take t.entry_count).foldl meanScanStep (1, 0, 0, false)
  (st.2.1, st.2.2.1)

/-- Run a list of inserts left to right (`none` as soon as one insert
has no defined result). -/
def runInserts (t : OAKVL V) (ops : List (Nat × V)) : Option (OAKVL V) :=
  ops.foldlM (fun t kv => t.Insert kv.1 kv.2) t

/-- An externally invokable mutation of the table, for stating
sequences that mix inserts and deletions. -/
inductive Op (V : Type) where
  | ins (key : Nat) (value : V)
  | delKey (key : Nat)
  deriving Repr

/-- Run one operation. -/
def runOp (t : OAKVL V) : Op V → Option (OAKVL V)
  | .ins k v => t.Insert k v
  | .delKey k => some (t.DeleteKey k).2

/-- Run a sequence of operations. -/
def runOps (t : OAKVL V) (ops : List (Op V)) : Option (OAKVL V) :=
  ops.foldlM runOp t

end OAKVL

/-! ## OA-KVL correctness scaffolding (for C1)

The concepts needed to state and prove insert-only correctness: the
value history a sequence of inserts produces for a key, the cyclic
probe geometry, the values one entry contributes to `GetValue`, the
valid-slot count, the structural invariant of a table, and the
re-insertion steps of `Resize` in a named form. -/

/-- Specification side: the values inserted for key `k` by an
insert-only operation sequence, in order. -/
def histOf {V : Type} (ops : List (Nat × V)) (k : Nat) : List V :=
  (ops.filter (fun pr => pr.1 == k)).map (fun pr => pr.2)

/-- The slot reached `d` probe steps after slot `p` in a table of `ec`
slots: the single-wrap form of `(p + d) % ec`, adequate whenever
`p < ec` and `d ≤ ec`. -/
def probeSlot (ec p d : Nat) : Nat :=
  if p + d < ec then p + d else p + d - ec

/-- The number of probe steps leading from slot `p` to slot `i`: the
value of `(i + ec - p) % ec` for `p, i < ec`. -/
def probeDist (ec p i : Nat) : Nat :=
  if p ≤ i then i - p else ec - p + i

/-- The values `GetValue` reads out of one entry: the first `size`
slots of the key-value list, the inline value, or nothing. -/
def entryVals {V : Type} (e : HashEntry V) : List (Option V) :=
  match e.status with
  | .MULTIPLE_VALUES kv => kv.data.take kv.size
  | .INLINE_VALUE => [e.value]
  | _ => []

/-- The number of valid (INLINE or MULTIPLE) real slots of the table. -/
def validCount {V : Type} (t : OAKVL V) : Nat :=
  (t.entry_list_p.take t.entry_count).countP (fun e => e.IsValidEntry)

/-- Payload well-formedness of one entry: a key-value list has at
least its two creation-time values, fits its capacity, and its data
array spans exactly the capacity. -/
def entryWF {V : Type} (e : HashEntry V) : Prop :=
  match e.status with
  | .MULTIPLE_VALUES kv =>
      2 ≤ kv.size ∧ kv.size ≤ kv.capacity ∧ kv.data.length = kv.capacity
  | _ => True

/-- What `Resize`'s `CopyTo` transfers: status (hence the key-value
list pointer), hash and key; the inline value only when no list is
owned. -/
def copiedFrom {V : Type} (tgt e : HashEntry V) : Prop :=
  tgt.status = e.status ∧ tgt.hash_value = e.hash_value ∧
  tgt.key = e.key ∧ (e.HasKeyValueList = false → tgt.value = e.value)

/-- The structural invariant of the entry array alone (also satisfied
by the half-filled new array inside `Resize`): correct physical
length, power-of-two geometry, no DELETED slot, every valid entry
keyed and hashed consistently with well-formed payload, and the probe
path from every valid entry's home slot to the entry filled with
valid entries of other keys. -/
structure PINV {V : Type} (hashf : Nat → Nat) (t : OAKVL V) : Prop where
  hlen : t.entry_list_p.length = t.entry_count + 1
  hpow : ∃ b : Nat, t.entry_count = 2 ^ b ∧ t.index_mask = 2 ^ b - 1
  hnodel : ∀ i, i < t.entry_count → (t.entryAt i).IsDeleted = false
  hwf : ∀ i, i < t.entry_count → (t.entryAt i).IsValidEntry = true →
    ∃ k, (t.entryAt i).key = some k ∧ (t.entryAt i).hash_value = hashf k ∧
      entryWF (t.entryAt i)
  hpath : ∀ i, i < t.entry_count → (t.entryAt i).IsValidEntry = true →
    ∀ d, d < probeDist t.entry_count
        ((t.entryAt i).hash_value &&& t.index_mask) i →
      (t.entryAt (probeSlot t.entry_count
          ((t.entryAt i).hash_value &&& t.index_mask) d)).IsValidEntry = true ∧
      (t.entryAt (probeSlot t.entry_count
          ((t.entryAt i).hash_value &&& t.index_mask) d)).key
        ≠ (t.entryAt i).key

/-- The full invariant of a live table between operations: the array
invariant plus the bookkeeping: functors in place, the active count
matching the valid slots and staying under the threshold, and the
threshold strictly under the slot count. -/
structure OINV {V : Type} (hashf lfc : Nat → Nat) (t : OAKVL V) : Prop where
  core : PINV hashf t
  hkh : t.key_hash_obj = hashf
  hlf : t.lfc = lfc
  hthr : t.active_entry_count ≤ t.resize_threshold
  hthrlt : t.resize_threshold < t.entry_count
  hthreq : t.resize_threshold = lfc t.entry_count
  hcount : validCount t = t.active_entry_count

/-- The run invariant after processing the insert-only sequence `ops`:
the table invariant; keys never inserted occupy no slot; every
inserted key occupies a valid slot holding exactly its insertion
history. -/
structure ORun {V : Type} (hashf lfc : Nat → Nat) (ops : List (Nat × V))
    (t : OAKVL V) : Prop where
  inv : OINV hashf lfc t
  habsent : ∀ k, histOf ops k = [] → ∀ i, i < t.entry_count →
    (t.entryAt i).IsValidEntry = true → (t.entryAt i).key ≠ some k
  hpresent : ∀ k, histOf ops k ≠ [] → ∃ i, i < t.entry_count ∧
    (t.entryAt i).IsValidEntry = true ∧ (t.entryAt i).key = some k ∧
    entryVals (t.entryAt i) = (histOf ops k).map some

/-- One re-insertion of `Resize`: find the free slot for the entry's
cached hash and copy the entry onto it (the valid branch of the rehash
loop, in a named form). -/
def placeEntry {V : Type} (t_new : OAKVL V) (e : HashEntry V) :
    Option (OAKVL V) :=
  match t_new.ProbeForResize e.hash_value with
  | none => none
  | some idx =>
    some (t_new.setEntry idx
      { t_new.entryAt idx with
        status := e.status
        hash_value := e.hash_value
        key := e.key
        value := if e.HasKeyValueList then (t_new.entryAt idx).value
          else e.value })

/-- Re-insert a list of entries in order (`none` as soon as one probe
fails). -/
def placeAll {V : Type} (t_new : OAKVL V) : List (HashEntry V) → Option (OAKVL V)
  | [] => some t_new
  | e :: es =>
    match placeEntry t_new e with
    | none => none
    | some t_next => placeAll t_next es

/-- The action of `ProbeForInsert` at the matching slot `i` (the three
stopping arms of the probe loop for a valid entry holding the key, in
a named form; the last arm is unreachable). -/
def insertHit {V : Type} (t : OAKVL V) (i : Nat) : OAKVL V × OAKVL.VLoc :=
  match (t.entryAt i).status with
  | .INLINE_VALUE =>
    (t.setEntry i
      { t.entryAt i with
        status := .MULTIPLE_VALUES
          { size := 2, capacity := 4,
            data := (List.replicate 4 (none : Option V)).set 0
              (t.entryAt i).value }
        value := none },
      OAKVL.VLoc.kvlSlot i 1)
  | .MULTIPLE_VALUES kv =>
    if kv.IsFull then
      (t.setEntry i
        { t.entryAt i with
          status := .MULTIPLE_VALUES
            { kv.GetResized with size := kv.GetResized.size + 1 } },
        OAKVL.VLoc.kvlSlot i kv.size)
    else
      (t.setEntry i
        { t.entryAt i with
          status := .MULTIPLE_VALUES { kv with size := kv.size + 1 } },
        OAKVL.VLoc.kvlSlot i kv.size)
  | _ => (t, OAKVL.VLoc.inlineSlot 0)

/-- The search probe loop with its error path kept apart: `none` when
the fuel runs out, `some none` at a FREE slot (the code's miss),
`some (some i)` at the key's slot.  With fuel `entry_count` and a
start below `entry_count`, the loop has visited every slot when the
fuel runs out; since the C++ loop only ever stops at a FREE or
matching slot and revisits the same slots forever after, fuel
exhaustion is exactly the run on which `ProbeForSearch` never
returns. -/
def probeSearchAuxD {V : Type} (t : OAKVL V) (key : Nat) :
    Nat → Nat → Option (Option Nat)
  | _, 0 => none
  | index, fuel + 1 =>
    let e := t.entryAt index
    if e.IsProbeEndForSearch then some none
    else if !e.IsDeleted && e.key == some key then some (some index)
    else probeSearchAuxD t key (t.nextIndex index) fuel

/-- `HashTable_OA_KVL::ProbeForSearch()` with divergence
distinguished: `some (some i)` hit, `some none` terminating miss,
`none` a probe that never returns. -/
def ProbeForSearchD {V : Type} (t : OAKVL V) (key : Nat) : Option (Option Nat) :=
  probeSearchAuxD t key ((t.key_hash_obj key) &&& t.index_mask) t.entry_count

/-! ## Probe-run statistics, specification side

Two renderings of the probe-run statistics over the entry array.
`specProbeRuns` follows the specification's words (a *probe run* is a
maximal stretch of contiguous non-FREE slots; the mean is taken over
runs containing at least one valid entry) and is used to compare the
code against the claim.  `termRuns` characterizes what the scan loops
actually compute: for every FREE slot, the number of contiguous
non-FREE slots immediately preceding it (a trailing run that is not
terminated by a FREE slot inside the array is never flushed). -/

/-- The maximal stretches of contiguous non-FREE slots, each with the
flag "contains at least one valid (`INLINE`/`MULTIPLE`) entry";
`acc`/`av` carry the length and flag of the stretch in progress. -/
def specProbeRunsAux {V : Type} : List (HashEntry V) → Nat → Bool → List (Nat × Bool)
  | [], 0, _ => []
  | [], acc + 1, av => [(acc + 1, av)]
  | e :: rest, acc, av =>
    if e.IsFree then
      match acc with
      | 0 => specProbeRunsAux rest 0 false
      | acc + 1 => (acc + 1, av) :: specProbeRunsAux rest 0 false
    else specProbeRunsAux rest (acc + 1) (av || e.IsValidEntry)

/-- Modelled from the spec: the probe runs of the first `entry_count`
slots of the entry array. -/
def specProbeRuns {V : Type} (t : OAKVL V) : List (Nat × Bool) :=
  specProbeRunsAux (t.entry_list_p.take t.entry_count) 0 false

/-- The largest element of a list of naturals (0 for the empty list). -/
def listMax (l : List Nat) : Nat := l.foldr Nat.max 0

/-- Modelled from the spec: the maximum probe-run length, `0` when
every slot is FREE. -/
def specMaxProbeRun {V : Type} (t : OAKVL V) : Nat :=
  listMax ((specProbeRuns t).map (fun r => r.1))

/-- Modelled from the spec: numerator and denominator of the mean
probe-run length taken over exactly the runs containing at least one
valid entry. -/
def specMeanProbeRun {V : Type} (t : OAKVL V) : Nat × Nat :=
  let rs := (specProbeRuns t).filter (fun r => r.2)
  ((rs.map (fun r => r.1)).sum, rs.length)

/-- For every FREE slot of the list, in order: the number of
contiguous non-FREE slots immediately preceding it (`acc` being the
count accumulated so far).  This is the quantity the statistics scans
flush. -/
def termRuns {V : Type} : List (HashEntry V) → Nat → List Nat
  | [], _ => []
  | e :: rest, acc =>
    if e.IsFree then acc :: termRuns rest 0
    else termRuns rest (acc + 1)

/-! ## Concrete scenario runs

The closed tables that the counterexamples and the code-bug theorems
evaluate.  `id` as a hasher is `std::hash<uint64_t>` (the identity on
the key), `ConstantZero` the colliding hasher the repository's own
OA-KVL tests instantiate. -/

/-- CA-CC, slots rounded from 3 to 4, identity hash: two inserts into
the same (now non-empty) bucket 0. -/
def c2Run : CACC Nat :=
  ((CACC.new 3 id (LoadFactorPercent 400)).Insert 0 100).Insert 4 101

/-- CA-CC, slots rounded from 3 to 4, load factor 75% (threshold 3):
three inserts into distinct buckets, leaving a clean 3-node chain, on
the verge of the resize the next insert triggers. -/
def c3Run : CACC Nat :=
  (((CACC.new 3 id (LoadFactorPercent 75)).Insert 0 10).Insert 1 11).Insert 2 12

/-- CA-CC, slots rounded from 3 to 4, default 400% load factor: three
inserts with distinct keys 0, 1, 2 into distinct buckets. -/
def c4Run : CACC Nat :=
  (((CACC.new 3 id (LoadFactorPercent 400)).Insert 0 100).Insert 1 101).Insert 2 102

/-- The default OA-KVL table of the repository's tests:
`HashTable_OA_KVL<uint64_t, uint64_t, ConstantZero>` (entry size 32
bytes, so the page floor gives 128 entries), default capacity, default
half-full load factor. -/
def oakvlDefault : OAKVL Nat := OAKVL.new Nat 32 0 ConstantZero LoadFactorHalfFull

/-- Insert (1,10) and (2,20), delete key 1, insert (2,21): the deleted
slot sits on key 2's probe path in front of its entry. -/
def c1Run : Option (OAKVL Nat) :=
  oakvlDefault.runOps [.ins 1 10, .ins 2 20, .delKey 1, .ins 2 21]

/-- Give key 1 exactly two values, then `Delete` the iterator
`Begin(1)` (which points at the first value of the two-element
key-value list). -/
def c6Run : Option (OAKVL Nat) :=
  (oakvlDefault.runInserts [(1, 11), (1, 12)]).map (fun t => t.Delete (t.Begin 1))

/-- A single insert with the identity hasher: slot 0 becomes the only
valid entry, every other slot is FREE. -/
def c9Run : Option (OAKVL Nat) :=
  (OAKVL.new Nat 32 0 id LoadFactorHalfFull).Insert 0 42

/-- The number of values an entry holds: the key-value list's `size`,
or 1 for the inline value. -/
def numValues {V : Type} (e : HashEntry V) : Nat :=
  match e.status with
  | .MULTIPLE_VALUES kv => kv.size
  | _ => 1

/-- The (amended) key-value-list bound on a status word: whenever it
owns a list, `1 ≤ size ≤ capacity`. -/
def statusOkB {V : Type} : StatusCode V → Bool
  | .MULTIPLE_VALUES kv => decide (1 ≤ kv.size) && decide (kv.size ≤ kv.capacity)
  | _ => true

/-- The (amended) per-entry key-value-list invariant. -/
def kvlOkB {V : Type} (e : HashEntry V) : Bool := statusOkB e.status

/-- The amended overflow-list invariant over the whole table. -/
def KVLInv {V : Type} (t : OAKVL V) : Prop :=
  ∀ e ∈ t.entry_list_p, kvlOkB e = true

instance {V : Type} (t : OAKVL V) : Decidable (KVLInv t) :=
  List.decidableBAll (fun e => kvlOkB e = true) t.entry_list_p

/-- The default OA-KVL table after giving key 7 three values
(70, 71, 72). -/
def c10T : OAKVL Nat :=
  (oakvlDefault.runInserts [(7, 70), (7, 71), (7, 72)]).getD oakvlDefault

/-- The churn sequence: 128 insert-then-delete cycles on distinct
keys.  With the identity hasher each key `i` claims slot `i` and its
deletion leaves that slot DELETED. -/
def c10ChurnOps : List (OAKVL.Op Nat) :=
  (List.range 128).foldr
    (fun i acc => OAKVL.Op.ins i i :: OAKVL.Op.delKey i :: acc) []

/-- The churn table: the default 128-slot table after the 128
insert-then-delete cycles — every real slot DELETED, none FREE. -/
def c10ChurnT : OAKVL Nat :=
  (OAKVL.runOps (OAKVL.new Nat 32 0 id LoadFactorHalfFull) c10ChurnOps).getD
    (OAKVL.new Nat 32 0 id LoadFactorHalfFull)

/-! # Theorems -/

/-- C1, counterexample: after `Insert(1,10); Insert(2,20);
DeleteKey(1); Insert(2,21)` on the default OA-KVL table with the
colliding hasher, key 2 — inserted twice and never deleted — yields
`GetValue(2) = [21]`: the last insert stopped at the DELETED slot in
front of key 2's entry and created a second entry for key 2, so the
returned range misses the value 20 and its multiset is not the
multiset `{20, 21}` of inserted values. -/
theorem C1_cex :
    c1Run.map (fun t => t.GetValue 2) = some [some 21] ∧
    (Multiset.ofList [some 21] : Multiset (Option Nat)) ≠
      Multiset.ofList (List.map some [20, 21]) := by decide

/-- C2: at the failing input — CA-CC, keys 0 and 4 hashing to the same
bucket of a 4-slot table — the second insert goes through the
non-empty-bucket path of `InsertIntoSlot` and makes the new node
(id 1) and the bucket node `p` (id 0) point at each other: the new
node's successor is `p` itself instead of `p`'s former successor
(null), so the rest of the chain is lost and the global chain walk
cycles, as the chain listing `[0, 1, 0]` shows (the bucket pointer
itself is indeed unchanged). -/
theorem C2_failing_run :
    (c2Run.nodes.get? 1).map (fun n => n.next_p) = some (some 0) ∧
    (c2Run.nodes.get? 0).map (fun n => n.next_p) = some (some 1) ∧
    c2Run.getBucket 0 = some 0 ∧
    c2Run.chainList = [0, 1, 0] := by decide

/-- C3: at the failing input — a CA-CC table holding the clean 3-node
chain `[2, 1, 0]` at its resize threshold 3 — `Resize` loses nodes:
the loop advances through `entry_p->next_p` after `InsertIntoSlot` has
already re-spliced that field into the new structure, so after the
first re-insertion the walk reads the re-spliced null and stops; the
table retains node 2 only, and the insert that triggers the resize
leaves a 2-node chain out of 4 inserted nodes. -/
theorem C3_failing_run :
    c3Run.resize_threshold = 3 ∧
    c3Run.chainList = [2, 1, 0] ∧
    c3Run.Resize.chainList = [2] ∧
    (c3Run.Insert 3 13).chainList = [3, 2] := by decide

/-- C4: at the failing input — CA-CC with distinct keys 0, 1, 2
inserted into distinct buckets — `GetValue(2)` invokes the callback on
no node at all (bucket 2 points at key 2's own node, so the iteration
starts immediately after it on a node of a different group), and
`GetValue(0)` dereferences a null pointer (the do-while advances past
the chain's last node and reads its key before the null test): not
"exactly one matching value per inserted key". -/
theorem C4_failing_run :
    c4Run.GetValue 2 = some [] ∧ c4Run.GetValue 0 = none := by decide

/-- C6, counterexample: giving key 1 two values and deleting one of
them through the iterator `Begin(1)` leaves the entry with an existing
key-value list of size 1 — the claimed invariant `size ≥ 2 whenever
the list exists` is not preserved by `Delete(iterator)` on a
two-element list. -/
theorem C6_cex :
    c6Run.map (fun t => (t.entryAt 0).kvList) =
      some (some { size := 1, capacity := 4, data := [some 12, none, none, none] }) := by
  decide

/-- C8: at the failing input — a CA-SCC (or CA-CC) table constructed
with the already-power-of-two slot count 32 — the constructor sets
`slot_count = 64`, `index_mask = 63`: the shift-back test compares the
rounded value with itself and never fires, so power-of-two requests
are doubled instead of kept; a request of 2 likewise yields 4 slots,
so no 32-or-page floor is applied either. -/
theorem C8_failing_run :
    (CASCC.new 32 id (LoadFactorPercent 400) : CASCC Nat).slot_count = 64 ∧
    (CASCC.new 32 id (LoadFactorPercent 400) : CASCC Nat).index_mask = 63 ∧
    (CACC.new 32 id (LoadFactorPercent 400) : CACC Nat).slot_count = 64 ∧
    (CASCC.new 2 id (LoadFactorPercent 400) : CASCC Nat).slot_count = 4 := by decide

/-- C9, counterexample: on a table whose only valid entry sits in
slot 0 (a single probe run of length 1), `GetMaxSearchProbeLength`
returns 2, not the claimed maximum run length 1, and
`GetMeanSearchProbeLength` computes `total/sequence = 2/1`, not the
claimed mean 1/1 over runs containing a valid entry: the scans count
the terminating FREE slot into every flushed run. -/
theorem C9_cex :
    c9Run.map (fun t => t.GetMaxSearchProbeLength) = some 2 ∧
    c9Run.map specMaxProbeRun = some 1 ∧
    c9Run.map (fun t => t.GetMeanSearchProbeLength) = some (2, 1) ∧
    c9Run.map specMeanProbeRun = some (1, 1) := by decide

/-- The branch `if count > max then count else max` of the statistics
scan computes the maximum. -/
theorem ite_gt_eq_max (a b : Nat) : (if a > b then a else b) = Nat.max a b := by
  show (if a > b then a else b) = if a ≤ b then b else a
  split <;> split <;> omega

/-- `Nat.max` by its defining conditional. -/
theorem natMax_eq (a b : Nat) : Nat.max a b = if a ≤ b then b else a := rfl

/-- Left commutativity of `Nat.max`. -/
theorem natMax_left_comm (x a r : Nat) :
    Nat.max x (Nat.max a r) = Nat.max a (Nat.max x r) := by
  simp only [natMax_eq]
  split_ifs <;> omega

/-- Pulling one maximand out of the initial value of a `foldr max`. -/
theorem foldr_max_max (L : List Nat) (a m : Nat) :
    L.foldr Nat.max (Nat.max a m) = Nat.max a (L.foldr Nat.max m) := by
  induction L generalizing m with
  | nil => rfl
  | cons x L ih =>
    simp only [List.foldr_cons, ih]
    exact natMax_left_comm x a (L.foldr Nat.max m)

/-- `maxScanStep` at a free slot. -/
theorem maxScanStep_free {V : Type} (e : HashEntry V) (hf : e.IsFree = true)
    (c m : Nat) : OAKVL.maxScanStep (c, m) e = (1, Nat.max c m) := by
  unfold OAKVL.maxScanStep HashEntry.IsProbeEndForSearch
  rw [hf, ite_gt_eq_max]
  rfl

/-- `maxScanStep` at a non-free slot. -/
theorem maxScanStep_nonfree {V : Type} (e : HashEntry V) (hf : e.IsFree = false)
    (c m : Nat) : OAKVL.maxScanStep (c, m) e = (c + 1, m) := by
  unfold OAKVL.maxScanStep HashEntry.IsProbeEndForSearch
  rw [hf]
  rfl

/-- The scan of `GetMaxSearchProbeLength`, over any entry list and any
starting state `(acc + 1, m)` (the counter is always one more than the
`acc` non-free slots preceding the cursor since the last free slot):
it computes the `foldr`-maximum of `m` and `r + 1` over the
`termRuns`. -/
theorem maxScan_foldl {V : Type} (l : List (HashEntry V)) (acc m : Nat) :
    (l.foldl OAKVL.maxScanStep ((acc + 1, m) : Nat × Nat)).2
      = ((termRuns l acc).map (fun r => r + 1)).foldr Nat.max m := by
  induction l generalizing acc m with
  | nil => rfl
  | cons e rest ih =>
    rw [List.foldl_cons]
    by_cases hf : e.IsFree
    · rw [maxScanStep_free e hf]
      simp only [termRuns]
      rw [if_pos hf, List.map_cons, List.foldr_cons]
      have h0 : ((1 : Nat), Nat.max (acc + 1) m) = ((0 : Nat) + 1, Nat.max (acc + 1) m) := rfl
      rw [h0, ih 0 (Nat.max (acc + 1) m), foldr_max_max]
    · rw [maxScanStep_nonfree e (Bool.not_eq_true _ |>.mp hf)]
      simp only [termRuns]
      rw [if_neg hf]
      exact ih (acc + 1) m

/-- `meanScanStep` at a free slot with a nonzero accumulated run. -/
theorem meanScanStep_free_run {V : Type} (e : HashEntry V) (hf : e.IsFree = true)
    (c total seq : Nat) :
    OAKVL.meanScanStep (c, total, seq, true) e = (1, total + c, seq + 1, false) := by
  unfold OAKVL.meanScanStep HashEntry.IsProbeEndForSearch
  rw [hf]
  rfl

/-- `meanScanStep` at a free slot with no accumulated run. -/
theorem meanScanStep_free_norun {V : Type} (e : HashEntry V) (hf : e.IsFree = true)
    (c total seq : Nat) :
    OAKVL.meanScanStep (c, total, seq, false) e = (1, total, seq, false) := by
  unfold OAKVL.meanScanStep HashEntry.IsProbeEndForSearch
  rw [hf]
  rfl

/-- `meanScanStep` at a non-free slot. -/
theorem meanScanStep_nonfree {V : Type} (e : HashEntry V) (hf : e.IsFree = false)
    (c total seq : Nat) (b : Bool) :
    OAKVL.meanScanStep (c, total, seq, b) e = (c + 1, total, seq, true) := by
  unfold OAKVL.meanScanStep HashEntry.IsProbeEndForSearch
  rw [hf]
  rfl

/-- The scan of `GetMeanSearchProbeLength`, over any entry list and
any starting state: `total_count` accumulates `r + 1` and
`sequence_count` one unit for every nonzero `termRuns` entry (the
`previous_valid` flag is exactly "the accumulated run is nonzero"). -/
theorem meanScan_foldl {V : Type} (l : List (HashEntry V)) (acc total seq : Nat) :
    (l.foldl OAKVL.meanScanStep (acc + 1, total, seq, acc != 0)).2.1
        = total + ((((termRuns l acc).filter (fun r => r != 0)).map (fun r => r + 1)).sum) ∧
    (l.foldl OAKVL.meanScanStep (acc + 1, total, seq, acc != 0)).2.2.1
        = seq + ((termRuns l acc).filter (fun r => r != 0)).length := by
  induction l generalizing acc total seq with
  | nil => exact ⟨rfl, rfl⟩
  | cons e rest ih =>
    rw [List.foldl_cons]
    by_cases hf : e.IsFree
    · simp only [termRuns]
      rw [if_pos hf, List.filter_cons]
      cases acc with
      | zero =>
        have h0 : ((0 : Nat) != 0) = false := rfl
        rw [h0, meanScanStep_free_norun e hf]
        have h1 : ((1 : Nat), total, seq, false)
            = ((0 : Nat) + 1, total, seq, ((0 : Nat) != 0)) := rfl
        rw [h1]
        simpa using ih 0 total seq
      | succ a =>
        have h0 : ((a + 1 : Nat) != 0) = true := by simp
        rw [h0, meanScanStep_free_run e hf]
        simp only [if_pos, List.map_cons, List.sum_cons, List.length_cons]
        have h1 : ((1 : Nat), total + (a + 1 + 1), seq + 1, false)
            = ((0 : Nat) + 1, total + (a + 1 + 1), seq + 1, ((0 : Nat) != 0)) := rfl
        rw [h1]
        obtain ⟨ihl, ihr⟩ := ih 0 (total + (a + 1 + 1)) (seq + 1)
        constructor
        · rw [ihl]; omega
        · rw [ihr]; omega
    · simp only [termRuns]
      rw [if_neg hf, meanScanStep_nonfree e (Bool.not_eq_true _ |>.mp hf)]
      have h1 : ((acc + 1 + 1 : Nat), total, seq, true)
          = ((acc + 1) + 1, total, seq, ((acc + 1 : Nat) != 0)) := by simp
      rw [h1]
      exact ih (acc + 1) total seq

/-- C9, amended: `GetMaxSearchProbeLength` returns the maximum, over
the FREE slots of the array, of 1 + the number of contiguous non-FREE
slots immediately preceding that FREE slot (so an all-FREE array gives
1, an array with no FREE slot gives 0, and a trailing run not
terminated by a FREE slot is ignored); `GetMeanSearchProbeLength`
returns the pair (numerator, denominator) of the mean of those same
`run + 1` quantities taken over the maximal non-FREE runs that are
terminated by a FREE slot — regardless of whether the run contains a
valid entry or only DELETED ones. -/
theorem C9_amended {V : Type} (t : OAKVL V) :
    t.GetMaxSearchProbeLength =
      listMax ((termRuns (t.entry_list_p.take t.entry_count) 0).map (fun r => r + 1)) ∧
    t.GetMeanSearchProbeLength =
      ((((termRuns (t.entry_list_p.take t.entry_count) 0).filter
          (fun r => r != 0)).map (fun r => r + 1)).sum,
        ((termRuns (t.entry_list_p.take t.entry_count) 0).filter
          (fun r => r != 0)).length) := by
  refine ⟨?_, ?_⟩
  · have h := maxScan_foldl (t.entry_list_p.take t.entry_count) 0 0
    exact h
  · have h := meanScan_foldl (t.entry_list_p.take t.entry_count) 0 0 0
    obtain ⟨h1, h2⟩ := h
    unfold OAKVL.GetMeanSearchProbeLength
    rw [Prod.ext_iff]
    exact ⟨by simpa using h1, by simpa using h2⟩

/-- How `KeyRange(k)` follows the search probe's slot: on a hit the
first component is `BuildIterator` — pointing at the first value with
`remaining = n` — and the second points at the last value itself
(offset `n - 1`, `remaining = 1`); on the probe's `none` both
components are `End()`. -/
theorem KeyRange_of_search {V : Type} (t : OAKVL V) (key : Nat) :
    (t.ProbeForSearch key = none → t.KeyRange key = (t.End, t.End)) ∧
    (∀ i, t.ProbeForSearch key = some i →
      (t.KeyRange key).1 = t.BuildIterator i ∧
      (t.BuildIterator i).entry_p = i ∧
      (t.BuildIterator i).remaining = numValues (t.entryAt i) ∧
      ((t.BuildIterator i).value_p = .kvl i 0 ∨ (t.BuildIterator i).value_p = .inl i 0) ∧
      (t.KeyRange key).2 =
        { entry_p := i,
          value_p := (t.BuildIterator i).value_p.addOff (numValues (t.entryAt i) - 1),
          remaining := 1 }) := by
  constructor
  · intro h
    simp [OAKVL.KeyRange, h]
  · intro i h
    refine ⟨?_, ?_, ?_, ?_, ?_⟩ <;>
      simp [OAKVL.KeyRange, OAKVL.BuildIterator, h, numValues] <;>
      cases hs : (t.entryAt i).status <;>
      simp [hs, OAKVL.ValuePtr.addOff]

/-- The two probe renderings agree wherever the loop terminates: a
distinguished terminating miss is the collapsed `none`, and a
distinguished hit is the collapsed hit. -/
theorem probeSearchAuxD_agree {V : Type} (t : OAKVL V) (key : Nat) :
    ∀ fuel p,
      (probeSearchAuxD t key p fuel = some none →
        OAKVL.probeSearchAux t key p fuel = none) ∧
      (∀ i, probeSearchAuxD t key p fuel = some (some i) →
        OAKVL.probeSearchAux t key p fuel = some i) := by
  intro fuel
  induction fuel with
  | zero =>
    exact fun p => ⟨fun h => Option.noConfusion h,
      fun i h => Option.noConfusion h⟩
  | succ f ih =>
    intro p
    simp only [probeSearchAuxD, OAKVL.probeSearchAux]
    by_cases h1 : (t.entryAt p).IsProbeEndForSearch = true
    · rw [if_pos h1, if_pos h1]
      exact ⟨fun _ => rfl,
        fun i h => Option.noConfusion (Option.some_inj.mp h)⟩
    · rw [if_neg h1, if_neg h1]
      by_cases h2 : (!(t.entryAt p).IsDeleted && ((t.entryAt p).key == some key))
          = true
      · rw [if_pos h2, if_pos h2]
        exact ⟨fun h => Option.noConfusion (Option.some_inj.mp h),
          fun i h => Option.some_inj.mp h⟩
      · rw [if_neg h2, if_neg h2]
        exact ih (t.nextIndex p)

/-- Agreement at the probe's entry point, miss side. -/
theorem ProbeForSearchD_none {V : Type} (t : OAKVL V) (key : Nat)
    (h : ProbeForSearchD t key = some none) :
    t.ProbeForSearch key = none :=
  (probeSearchAuxD_agree t key t.entry_count
    ((t.key_hash_obj key) &&& t.index_mask)).1 h

/-- Agreement at the probe's entry point, hit side. -/
theorem ProbeForSearchD_some {V : Type} (t : OAKVL V) (key : Nat) (i : Nat)
    (h : ProbeForSearchD t key = some (some i)) :
    t.ProbeForSearch key = some i :=
  (probeSearchAuxD_agree t key t.entry_count
    ((t.key_hash_obj key) &&& t.index_mask)).2 i h

/-- C10, counterexample: the absent-key clause fails on a reachable
table.  The 128 insert-then-delete cycles of `c10ChurnOps` run through
the public API, leave every real slot of the default table DELETED,
and on the resulting table the search probe for an absent key never
reaches a FREE or matching slot (`ProbeForSearchD` reports fuel
exhaustion after visiting all slots), so the C++ `KeyRange(200)` never
returns — while the collapsed probe turns the non-terminating run into
a miss that the model's `KeyRange` then maps to `(End(), End())`. -/
theorem C10_cex :
    (OAKVL.runOps (OAKVL.new Nat 32 0 id LoadFactorHalfFull)
      c10ChurnOps).isSome = true ∧
    (List.range 128).all (fun i => (c10ChurnT.entryAt i).IsDeleted) = true ∧
    c10ChurnT.entry_count = 128 ∧
    ProbeForSearchD c10ChurnT 200 = none ∧
    c10ChurnT.ProbeForSearch 200 = none ∧
    c10ChurnT.KeyRange 200 = (c10ChurnT.End, c10ChurnT.End) := by
  decide

/-- C10 (amended): `KeyRange(k)` as claimed, on the runs where the
search probe terminates.  On a hit — the probe finds `k` at slot `i` —
the pair is inclusive of its last element: the first component is
`BuildIterator i`, pointing at the first value with `remaining = n`,
and the second points at the last value itself (offset `n - 1`,
`remaining = 1`).  On a terminating miss — the probe reaches a FREE
slot — both components equal `End()`.  When the key is absent and no
slot of its probe sequence is FREE (every slot DELETED, reachable per
`C10_cex`), the C++ search loops forever and `KeyRange` returns
nothing at all. -/
theorem C10_amended {V : Type} (t : OAKVL V) (key : Nat) :
    (ProbeForSearchD t key = some none →
      t.KeyRange key = (t.End, t.End)) ∧
    (∀ i, ProbeForSearchD t key = some (some i) →
      (t.KeyRange key).1 = t.BuildIterator i ∧
      (t.BuildIterator i).entry_p = i ∧
      (t.BuildIterator i).remaining = numValues (t.entryAt i) ∧
      ((t.BuildIterator i).value_p = .kvl i 0 ∨
        (t.BuildIterator i).value_p = .inl i 0) ∧
      (t.KeyRange key).2 =
        { entry_p := i,
          value_p := (t.BuildIterator i).value_p.addOff
            (numValues (t.entryAt i) - 1),
          remaining := 1 }) := by
  constructor
  · intro h
    exact (KeyRange_of_search t key).1 (ProbeForSearchD_none t key h)
  · intro i h
    exact (KeyRange_of_search t key).2 i (ProbeForSearchD_some t key i h)

/-- C10, witness: on the table holding values 70, 71, 72 for key 7
(entry at slot 0, a terminating hit) `KeyRange(7)` is the inclusive
pair, and for the absent key 9 (a terminating miss: slot 9 is FREE)
both components are `End()`. -/
theorem C10_amended_witness :
    ((c10T.KeyRange 7).1 = c10T.BuildIterator 0 ∧
      (c10T.BuildIterator 0).entry_p = 0 ∧
      (c10T.BuildIterator 0).remaining = numValues (c10T.entryAt 0) ∧
      ((c10T.BuildIterator 0).value_p = .kvl 0 0 ∨
        (c10T.BuildIterator 0).value_p = .inl 0 0) ∧
      (c10T.KeyRange 7).2 =
        { entry_p := 0,
          value_p := (c10T.BuildIterator 0).value_p.addOff
            (numValues (c10T.entryAt 0) - 1),
          remaining := 1 }) ∧
    c10T.KeyRange 9 = (c10T.End, c10T.End) :=
  ⟨(C10_amended c10T 7).2 0 (by decide), (C10_amended c10T 9).1 (by decide)⟩

/-! ### Constructor arithmetic and single-slot access lemmas -/

/-- `bitLenAux` dominates the exponent of any power-of-two lower
bound (with enough fuel). -/
theorem bitLenAux_gt {m : Nat} : ∀ {f n : Nat}, 2 ^ m ≤ n → m < f → m < bitLenAux f n := by
  induction m with
  | zero =>
    intro f n h2 hf
    match f, hf with
    | f + 1, _ =>
      unfold bitLenAux
      rw [if_neg (by omega)]
      omega
  | succ m ih =>
    intro f n h2 hf
    match f, hf with
    | f + 1, hf =>
      have hpos : 0 < 2 ^ (m + 1) := Nat.two_pow_pos (m + 1)
      unfold bitLenAux
      rw [if_neg (by omega)]
      have h2' : 2 ^ m ≤ n >>> 1 := by
        rw [Nat.shiftRight_one]
        have hp : 2 ^ (m + 1) = 2 ^ m * 2 := Nat.pow_succ 2 m
        omega
      have := @ih f (n >>> 1) h2' (by omega)
      omega

/-- `GetInitEntryCount` never returns fewer than the hard minimum. -/
theorem GetInitEntryCount_ge (esz req : Nat) : 32 ≤ OAKVL.GetInitEntryCount esz req := by
  unfold OAKVL.GetInitEntryCount
  split <;> split <;> omega

/-- For a request of at least 32, `SetSizeAndMask` yields a power of
two `2 ^ b` (with `b ≥ 5`, so at least 32) and the mask `2 ^ b - 1`. -/
theorem SetSizeAndMask_spec {r : Nat} (hr : 32 ≤ r) :
    ∃ b, 5 ≤ b ∧ (OAKVL.SetSizeAndMask r).1 = 2 ^ b ∧
      (OAKVL.SetSizeAndMask r).2 = 2 ^ b - 1 := by
  have he : 5 < bitLenAux 64 r := bitLenAux_gt (by norm_num; omega) (by omega)
  have hsl : 1 <<< effectiveBits r = 2 ^ effectiveBits r := by
    rw [Nat.shiftLeft_eq, Nat.one_mul]
  obtain ⟨e', hee⟩ : ∃ x, effectiveBits r = x + 1 :=
    ⟨effectiveBits r - 1, by unfold effectiveBits; omega⟩
  unfold OAKVL.SetSizeAndMask
  split
  · refine ⟨e', by unfold effectiveBits at hee; omega, ?_, ?_⟩
    · rw [hsl, hee, Nat.shiftRight_one, Nat.pow_succ]
      omega
    · rw [hsl, hee, Nat.shiftRight_one, Nat.pow_succ]
      have hpos : 0 < 2 ^ e' := Nat.two_pow_pos e'
      omega
  · exact ⟨effectiveBits r, by unfold effectiveBits; omega, by rw [hsl], by rw [hsl]⟩

/-- The entry count and mask of a fresh OA-KVL table: a power of two
of at least 32, with `index_mask = entry_count - 1`. -/
theorem new_count_spec (V : Type) (esz req : Nat) (hashf lfc : Nat → Nat) :
    ∃ b, 5 ≤ b ∧ (OAKVL.new V esz req hashf lfc).entry_count = 2 ^ b ∧
      (OAKVL.new V esz req hashf lfc).index_mask = 2 ^ b - 1 :=
  SetSizeAndMask_spec (GetInitEntryCount_ge esz req)

/-- Masking with `2 ^ b - 1` lands strictly below `2 ^ b`. -/
theorem land_mask_lt (x b : Nat) : x &&& (2 ^ b - 1) < 2 ^ b := by
  rw [Nat.and_pow_two_sub_one_eq_mod]
  exact Nat.mod_lt _ (Nat.two_pow_pos b)

/-- `getD` on a replicated list is the replicated element. -/
theorem getD_replicate (r n : Nat) {α : Type} (d : α) :
    (List.replicate r d).getD n d = d := by
  simp only [List.getD_eq_getElem?_getD, List.getElem?_replicate]
  split <;> rfl

/-- The fresh entry array has `entry_count + 1` entries. -/
theorem GetHashEntryListStatic_length (V : Type) (n : Nat) :
    (GetHashEntryListStatic V n).length = n + 1 := by
  simp [GetHashEntryListStatic]

/-- Every real slot of a fresh entry array is FREE. -/
theorem GetHashEntryListStatic_getD (V : Type) {n i : Nat} (h : i < n) :
    (GetHashEntryListStatic V n).getD i (freeEntry V) = freeEntry V := by
  unfold GetHashEntryListStatic
  rw [List.getD_append _ _ _ _ (by simp [h])]
  exact getD_replicate n i (freeEntry V)

/-- Reading back the slot just written. -/
theorem entryAt_setEntry_self {V : Type} (t : OAKVL V) (i : Nat) (e : HashEntry V)
    (h : i < t.entry_list_p.length) : (t.setEntry i e).entryAt i = e := by
  unfold OAKVL.setEntry OAKVL.entryAt
  simp [List.getD_eq_getElem?_getD, List.getElem?_set_self h]

/-- Reading an untouched slot. -/
theorem entryAt_setEntry_ne {V : Type} (t : OAKVL V) {i j : Nat} (e : HashEntry V)
    (h : i ≠ j) : (t.setEntry i e).entryAt j = t.entryAt j := by
  unfold OAKVL.setEntry OAKVL.entryAt
  simp [List.getD_eq_getElem?_getD, List.getElem?_set_ne h]

/-- Writing the same slot twice keeps only the second write. -/
theorem setEntry_setEntry {V : Type} (t : OAKVL V) (i : Nat) (a b : HashEntry V) :
    (t.setEntry i a).setEntry i b = t.setEntry i b := by
  unfold OAKVL.setEntry
  simp [List.set_set]

/-! ### One-step `Insert` lemmas

When the entry at the probe's starting slot already decides the
probe's outcome (it is FREE, or it matches the key), `Insert` is a
single slot update.  These lemmas capture the four outcomes of
`ProbeForInsert` at the starting slot. -/

/-- One unfolding of the insert probe on a FREE starting slot. -/
theorem probeInsertAux_free {V : Type} (t : OAKVL V) (key h idx fuel : Nat)
    (hs : (t.entryAt idx).status = .FREE) :
    OAKVL.probeInsertAux t key h idx (fuel + 1) =
      some ({ t.setEntry idx
                { t.entryAt idx with
                  status := .INLINE_VALUE, hash_value := h, key := some key } with
              active_entry_count := t.active_entry_count + 1 },
            .inlineSlot idx) := by
  unfold OAKVL.probeInsertAux
  simp only [hs]

/-- One unfolding of the insert probe on an INLINE starting slot whose
key matches. -/
theorem probeInsertAux_inline_hit {V : Type} (t : OAKVL V) (key h idx fuel : Nat)
    (hs : (t.entryAt idx).status = .INLINE_VALUE)
    (hk : (t.entryAt idx).key = some key) :
    OAKVL.probeInsertAux t key h idx (fuel + 1) =
      some (t.setEntry idx
        { t.entryAt idx with
          status := .MULTIPLE_VALUES
            { size := 2, capacity := 4,
              data := (List.replicate 4 (none : Option V)).set 0 (t.entryAt idx).value }
          value := none },
        .kvlSlot idx 1) := by
  unfold OAKVL.probeInsertAux
  simp only [hs, hk, beq_self_eq_true, if_true]

/-- One unfolding of the insert probe on a non-full MULTIPLE starting
slot whose key matches. -/
theorem probeInsertAux_multi_hit {V : Type} (t : OAKVL V) (key h idx fuel : Nat)
    {kv : KeyValueList V}
    (hs : (t.entryAt idx).status = .MULTIPLE_VALUES kv)
    (hk : (t.entryAt idx).key = some key)
    (hfull : kv.IsFull = false) :
    OAKVL.probeInsertAux t key h idx (fuel + 1) =
      some (t.setEntry idx
        { t.entryAt idx with
          status := .MULTIPLE_VALUES { kv with size := kv.size + 1 } },
        .kvlSlot idx kv.size) := by
  unfold OAKVL.probeInsertAux
  simp only [hs, hk, beq_self_eq_true, if_true, hfull, Bool.false_eq_true, if_false]

/-- One unfolding of the insert probe on a full MULTIPLE starting slot
whose key matches. -/
theorem probeInsertAux_multi_full {V : Type} (t : OAKVL V) (key h idx fuel : Nat)
    {kv : KeyValueList V}
    (hs : (t.entryAt idx).status = .MULTIPLE_VALUES kv)
    (hk : (t.entryAt idx).key = some key)
    (hfull : kv.IsFull = true) :
    OAKVL.probeInsertAux t key h idx (fuel + 1) =
      some (t.setEntry idx
        { t.entryAt idx with
          status := .MULTIPLE_VALUES { kv.GetResized with size := kv.GetResized.size + 1 } },
        .kvlSlot idx kv.size) := by
  unfold OAKVL.probeInsertAux
  simp only [hs, hk, beq_self_eq_true, if_true, hfull]

/-- Changing `active_entry_count` does not affect slot reads. -/
theorem entryAt_active_mod {V : Type} (t : OAKVL V) (n i : Nat) :
    OAKVL.entryAt { t with active_entry_count := n } i = t.entryAt i := rfl

/-- Changing `active_entry_count` commutes with `setEntry`. -/
theorem setEntry_active_mod {V : Type} (t : OAKVL V) (n i : Nat) (e : HashEntry V) :
    OAKVL.setEntry { t with active_entry_count := n } i e =
      { t.setEntry i e with active_entry_count := n } := rfl

/-- `Insert` when no resize fires and the probe's starting slot is
FREE: the slot becomes the key's INLINE entry holding the value. -/
theorem Insert_free {V : Type} (t : OAKVL V) (k : Nat) (v : V)
    (hne : t.active_entry_count ≠ t.resize_threshold)
    (hpos : 0 < t.entry_count)
    (hs : (t.entryAt (t.key_hash_obj k &&& t.index_mask)).status = .FREE)
    (hlt : t.key_hash_obj k &&& t.index_mask < t.entry_list_p.length) :
    t.Insert k v = some
      { t.setEntry (t.key_hash_obj k &&& t.index_mask)
          { t.entryAt (t.key_hash_obj k &&& t.index_mask) with
            status := .INLINE_VALUE, hash_value := t.key_hash_obj k,
            key := some k, value := some v } with
        active_entry_count := t.active_entry_count + 1 } := by
  obtain ⟨c, hc⟩ : ∃ c, t.entry_count = c + 1 := ⟨t.entry_count - 1, by omega⟩
  unfold OAKVL.Insert
  rw [if_neg hne]
  show (match t.ProbeForInsert k with
        | none => none
        | some (t', loc) => some (t'.writeValue loc v)) = _
  unfold OAKVL.ProbeForInsert
  rw [hc, probeInsertAux_free t k _ _ c hs]
  simp only [OAKVL.writeValue, entryAt_active_mod, setEntry_active_mod,
    entryAt_setEntry_self t _ _ hlt, setEntry_setEntry]

/-- `Insert` when no resize fires and the probe's starting slot is the
key's INLINE entry: the entry gets the initial key-value list with the
old value at index 0 and the new value at index 1. -/
theorem Insert_inline_hit {V : Type} (t : OAKVL V) (k : Nat) (v : V)
    (hne : t.active_entry_count ≠ t.resize_threshold)
    (hpos : 0 < t.entry_count)
    (hs : (t.entryAt (t.key_hash_obj k &&& t.index_mask)).status = .INLINE_VALUE)
    (hk : (t.entryAt (t.key_hash_obj k &&& t.index_mask)).key = some k)
    (hlt : t.key_hash_obj k &&& t.index_mask < t.entry_list_p.length) :
    t.Insert k v = some
      (t.setEntry (t.key_hash_obj k &&& t.index_mask)
        { t.entryAt (t.key_hash_obj k &&& t.index_mask) with
          status := .MULTIPLE_VALUES
            { size := 2, capacity := 4,
              data := ((List.replicate 4 (none : Option V)).set 0
                (t.entryAt (t.key_hash_obj k &&& t.index_mask)).value).set 1 (some v) }
          value := none }) := by
  obtain ⟨c, hc⟩ : ∃ c, t.entry_count = c + 1 := ⟨t.entry_count - 1, by omega⟩
  unfold OAKVL.Insert
  rw [if_neg hne]
  show (match t.ProbeForInsert k with
        | none => none
        | some (t', loc) => some (t'.writeValue loc v)) = _
  unfold OAKVL.ProbeForInsert
  rw [hc, probeInsertAux_inline_hit t k _ _ c hs hk]
  simp only [OAKVL.writeValue, entryAt_setEntry_self t _ _ hlt, setEntry_setEntry,
    KeyValueList.FillValue]

/-- `Insert` when no resize fires and the probe's starting slot is the
key's entry with a non-full key-value list: the value is appended. -/
theorem Insert_multi_hit {V : Type} (t : OAKVL V) (k : Nat) (v : V)
    {kv : KeyValueList V}
    (hne : t.active_entry_count ≠ t.resize_threshold)
    (hpos : 0 < t.entry_count)
    (hs : (t.entryAt (t.key_hash_obj k &&& t.index_mask)).status = .MULTIPLE_VALUES kv)
    (hk : (t.entryAt (t.key_hash_obj k &&& t.index_mask)).key = some k)
    (hfull : kv.IsFull = false)
    (hlt : t.key_hash_obj k &&& t.index_mask < t.entry_list_p.length) :
    t.Insert k v = some
      (t.setEntry (t.key_hash_obj k &&& t.index_mask)
        { t.entryAt (t.key_hash_obj k &&& t.index_mask) with
          status := .MULTIPLE_VALUES
            { size := kv.size + 1, capacity := kv.capacity,
              data := kv.data.set kv.size (some v) } }) := by
  obtain ⟨c, hc⟩ : ∃ c, t.entry_count = c + 1 := ⟨t.entry_count - 1, by omega⟩
  unfold OAKVL.Insert
  rw [if_neg hne]
  show (match t.ProbeForInsert k with
        | none => none
        | some (t', loc) => some (t'.writeValue loc v)) = _
  unfold OAKVL.ProbeForInsert
  rw [hc, probeInsertAux_multi_hit t k _ _ c hs hk hfull]
  simp only [OAKVL.writeValue, entryAt_setEntry_self t _ _ hlt, setEntry_setEntry,
    KeyValueList.FillValue]

/-- `Insert` when no resize fires and the probe's starting slot is the
key's entry with a full key-value list: the list is doubled first and
the value appended after the copied ones. -/
theorem Insert_multi_full {V : Type} (t : OAKVL V) (k : Nat) (v : V)
    {kv : KeyValueList V}
    (hne : t.active_entry_count ≠ t.resize_threshold)
    (hpos : 0 < t.entry_count)
    (hs : (t.entryAt (t.key_hash_obj k &&& t.index_mask)).status = .MULTIPLE_VALUES kv)
    (hk : (t.entryAt (t.key_hash_obj k &&& t.index_mask)).key = some k)
    (hfull : kv.IsFull = true)
    (hlt : t.key_hash_obj k &&& t.index_mask < t.entry_list_p.length) :
    t.Insert k v = some
      (t.setEntry (t.key_hash_obj k &&& t.index_mask)
        { t.entryAt (t.key_hash_obj k &&& t.index_mask) with
          status := .MULTIPLE_VALUES
            { size := kv.size + 1, capacity := kv.capacity <<< 1,
              data := (kv.data.take kv.size ++
                List.replicate ((kv.capacity <<< 1) - kv.size) none).set kv.size
                  (some v) } }) := by
  obtain ⟨c, hc⟩ : ∃ c, t.entry_count = c + 1 := ⟨t.entry_count - 1, by omega⟩
  unfold OAKVL.Insert
  rw [if_neg hne]
  show (match t.ProbeForInsert k with
        | none => none
        | some (t', loc) => some (t'.writeValue loc v)) = _
  unfold OAKVL.ProbeForInsert
  rw [hc, probeInsertAux_multi_full t k _ _ c hs hk hfull]
  simp only [OAKVL.writeValue, entryAt_setEntry_self t _ _ hlt, setEntry_setEntry,
    KeyValueList.FillValue, KeyValueList.GetResized]

/-- `setEntry` keeps the array length. -/
theorem setEntry_length {V : Type} (t : OAKVL V) (i : Nat) (e : HashEntry V) :
    (t.setEntry i e).entry_list_p.length = t.entry_list_p.length := by
  unfold OAKVL.setEntry
  simp

/-- setEntry leaves the index mask unchanged. -/
theorem setEntry_mask {V : Type} (t : OAKVL V) (i : Nat) (e : HashEntry V) :
    (t.setEntry i e).index_mask = t.index_mask := rfl

/-- setEntry leaves the entry count unchanged. -/
theorem setEntry_count {V : Type} (t : OAKVL V) (i : Nat) (e : HashEntry V) :
    (t.setEntry i e).entry_count = t.entry_count := rfl

/-- setEntry leaves the resize threshold unchanged. -/
theorem setEntry_threshold {V : Type} (t : OAKVL V) (i : Nat) (e : HashEntry V) :
    (t.setEntry i e).resize_threshold = t.resize_threshold := rfl

/-- setEntry leaves the hash functor unchanged. -/
theorem setEntry_keyhash {V : Type} (t : OAKVL V) (i : Nat) (e : HashEntry V) :
    (t.setEntry i e).key_hash_obj = t.key_hash_obj := rfl

/-- setEntry leaves the active entry count unchanged. -/
theorem setEntry_active {V : Type} (t : OAKVL V) (i : Nat) (e : HashEntry V) :
    (t.setEntry i e).active_entry_count = t.active_entry_count := rfl

/-- setEntry updates the entry array pointwise. -/
theorem setEntry_listp {V : Type} (t : OAKVL V) (i : Nat) (e : HashEntry V) :
    (t.setEntry i e).entry_list_p = t.entry_list_p.set i e := rfl

/-- C5: starting from a fresh OA-KVL table (any entry size, any
requested capacity, any hasher, the default half-full load factor),
five inserts of the same key behave as claimed: the first makes the
key's slot INLINE with the value stored inline; the second switches it
to a key-value list of capacity 4 and size 2 with the previously
inline value copied to index 0, the inline value destroyed, and the
new value at index 1; the third and fourth grow the size to 3 and 4
without reallocating (capacity stays 4); the fifth finds the list full
and replaces it by one of capacity 8 carrying the four copied values
followed by the new one. -/
theorem C5_overflow_list_transitions {V : Type} (hashf : Nat → Nat)
    (esz req k : Nat) (v1 v2 v3 v4 v5 : V) :
    ∃ t1 t2 t3 t4 t5 : OAKVL V,
      (OAKVL.new V esz req hashf LoadFactorHalfFull).Insert k v1 = some t1 ∧
      t1.Insert k v2 = some t2 ∧
      t2.Insert k v3 = some t3 ∧
      t3.Insert k v4 = some t4 ∧
      t4.Insert k v5 = some t5 ∧
      t1.entryAt (hashf k &&& (OAKVL.new V esz req hashf LoadFactorHalfFull).index_mask) =
        { status := .INLINE_VALUE, hash_value := hashf k,
          key := some k, value := some v1 } ∧
      t2.entryAt (hashf k &&& (OAKVL.new V esz req hashf LoadFactorHalfFull).index_mask) =
        { status := .MULTIPLE_VALUES
            { size := 2, capacity := 4, data := [some v1, some v2, none, none] },
          hash_value := hashf k, key := some k, value := none } ∧
      t3.entryAt (hashf k &&& (OAKVL.new V esz req hashf LoadFactorHalfFull).index_mask) =
        { status := .MULTIPLE_VALUES
            { size := 3, capacity := 4, data := [some v1, some v2, some v3, none] },
          hash_value := hashf k, key := some k, value := none } ∧
      t4.entryAt (hashf k &&& (OAKVL.new V esz req hashf LoadFactorHalfFull).index_mask) =
        { status := .MULTIPLE_VALUES
            { size := 4, capacity := 4, data := [some v1, some v2, some v3, some v4] },
          hash_value := hashf k, key := some k, value := none } ∧
      t5.entryAt (hashf k &&& (OAKVL.new V esz req hashf LoadFactorHalfFull).index_mask) =
        { status := .MULTIPLE_VALUES
            { size := 5, capacity := 8,
              data := [some v1, some v2, some v3, some v4, some v5, none, none, none] },
          hash_value := hashf k, key := some k, value := none } := by
  obtain ⟨b, hb5, hcount, hmask⟩ := new_count_spec V esz req hashf LoadFactorHalfFull
  have h32 : (32 : Nat) ≤ 2 ^ b := by
    calc (32 : Nat) = 2 ^ 5 := by norm_num
    _ ≤ 2 ^ b := Nat.pow_le_pow_right (by omega) hb5
  have hc32 : 32 ≤ (OAKVL.new V esz req hashf LoadFactorHalfFull).entry_count := by
    rw [hcount]
    exact h32
  have hthr : (OAKVL.new V esz req hashf LoadFactorHalfFull).resize_threshold
      = (OAKVL.new V esz req hashf LoadFactorHalfFull).entry_count / 2 := by
    show LoadFactorHalfFull _ = _
    rw [LoadFactorHalfFull, Nat.shiftRight_one]
    rfl
  have hthr16 : 16 ≤ (OAKVL.new V esz req hashf LoadFactorHalfFull).resize_threshold := by
    rw [hthr]
    omega
  have hlen : (OAKVL.new V esz req hashf LoadFactorHalfFull).entry_list_p.length
      = (OAKVL.new V esz req hashf LoadFactorHalfFull).entry_count + 1 :=
    GetHashEntryListStatic_length V _
  have hhome : hashf k &&& (OAKVL.new V esz req hashf LoadFactorHalfFull).index_mask
      < (OAKVL.new V esz req hashf LoadFactorHalfFull).entry_count := by
    rw [hmask, hcount]
    exact land_mask_lt _ b
  have h0 : (OAKVL.new V esz req hashf LoadFactorHalfFull).entryAt
      (hashf k &&& (OAKVL.new V esz req hashf LoadFactorHalfFull).index_mask)
      = freeEntry V :=
    GetHashEntryListStatic_getD V hhome
  obtain ⟨t1, ht1, ins1⟩ :
      ∃ t1, t1 = { (OAKVL.new V esz req hashf LoadFactorHalfFull).setEntry
          (hashf k &&& (OAKVL.new V esz req hashf LoadFactorHalfFull).index_mask)
          { status := .INLINE_VALUE, hash_value := hashf k,
            key := some k, value := some v1 } with
        active_entry_count :=
          (OAKVL.new V esz req hashf LoadFactorHalfFull).active_entry_count + 1 } ∧
        (OAKVL.new V esz req hashf LoadFactorHalfFull).Insert k v1 = some t1 := by
    refine ⟨_, rfl, ?_⟩
    have := Insert_free (OAKVL.new V esz req hashf LoadFactorHalfFull) k v1
      (by show (0 : Nat) ≠ _; omega) (by omega)
      (by show ((OAKVL.new V esz req hashf LoadFactorHalfFull).entryAt
          (hashf k &&& (OAKVL.new V esz req hashf LoadFactorHalfFull).index_mask)).status
          = .FREE
          rw [h0]
          rfl)
      (by show hashf k &&& (OAKVL.new V esz req hashf LoadFactorHalfFull).index_mask
          < (OAKVL.new V esz req hashf LoadFactorHalfFull).entry_list_p.length
          omega)
    exact this
  -- facts about t1
  have hkh1 : t1.key_hash_obj = hashf := by rw [ht1]; rfl
  have hmask1 : t1.index_mask = (OAKVL.new V esz req hashf LoadFactorHalfFull).index_mask := by
    rw [ht1]
    rfl
  have hcount1 : t1.entry_count = (OAKVL.new V esz req hashf LoadFactorHalfFull).entry_count := by
    rw [ht1]
    rfl
  have hthr1 : t1.resize_threshold
      = (OAKVL.new V esz req hashf LoadFactorHalfFull).resize_threshold := by rw [ht1]; rfl
  have hact1 : t1.active_entry_count = 1 := by rw [ht1]; rfl
  have hlen1 : t1.entry_list_p.length
      = (OAKVL.new V esz req hashf LoadFactorHalfFull).entry_list_p.length := by
    rw [ht1]
    exact setEntry_length _ _ _
  have hat1 : t1.entryAt (hashf k &&& (OAKVL.new V esz req hashf LoadFactorHalfFull).index_mask)
      = { status := .INLINE_VALUE, hash_value := hashf k, key := some k, value := some v1 } := by
    rw [ht1]
    show ((OAKVL.new V esz req hashf LoadFactorHalfFull).setEntry
        (hashf k &&& (OAKVL.new V esz req hashf LoadFactorHalfFull).index_mask)
        { status := .INLINE_VALUE, hash_value := hashf k,
          key := some k, value := some v1 }).entryAt
        (hashf k &&& (OAKVL.new V esz req hashf LoadFactorHalfFull).index_mask) = _
    exact entryAt_setEntry_self _ _ _ (by omega)
  -- step 2
  obtain ⟨t2, ht2, ins2⟩ :
      ∃ t2, t2 = t1.setEntry
          (hashf k &&& (OAKVL.new V esz req hashf LoadFactorHalfFull).index_mask)
          { status := .MULTIPLE_VALUES
              { size := 2, capacity := 4, data := [some v1, some v2, none, none] },
            hash_value := hashf k, key := some k, value := none } ∧
        t1.Insert k v2 = some t2 := by
    refine ⟨_, rfl, ?_⟩
    have := Insert_inline_hit t1 k v2
      (by rw [hact1, hthr1]; omega) (by rw [hcount1]; omega)
      (by rw [hkh1, hmask1, hat1])
      (by rw [hkh1, hmask1, hat1])
      (by rw [hkh1, hmask1, hlen1]; omega)
    rw [hkh1, hmask1, hat1] at this
    exact this
  have hkh2 : t2.key_hash_obj = hashf := by rw [ht2, setEntry_keyhash, hkh1]
  have hmask2 : t2.index_mask = (OAKVL.new V esz req hashf LoadFactorHalfFull).index_mask := by
    rw [ht2, setEntry_mask, hmask1]
  have hcount2 : t2.entry_count = (OAKVL.new V esz req hashf LoadFactorHalfFull).entry_count := by
    rw [ht2, setEntry_count, hcount1]
  have hthr2 : t2.resize_threshold
      = (OAKVL.new V esz req hashf LoadFactorHalfFull).resize_threshold := by
    rw [ht2, setEntry_threshold, hthr1]
  have hact2 : t2.active_entry_count = 1 := by rw [ht2, setEntry_active, hact1]
  have hlen2 : t2.entry_list_p.length
      = (OAKVL.new V esz req hashf LoadFactorHalfFull).entry_list_p.length := by
    rw [ht2]
    rw [setEntry_length _ _ _]
    exact hlen1
  have hat2 : t2.entryAt (hashf k &&& (OAKVL.new V esz req hashf LoadFactorHalfFull).index_mask)
      = { status := .MULTIPLE_VALUES
            { size := 2, capacity := 4, data := [some v1, some v2, none, none] },
          hash_value := hashf k, key := some k, value := none } := by
    rw [ht2]
    exact entryAt_setEntry_self _ _ _ (by rw [hlen1]; omega)
  -- step 3
  obtain ⟨t3, ht3, ins3⟩ :
      ∃ t3, t3 = t2.setEntry
          (hashf k &&& (OAKVL.new V esz req hashf LoadFactorHalfFull).index_mask)
          { status := .MULTIPLE_VALUES
              { size := 3, capacity := 4, data := [some v1, some v2, some v3, none] },
            hash_value := hashf k, key := some k, value := none } ∧
        t2.Insert k v3 = some t3 := by
    refine ⟨_, rfl, ?_⟩
    have := @Insert_multi_hit V t2 k v3
      { size := 2, capacity := 4, data := [some v1, some v2, none, none] }
      (by rw [hact2, hthr2]; omega) (by rw [hcount2]; omega)
      (by rw [hkh2, hmask2, hat2]) (by rw [hkh2, hmask2, hat2]) rfl
      (by rw [hkh2, hmask2, hlen2]; omega)
    rw [hkh2, hmask2, hat2] at this
    exact this
  have hkh3 : t3.key_hash_obj = hashf := by rw [ht3, setEntry_keyhash, hkh2]
  have hmask3 : t3.index_mask = (OAKVL.new V esz req hashf LoadFactorHalfFull).index_mask := by
    rw [ht3, setEntry_mask, hmask2]
  have hcount3 : t3.entry_count = (OAKVL.new V esz req hashf LoadFactorHalfFull).entry_count := by
    rw [ht3, setEntry_count, hcount2]
  have hthr3 : t3.resize_threshold
      = (OAKVL.new V esz req hashf LoadFactorHalfFull).resize_threshold := by
    rw [ht3, setEntry_threshold, hthr2]
  have hact3 : t3.active_entry_count = 1 := by rw [ht3, setEntry_active, hact2]
  have hlen3 : t3.entry_list_p.length
      = (OAKVL.new V esz req hashf LoadFactorHalfFull).entry_list_p.length := by
    rw [ht3]
    rw [setEntry_length _ _ _]
    exact hlen2
  have hat3 : t3.entryAt (hashf k &&& (OAKVL.new V esz req hashf LoadFactorHalfFull).index_mask)
      = { status := .MULTIPLE_VALUES
            { size := 3, capacity := 4, data := [some v1, some v2, some v3, none] },
          hash_value := hashf k, key := some k, value := none } := by
    rw [ht3]
    exact entryAt_setEntry_self _ _ _ (by rw [hlen2]; omega)
  -- step 4
  obtain ⟨t4, ht4, ins4⟩ :
      ∃ t4, t4 = t3.setEntry
          (hashf k &&& (OAKVL.new V esz req hashf LoadFactorHalfFull).index_mask)
          { status := .MULTIPLE_VALUES
              { size := 4, capacity := 4, data := [some v1, some v2, some v3, some v4] },
            hash_value := hashf k, key := some k, value := none } ∧
        t3.Insert k v4 = some t4 := by
    refine ⟨_, rfl, ?_⟩
    have := @Insert_multi_hit V t3 k v4
      { size := 3, capacity := 4, data := [some v1, some v2, some v3, none] }
      (by rw [hact3, hthr3]; omega) (by rw [hcount3]; omega)
      (by rw [hkh3, hmask3, hat3]) (by rw [hkh3, hmask3, hat3]) rfl
      (by rw [hkh3, hmask3, hlen3]; omega)
    rw [hkh3, hmask3, hat3] at this
    exact this
  have hkh4 : t4.key_hash_obj = hashf := by rw [ht4, setEntry_keyhash, hkh3]
  have hmask4 : t4.index_mask = (OAKVL.new V esz req hashf LoadFactorHalfFull).index_mask := by
    rw [ht4, setEntry_mask, hmask3]
  have hcount4 : t4.entry_count = (OAKVL.new V esz req hashf LoadFactorHalfFull).entry_count := by
    rw [ht4, setEntry_count, hcount3]
  have hthr4 : t4.resize_threshold
      = (OAKVL.new V esz req hashf LoadFactorHalfFull).resize_threshold := by
    rw [ht4, setEntry_threshold, hthr3]
  have hact4 : t4.active_entry_count = 1 := by rw [ht4, setEntry_active, hact3]
  have hlen4 : t4.entry_list_p.length
      = (OAKVL.new V esz req hashf LoadFactorHalfFull).entry_list_p.length := by
    rw [ht4]
    rw [setEntry_length _ _ _]
    exact hlen3
  have hat4 : t4.entryAt (hashf k &&& (OAKVL.new V esz req hashf LoadFactorHalfFull).index_mask)
      = { status := .MULTIPLE_VALUES
            { size := 4, capacity := 4, data := [some v1, some v2, some v3, some v4] },
          hash_value := hashf k, key := some k, value := none } := by
    rw [ht4]
    exact entryAt_setEntry_self _ _ _ (by rw [hlen3]; omega)
  -- step 5 (the list is full: size 4 = capacity 4)
  obtain ⟨t5, ht5, ins5⟩ :
      ∃ t5, t5 = t4.setEntry
          (hashf k &&& (OAKVL.new V esz req hashf LoadFactorHalfFull).index_mask)
          { status := .MULTIPLE_VALUES
              { size := 5, capacity := 8,
                data := [some v1, some v2, some v3, some v4, some v5, none, none, none] },
            hash_value := hashf k, key := some k, value := none } ∧
        t4.Insert k v5 = some t5 := by
    refine ⟨_, rfl, ?_⟩
    have := @Insert_multi_full V t4 k v5
      { size := 4, capacity := 4, data := [some v1, some v2, some v3, some v4] }
      (by rw [hact4, hthr4]; omega) (by rw [hcount4]; omega)
      (by rw [hkh4, hmask4, hat4]) (by rw [hkh4, hmask4, hat4]) rfl
      (by rw [hkh4, hmask4, hlen4]; omega)
    rw [hkh4, hmask4, hat4] at this
    exact this
  have hat5 : t5.entryAt (hashf k &&& (OAKVL.new V esz req hashf LoadFactorHalfFull).index_mask)
      = { status := .MULTIPLE_VALUES
            { size := 5, capacity := 8,
              data := [some v1, some v2, some v3, some v4, some v5, none, none, none] },
          hash_value := hashf k, key := some k, value := none } := by
    rw [ht5]
    exact entryAt_setEntry_self _ _ _ (by rw [hlen4]; omega)
  exact ⟨t1, t2, t3, t4, t5, ins1, ins2, ins3, ins4, ins5,
    hat1, hat2, hat3, hat4, hat5⟩

/-- An indexed read is either a list member or the free default. -/
theorem entryAt_mem_or_free {V : Type} (t : OAKVL V) (i : Nat) :
    t.entryAt i ∈ t.entry_list_p ∨ t.entryAt i = freeEntry V := by
  unfold OAKVL.entryAt
  by_cases h : i < t.entry_list_p.length
  · left
    rw [List.getD_eq_getElem _ _ h]
    exact List.getElem_mem h
  · right
    exact List.getD_eq_default _ _ (Nat.le_of_not_lt h)

/-- A member read: the invariant gives `kvlOkB` for every `entryAt`. -/
theorem kvlOkB_entryAt {V : Type} {t : OAKVL V} (h : KVLInv t) (i : Nat) :
    kvlOkB (t.entryAt i) = true := by
  rcases entryAt_mem_or_free t i with hm | hm
  · exact h _ hm
  · rw [hm]
    rfl

/-- Overwriting one slot with an invariant-respecting entry preserves
the invariant. -/
theorem kvlInv_setEntry {V : Type} {t : OAKVL V} {i : Nat} {e : HashEntry V}
    (h : KVLInv t) (he : kvlOkB e = true) : KVLInv (t.setEntry i e) := by
  intro x hx
  rcases List.mem_or_eq_of_mem_set hx with hx | rfl
  · exact h x hx
  · exact he

/-- The insert probe preserves the invariant: a fresh `INLINE` entry
trivially satisfies it, the initial list has `size 2 ≤ capacity 4`,
and appending to a list of size `s` with `1 ≤ s ≤ c` yields
`1 ≤ s + 1 ≤ c` (not full) or `1 ≤ s + 1 ≤ 2c` (full, `s = c`). -/
theorem kvlInv_probeInsertAux {V : Type} (t : OAKVL V) (key hash : Nat) :
    ∀ fuel idx t' loc, KVLInv t →
      OAKVL.probeInsertAux t key hash idx fuel = some (t', loc) → KVLInv t' := by
  intro fuel
  induction fuel with
  | zero => intro idx t' loc _ h; cases h
  | succ fuel ih =>
    intro idx t' loc hinv h
    unfold OAKVL.probeInsertAux at h
    rcases hs : (t.entryAt idx).status with _ | _ | _ | kv
    · simp only [hs, Option.some.injEq, Prod.mk.injEq] at h
      obtain ⟨ht, -⟩ := h
      subst ht
      exact kvlInv_setEntry hinv rfl
    · simp only [hs, Option.some.injEq, Prod.mk.injEq] at h
      obtain ⟨ht, -⟩ := h
      subst ht
      exact kvlInv_setEntry hinv rfl
    · simp only [hs] at h
      by_cases hk : (t.entryAt idx).key == some key
      · simp only [hk, if_true, Option.some.injEq, Prod.mk.injEq] at h
        obtain ⟨ht, -⟩ := h
        subst ht
        exact kvlInv_setEntry hinv rfl
      · simp only [hk, Bool.false_eq_true, if_false] at h
        exact ih _ _ _ hinv h
    · have hok : kvlOkB (t.entryAt idx) = true := kvlOkB_entryAt hinv idx
      unfold kvlOkB statusOkB at hok
      rw [hs] at hok
      simp only [Bool.and_eq_true, decide_eq_true_eq] at hok
      obtain ⟨h1, h2⟩ := hok
      simp only [hs] at h
      by_cases hk : (t.entryAt idx).key == some key
      · simp only [hk, if_true] at h
        by_cases hfull : kv.IsFull
        · simp only [hfull, if_true, Option.some.injEq, Prod.mk.injEq] at h
          obtain ⟨ht, -⟩ := h
          subst ht
          refine kvlInv_setEntry hinv ?_
          have hc : kv.size = kv.capacity := by
            have hb := hfull
            simp only [KeyValueList.IsFull, beq_iff_eq] at hb
            exact hb
          have hsh : kv.capacity <<< 1 = 2 * kv.capacity := by
            rw [Nat.shiftLeft_eq, Nat.pow_one]
            omega
          simp only [kvlOkB, statusOkB, KeyValueList.GetResized, Bool.and_eq_true,
            decide_eq_true_eq]
          omega
        · simp only [hfull, Bool.false_eq_true, if_false, Option.some.injEq,
            Prod.mk.injEq] at h
          obtain ⟨ht, -⟩ := h
          subst ht
          refine kvlInv_setEntry hinv ?_
          have hc : kv.size ≠ kv.capacity := by
            intro hceq
            simp only [KeyValueList.IsFull, beq_iff_eq] at hfull
            exact hfull hceq
          simp only [kvlOkB, statusOkB, Bool.and_eq_true, decide_eq_true_eq]
          omega
      · simp only [hk, Bool.false_eq_true, if_false] at h
        exact ih _ _ _ hinv h

/-- The resize walk preserves the invariant: every copied entry keeps
its status word (and with it the list it owns). -/
theorem kvlInv_resizeWalk {V : Type} :
    ∀ (old : List (HashEntry V)) (remaining : Nat) (t_new t' : OAKVL V),
      KVLInv t_new → (∀ e ∈ old, kvlOkB e = true) →
      OAKVL.resizeWalk t_new old remaining = some t' → KVLInv t' := by
  intro old
  induction old with
  | nil =>
    intro remaining t_new t' hinv _ h
    cases remaining with
    | zero => cases h; exact hinv
    | succ r => cases h
  | cons e rest ih =>
    intro remaining t_new t' hinv hold h
    cases remaining with
    | zero => cases h; exact hinv
    | succ r =>
      unfold OAKVL.resizeWalk at h
      by_cases hv : e.IsValidEntry
      · rw [if_pos hv] at h
        rcases hp : t_new.ProbeForResize e.hash_value with _ | idx
        · rw [hp] at h; cases h
        · simp only [hp] at h
          refine ih r _ t' ?_ (fun x hx => hold x (List.mem_cons_of_mem e hx)) h
          exact kvlInv_setEntry hinv (hold e (List.mem_cons_self e rest))
      · simp only [hv, Bool.false_eq_true, if_false] at h
        exact ih _ _ t' hinv (fun x hx => hold x (List.mem_cons_of_mem e hx)) h

/-- The fresh entry array satisfies the invariant (only FREE slots and
the INLINE sentinel). -/
theorem kvlInv_freshList {V : Type} (n : Nat) :
    ∀ e ∈ GetHashEntryListStatic V n, kvlOkB e = true := by
  intro e he
  unfold GetHashEntryListStatic at he
  rcases List.mem_append.mp he with he | he
  · rw [List.eq_of_mem_replicate he]
    rfl
  · rw [List.mem_singleton.mp he]
    rfl

/-- `Resize` preserves the amended invariant. -/
theorem kvlInv_Resize {V : Type} {t t' : OAKVL V}
    (hinv : KVLInv t) (h : t.Resize = some t') : KVLInv t' := by
  unfold OAKVL.Resize at h
  exact kvlInv_resizeWalk _ _ _ _ (fun e he => kvlInv_freshList _ e he) hinv h

/-- Constructing a value in the slot handed out by the probe preserves
the invariant (`FillValue` changes neither `size` nor `capacity`). -/
theorem kvlInv_writeValue {V : Type} (t : OAKVL V) (loc : OAKVL.VLoc) (v : V)
    (hinv : KVLInv t) : KVLInv (t.writeValue loc v) := by
  rcases loc with i | ⟨i, j⟩
  · unfold OAKVL.writeValue
    exact kvlInv_setEntry hinv (kvlOkB_entryAt hinv i)
  · unfold OAKVL.writeValue
    rcases hs : (t.entryAt i).status with _ | _ | _ | kv
    all_goals simp only [hs]
    · exact hinv
    · exact hinv
    · exact hinv
    · refine kvlInv_setEntry hinv ?_
      have hok := kvlOkB_entryAt hinv i
      unfold kvlOkB statusOkB at hok ⊢
      rw [hs] at hok
      simpa only [KeyValueList.FillValue] using hok

/-- `Insert` preserves the amended invariant. -/
theorem kvlInv_Insert {V : Type} {t t' : OAKVL V} {k : Nat} {v : V}
    (hinv : KVLInv t) (h : t.Insert k v = some t') : KVLInv t' := by
  unfold OAKVL.Insert at h
  rcases hr : (if t.active_entry_count = t.resize_threshold then t.Resize else some t)
      with _ | t1
  · rw [hr] at h; cases h
  · simp only [hr] at h
    have hinv1 : KVLInv t1 := by
      by_cases hc : t.active_entry_count = t.resize_threshold
      · rw [if_pos hc] at hr
        exact kvlInv_Resize hinv hr
      · rw [if_neg hc] at hr
        cases hr
        exact hinv
    rcases hp : t1.ProbeForInsert k with _ | ⟨t2, loc⟩
    · rw [hp] at h; cases h
    · simp only [hp, Option.some.injEq] at h
      subst h
      refine kvlInv_writeValue _ _ _ ?_
      unfold OAKVL.ProbeForInsert at hp
      exact kvlInv_probeInsertAux t1 _ _ _ _ _ _ hinv1 hp

/-- `DeleteEntry` preserves the amended invariant (the entry becomes
`DELETED` and owns no list). -/
theorem kvlInv_DeleteEntry {V : Type} (t : OAKVL V) (i : Nat)
    (hinv : KVLInv t) : KVLInv (t.DeleteEntry i) := by
  unfold OAKVL.DeleteEntry
  intro x hx
  refine kvlInv_setEntry hinv ?_ x hx
  rfl

/-- C6, amended: the corrected overflow-list invariant —
`0 ≤ size ≤ capacity` always, and `size ≥ 1` (not `≥ 2`) whenever the
list exists — is preserved by every operation: `Insert`, `DeleteKey`,
`Delete(iterator)` (which on a two-element list leaves a legal
one-element list), and `Resize`. -/
theorem C6_amended {V : Type} :
    (∀ (t t' : OAKVL V) (k : Nat) (v : V),
      KVLInv t → t.Insert k v = some t' → KVLInv t') ∧
    (∀ (t : OAKVL V) (k : Nat), KVLInv t → KVLInv (t.DeleteKey k).2) ∧
    (∀ (t : OAKVL V) (it : OAKVL.Iterator), KVLInv t → KVLInv (t.Delete it)) ∧
    (∀ (t t' : OAKVL V), KVLInv t → t.Resize = some t' → KVLInv t') := by
  refine ⟨?_, ?_, ?_, ?_⟩
  · intro t t' k v hinv h
    exact kvlInv_Insert hinv h
  · intro t k hinv
    unfold OAKVL.DeleteKey
    rcases hp : t.ProbeForSearch k with _ | i
    · exact hinv
    · exact kvlInv_DeleteEntry t i hinv
  · intro t it hinv
    unfold OAKVL.Delete
    rcases hs : (t.entryAt it.entry_p).status with _ | _ | _ | kv
    all_goals simp only [hs]
    · exact kvlInv_DeleteEntry t it.entry_p hinv
    · exact kvlInv_DeleteEntry t it.entry_p hinv
    · exact kvlInv_DeleteEntry t it.entry_p hinv
    · have hok := kvlOkB_entryAt hinv it.entry_p
      unfold kvlOkB statusOkB at hok
      rw [hs] at hok
      simp only [Bool.and_eq_true, decide_eq_true_eq] at hok
      obtain ⟨h1, h2⟩ := hok
      by_cases h1eq : kv.size = 1
      · rw [if_pos h1eq]
        exact kvlInv_DeleteEntry t it.entry_p hinv
      · rw [if_neg h1eq]
        refine kvlInv_setEntry hinv ?_
        simp only [kvlOkB, statusOkB, KeyValueList.DeleteIndex, Bool.and_eq_true,
          decide_eq_true_eq]
        omega
  · intro t t' hinv h
    exact kvlInv_Resize hinv h

/-- C6, witness: the amended invariant, checked by applying each
conjunct of the preservation theorem at the concrete tables of this
development (an insert into the default table, and deletions on the
three-value table `c10T`). -/
theorem C6_amended_witness :
    KVLInv ((oakvlDefault.Insert 1 5).getD oakvlDefault) ∧
    KVLInv ((c10T.DeleteKey 7).2) ∧
    KVLInv (c10T.Delete (c10T.Begin 7)) :=
  ⟨C6_amended.1 oakvlDefault ((oakvlDefault.Insert 1 5).getD oakvlDefault) 1 5
      (by decide) rfl,
    C6_amended.2.1 c10T 7 (by decide),
    C6_amended.2.2.1 c10T (c10T.Begin 7) (by decide)⟩


/-! ### CA-SCC general correctness (C7) -/

/-- `resizeStep` written as an explicit `set`. -/
theorem resizeStep_eq {V : Type} (mask : Nat) (acc : List (List (SCCEntry V)))
    (e : SCCEntry V) :
    CASCC.resizeStep mask acc e
      = acc.set (e.hash_value &&& mask)
          (e :: acc.getD (e.hash_value &&& mask) []) := rfl

/-- `getD` after `set` at the written index. -/
theorem getD_set_eq {α : Type} (l : List α) (i : Nat) (x d : α)
    (h : i < l.length) : (l.set i x).getD i d = x := by
  simp [List.getD_eq_getElem?_getD, List.getElem?_set_self, h]

/-- `getD` after `set` at a different index. -/
theorem getD_set_ne {α : Type} (l : List α) (i j : Nat) (x d : α)
    (h : i ≠ j) : (l.set i x).getD j d = l.getD j d := by
  simp [List.getD_eq_getElem?_getD, List.getElem?_set_ne, h]

/-- A member of the flattening lives in some bucket, addressed with `getD`. -/
theorem mem_getD_of_mem_flatten {α : Type} (L : List (List α)) (e : α)
    (h : e ∈ L.flatten) : ∃ j, j < L.length ∧ e ∈ L.getD j [] := by
  induction L with
  | nil => simp at h
  | cons x xs ih =>
    rw [List.flatten_cons] at h
    rcases List.mem_append.mp h with h1 | h2
    · exact ⟨0, Nat.succ_pos _, h1⟩
    · obtain ⟨j, hj, hm⟩ := ih h2
      exact ⟨j + 1, by simp only [List.length_cons]; omega, hm⟩

/-- Prepending onto one bucket adds the element to the flattening,
up to permutation. -/
theorem flatten_set_cons_perm {α : Type} (l : List (List α)) (i : Nat) (a : α)
    (h : i < l.length) :
    List.Perm (l.set i (a :: l.getD i [])).flatten (a :: l.flatten) := by
  induction l generalizing i with
  | nil => simp at h
  | cons x xs ih =>
    cases i with
    | zero => exact List.Perm.refl _
    | succ i =>
      have h2 : i < xs.length := by simpa using h
      have hstep : List.Perm (x ++ (xs.set i (a :: xs.getD i [])).flatten)
          (x ++ (a :: xs.flatten)) :=
        List.Perm.append_left x (ih i h2)
      exact hstep.trans List.perm_middle

/-- The re-bucketing fold preserves the bucket-array length. -/
theorem length_foldl_resizeStep {V : Type} (mask : Nat) (ns : List (SCCEntry V)) :
    ∀ acc, ((ns.foldl (CASCC.resizeStep mask) acc).length = acc.length) := by
  induction ns with
  | nil => intro acc; rfl
  | cons e ns ih =>
    intro acc
    rw [List.foldl_cons, ih, resizeStep_eq, List.length_set]

/-- The re-bucketing fold prepends exactly the processed nodes to the
flattening, up to permutation. -/
theorem flatten_foldl_resizeStep_perm {V : Type} (mask b : Nat)
    (hm : mask = 2 ^ b - 1) (ns : List (SCCEntry V)) :
    ∀ acc, acc.length = 2 ^ b →
      List.Perm ((ns.foldl (CASCC.resizeStep mask) acc).flatten)
        (ns ++ acc.flatten) := by
  induction ns with
  | nil => intro acc _; exact List.Perm.refl _
  | cons e ns ih =>
    intro acc hlen
    rw [List.foldl_cons]
    have hidx : e.hash_value &&& mask < acc.length := by
      rw [hlen, hm]
      exact land_mask_lt _ b
    have hstep : List.Perm ((CASCC.resizeStep mask acc e).flatten)
        (e :: acc.flatten) := by
      rw [resizeStep_eq]
      exact flatten_set_cons_perm _ _ _ hidx
    have hlen2 : (CASCC.resizeStep mask acc e).length = 2 ^ b := by
      rw [resizeStep_eq, List.length_set, hlen]
    refine (ih _ hlen2).trans ?_
    refine (List.Perm.append_left ns hstep).trans ?_
    exact List.perm_middle

/-- Where a node found in the folded bucket array comes from: either it
is one of the processed nodes, sitting in its masked bucket, or it was
already in the accumulator at the same index. -/
theorem mem_foldl_resizeStep {V : Type} (mask b : Nat)
    (hm : mask = 2 ^ b - 1) (ns : List (SCCEntry V)) :
    ∀ acc, acc.length = 2 ^ b →
      ∀ j e, e ∈ (ns.foldl (CASCC.resizeStep mask) acc).getD j [] →
        (e ∈ ns ∧ e.hash_value &&& mask = j) ∨ e ∈ acc.getD j [] := by
  induction ns with
  | nil => intro acc _ j e he; exact Or.inr he
  | cons e0 ns ih =>
    intro acc hlen j e he
    rw [List.foldl_cons] at he
    have hlen2 : (CASCC.resizeStep mask acc e0).length = 2 ^ b := by
      rw [resizeStep_eq, List.length_set, hlen]
    rcases ih _ hlen2 j e he with ⟨hmem, hidx⟩ | hacc
    · exact Or.inl ⟨List.mem_cons_of_mem _ hmem, hidx⟩
    · rw [resizeStep_eq] at hacc
      by_cases hij : e0.hash_value &&& mask = j
      · rw [hij] at hacc
        have hjlt : j < acc.length := by
          rw [hlen, ← hij, hm]
          exact land_mask_lt _ b
        rw [getD_set_eq _ _ _ _ hjlt] at hacc
        rcases List.mem_cons.mp hacc with rfl | hmem2
        · exact Or.inl ⟨List.mem_cons_self _ _, hij⟩
        · exact Or.inr hmem2
      · rw [getD_set_ne _ _ _ _ _ hij] at hacc
        exact Or.inr hacc

/-- The constructor rounding always takes the buggy no-shift-back
branch: the result is `2 ^ effectiveBits r` slots with the matching
mask. -/
theorem caRound_eq (r : Nat) :
    caRoundSlotCount r = (2 ^ effectiveBits r, 2 ^ effectiveBits r - 1) := by
  simp only [caRoundSlotCount, Nat.one_shiftLeft]
  rw [if_neg]
  have h1 : 0 < 2 ^ effectiveBits r := Nat.two_pow_pos _
  have h2 : 2 ^ effectiveBits r >>> 1 = 2 ^ effectiveBits r / 2 := Nat.shiftRight_one _
  omega

/-- A fresh CA-SCC table satisfies the structural invariant. -/
theorem SCCInv_new {V : Type} (p : Nat) (hashf lfc : Nat → Nat) :
    CASCC.SCCInv (CASCC.new p hashf lfc : CASCC V) := by
  refine ⟨?_, ⟨effectiveBits p, ?_, ?_⟩, ?_⟩
  · exact List.length_replicate _ _
  · show (caRoundSlotCount p).1 = _
    rw [caRound_eq]
  · show (caRoundSlotCount p).2 = _
    rw [caRound_eq]
  · intro j hj e he
    have he2 : e ∈ (List.replicate (caRoundSlotCount p).1
        ([] : List (SCCEntry V))).getD j [] := he
    rw [getD_replicate] at he2
    exact absurd he2 (List.not_mem_nil e)

/-- The bucket array built by `Resize`, as a single fold over all nodes. -/
theorem Resize_buckets {V : Type} (t : CASCC V) :
    t.Resize.entry_p_list_p
      = (t.entry_p_list_p.flatten).foldl
          (CASCC.resizeStep (t.slot_count <<< 1 - 1))
          (List.replicate (t.slot_count <<< 1) []) := by
  show t.entry_p_list_p.foldl
      (fun acc chain => chain.foldl (CASCC.resizeStep (t.slot_count <<< 1 - 1)) acc)
      (List.replicate (t.slot_count <<< 1) []) = _
  rw [List.foldl_flatten]

/-- `Resize` doubles the slot count. -/
theorem Resize_slot_count {V : Type} (t : CASCC V) :
    t.Resize.slot_count = t.slot_count <<< 1 := rfl

/-- `Resize` sets the mask to the doubled slot count minus one. -/
theorem Resize_mask {V : Type} (t : CASCC V) :
    t.Resize.index_mask = t.slot_count <<< 1 - 1 := rfl

/-- `Resize` keeps the hash functor. -/
theorem Resize_keyhash {V : Type} (t : CASCC V) :
    t.Resize.key_hash_obj = t.key_hash_obj := rfl

/-- `Resize` preserves the structural invariant. -/
theorem SCCInv_Resize {V : Type} {t : CASCC V} (h : CASCC.SCCInv t) :
    CASCC.SCCInv t.Resize := by
  obtain ⟨hlen, ⟨b, hsc, hm⟩, hbuck⟩ := h
  have hsc2 : t.slot_count <<< 1 = 2 ^ (b + 1) := by
    rw [hsc, Nat.shiftLeft_eq, Nat.pow_one, Nat.pow_succ]
  refine ⟨?_, ⟨b + 1, ?_, ?_⟩, ?_⟩
  · rw [Resize_buckets, length_foldl_resizeStep, List.length_replicate,
      Resize_slot_count]
  · rw [Resize_slot_count, hsc2]
  · rw [Resize_mask, hsc2]
  · intro j hj e he
    rw [Resize_buckets] at he
    rcases mem_foldl_resizeStep (t.slot_count <<< 1 - 1) (b + 1)
        (by rw [hsc2]) t.entry_p_list_p.flatten _
        (by rw [List.length_replicate, hsc2]) j e he with ⟨hmem, hidx⟩ | habs
    · obtain ⟨j0, hj0, hm0⟩ := mem_getD_of_mem_flatten _ _ hmem
      refine ⟨?_, ?_⟩
      · rw [Resize_keyhash]
        exact (hbuck j0 hj0 e hm0).1
      · rw [Resize_mask]
        exact hidx
    · rw [getD_replicate] at habs
      exact absurd habs (List.not_mem_nil e)

/-- `allNodes` unfolded. -/
theorem allNodes_eq {V : Type} (t : CASCC V) :
    CASCC.allNodes t = t.entry_p_list_p.flatten := rfl

/-- `Resize` keeps exactly the nodes of the table, up to permutation. -/
theorem allNodes_Resize {V : Type} {t : CASCC V} (h : CASCC.SCCInv t) :
    List.Perm (CASCC.allNodes t.Resize) (CASCC.allNodes t) := by
  obtain ⟨hlen, ⟨b, hsc, hm⟩, hbuck⟩ := h
  have hsc2 : t.slot_count <<< 1 = 2 ^ (b + 1) := by
    rw [hsc, Nat.shiftLeft_eq, Nat.pow_one, Nat.pow_succ]
  have hp := flatten_foldl_resizeStep_perm (t.slot_count <<< 1 - 1) (b + 1)
    (by rw [hsc2]) t.entry_p_list_p.flatten
    (List.replicate (t.slot_count <<< 1) []) (by rw [List.length_replicate, hsc2])
  have h0 : (List.replicate (t.slot_count <<< 1) ([] : List (SCCEntry V))).flatten
      = [] := by simp
  rw [h0, List.append_nil] at hp
  rw [allNodes_eq, allNodes_eq, Resize_buckets]
  exact hp

/-- The insertion core (after the resize check) preserves the
structural invariant. -/
theorem SCCInv_insert_core {V : Type} {t : CASCC V} (h : CASCC.SCCInv t)
    (k : Nat) (v : V) :
    CASCC.SCCInv { t with
      entry_p_list_p :=
        t.entry_p_list_p.set (t.index_mask &&& t.key_hash_obj k)
          (⟨t.key_hash_obj k, k, v⟩ ::
            t.entry_p_list_p.getD (t.index_mask &&& t.key_hash_obj k) [])
      entry_count := t.entry_count + 1 } := by
  obtain ⟨hlen, ⟨b, hsc, hm⟩, hbuck⟩ := h
  have hidx : t.index_mask &&& t.key_hash_obj k < t.entry_p_list_p.length := by
    rw [hlen, hsc, hm, Nat.and_comm]
    exact land_mask_lt _ b
  refine ⟨?_, ⟨b, hsc, hm⟩, ?_⟩
  · show (t.entry_p_list_p.set _ _).length = t.slot_count
    rw [List.length_set]
    exact hlen
  · intro j hj e he
    have he2 : e ∈ (t.entry_p_list_p.set (t.index_mask &&& t.key_hash_obj k)
        (⟨t.key_hash_obj k, k, v⟩ ::
          t.entry_p_list_p.getD (t.index_mask &&& t.key_hash_obj k) [])).getD j [] := he
    show e.hash_value = t.key_hash_obj e.key ∧ e.hash_value &&& t.index_mask = j
    by_cases hje : t.index_mask &&& t.key_hash_obj k = j
    · rw [hje] at he2
      rw [getD_set_eq _ _ _ _ (by rw [← hje] at hj ⊢; exact hidx)] at he2
      rcases List.mem_cons.mp he2 with rfl | hmem2
      · exact ⟨rfl, by rw [Nat.and_comm]; exact hje⟩
      · rw [← hje] at hmem2
        have := hbuck _ hidx e hmem2
        exact ⟨this.1, by rw [this.2]; exact hje⟩
    · rw [getD_set_ne _ _ _ _ _ hje] at he2
      have hj2 : j < t.entry_p_list_p.length := by
        have : ({ t with
          entry_p_list_p :=
            t.entry_p_list_p.set (t.index_mask &&& t.key_hash_obj k)
              (⟨t.key_hash_obj k, k, v⟩ ::
                t.entry_p_list_p.getD (t.index_mask &&& t.key_hash_obj k) [])
          entry_count := t.entry_count + 1 } : CASCC V).entry_p_list_p.length
            = t.entry_p_list_p.length := by
          show (t.entry_p_list_p.set _ _).length = _
          rw [List.length_set]
        rw [this] at hj
        exact hj
      exact hbuck j hj2 e he2

/-- The insertion core prepends exactly the new node, up to
permutation. -/
theorem allNodes_insert_core {V : Type} {t : CASCC V} (h : CASCC.SCCInv t)
    (k : Nat) (v : V) :
    List.Perm
      (CASCC.allNodes { t with
        entry_p_list_p :=
          t.entry_p_list_p.set (t.index_mask &&& t.key_hash_obj k)
            (⟨t.key_hash_obj k, k, v⟩ ::
              t.entry_p_list_p.getD (t.index_mask &&& t.key_hash_obj k) [])
        entry_count := t.entry_count + 1 })
      (⟨t.key_hash_obj k, k, v⟩ :: CASCC.allNodes t) := by
  obtain ⟨hlen, ⟨b, hsc, hm⟩, hbuck⟩ := h
  have hidx : t.index_mask &&& t.key_hash_obj k < t.entry_p_list_p.length := by
    rw [hlen, hsc, hm, Nat.and_comm]
    exact land_mask_lt _ b
  exact flatten_set_cons_perm _ _ _ hidx

/-- `Insert` keeps the hash functor. -/
theorem Insert_keyhash {V : Type} (t : CASCC V) (k : Nat) (v : V) :
    (t.Insert k v).key_hash_obj = t.key_hash_obj := by
  simp only [CASCC.Insert]
  split
  · rfl
  · rfl

/-- `Insert` preserves the structural invariant. -/
theorem SCCInv_Insert {V : Type} {t : CASCC V} (h : CASCC.SCCInv t)
    (k : Nat) (v : V) : CASCC.SCCInv (t.Insert k v) := by
  simp only [CASCC.Insert]
  split
  · exact SCCInv_insert_core (SCCInv_Resize h) k v
  · exact SCCInv_insert_core h k v

/-- `Insert` prepends exactly the node `⟨hash(k), k, v⟩`, up to
permutation. -/
theorem allNodes_Insert {V : Type} {t : CASCC V} (h : CASCC.SCCInv t)
    (k : Nat) (v : V) :
    List.Perm (CASCC.allNodes (t.Insert k v))
      (⟨t.key_hash_obj k, k, v⟩ :: CASCC.allNodes t) := by
  simp only [CASCC.Insert]
  split
  · refine (allNodes_insert_core (SCCInv_Resize h) k v).trans ?_
    exact List.Perm.cons _ (allNodes_Resize h)
  · exact allNodes_insert_core h k v

/-- An insertion run preserves the structural invariant. -/
theorem SCCInv_runInserts {V : Type} (ops : List (Nat × V)) :
    ∀ t : CASCC V, CASCC.SCCInv t → CASCC.SCCInv (CASCC.runInserts t ops) := by
  induction ops with
  | nil => intro t h; exact h
  | cons pr ops ih =>
    intro t h
    exact ih (t.Insert pr.1 pr.2) (SCCInv_Insert h pr.1 pr.2)

/-- An insertion run keeps the hash functor. -/
theorem runInserts_keyhash {V : Type} (ops : List (Nat × V)) :
    ∀ t : CASCC V, (CASCC.runInserts t ops).key_hash_obj = t.key_hash_obj := by
  induction ops with
  | nil => intro t; rfl
  | cons pr ops ih =>
    intro t
    rw [show CASCC.runInserts t (pr :: ops)
        = CASCC.runInserts (t.Insert pr.1 pr.2) ops from rfl]
    rw [ih, Insert_keyhash]

/-- An insertion run adds exactly one node per operation, up to
permutation. -/
theorem allNodes_runInserts {V : Type} (ops : List (Nat × V)) :
    ∀ t : CASCC V, CASCC.SCCInv t →
      List.Perm (CASCC.allNodes (CASCC.runInserts t ops))
        ((ops.map (fun pr => (⟨t.key_hash_obj pr.1, pr.1, pr.2⟩ : SCCEntry V)))
          ++ CASCC.allNodes t) := by
  induction ops with
  | nil => intro t _; exact List.Perm.refl _
  | cons pr ops ih =>
    intro t h
    have h1 := ih (t.Insert pr.1 pr.2) (SCCInv_Insert h pr.1 pr.2)
    rw [Insert_keyhash] at h1
    refine h1.trans ?_
    refine (List.Perm.append_left _ (allNodes_Insert h pr.1 pr.2)).trans ?_
    exact List.perm_middle

/-- `GetValue` unfolded to the home bucket. -/
theorem GetValue_eq {V : Type} (t : CASCC V) (k : Nat) :
    t.GetValue k
      = ((t.entry_p_list_p.getD (t.index_mask &&& t.key_hash_obj k) []).filter
          (fun e => e.key == k)).map (fun e => e.value) := rfl

/-- If every bucket other than `home` filters to nothing, filtering the
flattening is filtering the home bucket. -/
theorem filter_flatten_single {α : Type} (p : α → Bool) :
    ∀ (L : List (List α)) (home : Nat), home < L.length →
      (∀ j, j < L.length → j ≠ home → ∀ e ∈ L.getD j [], p e = false) →
      (L.flatten).filter p = (L.getD home []).filter p := by
  intro L
  induction L with
  | nil => intro home h _; exact absurd h (Nat.not_lt_zero _)
  | cons x xs ih =>
    intro home hh hother
    rw [List.flatten_cons, List.filter_append]
    cases home with
    | zero =>
      have h2 : (xs.flatten).filter p = [] := by
        rw [List.filter_eq_nil_iff]
        intro e he
        obtain ⟨j, hj, hmj⟩ := mem_getD_of_mem_flatten xs e he
        have := hother (j + 1) (by simp only [List.length_cons]; omega)
          (by omega) e hmj
        simp [this]
      rw [h2, List.append_nil]
      rfl
    | succ h =>
      have h1 : x.filter p = [] := by
        rw [List.filter_eq_nil_iff]
        intro e he
        have := hother 0 (Nat.succ_pos _) (by omega) e he
        simp [this]
      rw [h1, List.nil_append]
      exact ih h (by simpa using hh)
        (fun j hj hne e he =>
          hother (j + 1) (by simp only [List.length_cons]; omega)
            (by omega) e he)

/-- Under the invariant, `GetValue` reads exactly the key's nodes of
the whole table: nodes of the key live nowhere but the home bucket. -/
theorem GetValue_eq_allNodes {V : Type} {t : CASCC V} (h : CASCC.SCCInv t)
    (k : Nat) :
    t.GetValue k
      = ((CASCC.allNodes t).filter (fun e => e.key == k)).map
          (fun e => e.value) := by
  obtain ⟨hlen, ⟨b, hsc, hm⟩, hbuck⟩ := h
  have hhome : t.index_mask &&& t.key_hash_obj k < t.entry_p_list_p.length := by
    rw [hlen, hsc, hm, Nat.and_comm]
    exact land_mask_lt _ b
  have hfs := filter_flatten_single (fun e => e.key == k) t.entry_p_list_p
    (t.index_mask &&& t.key_hash_obj k) hhome ?_
  · rw [GetValue_eq, allNodes_eq, hfs]
  · intro j hj hne e he
    obtain ⟨hwf, hidx⟩ := hbuck j hj e he
    rw [beq_eq_false_iff_ne]
    intro heq
    apply hne
    rw [← hidx, hwf, heq, Nat.and_comm]

/-- `(range n).map (i ↦ (i, i))` holds exactly one pair with first
component `k` when `k < n`. -/
theorem range_pair_filter (n k : Nat) (h : k < n) :
    ((List.range n).map (fun i => (i, i))).filter (fun pr => pr.1 == k)
      = [(k, k)] := by
  induction n with
  | zero => omega
  | succ n ih =>
    rw [List.range_succ, List.map_append, List.filter_append]
    by_cases hk : k < n
    · rw [ih hk]
      have hne : (n == k) = false := beq_eq_false_iff_ne.mpr (by omega)
      have h2 : (([n].map (fun i => (i, i))).filter (fun pr => pr.1 == k))
          = [] := by
        simp [List.filter, hne]
      rw [h2, List.append_nil]
    · have hkn : k = n := by omega
      subst hkn
      have h1 : ((List.range k).map (fun i => (i, i))).filter
          (fun pr => pr.1 == k) = [] := by
        rw [List.filter_eq_nil_iff]
        intro pr hpr
        obtain ⟨i, hi, rfl⟩ := List.mem_map.mp hpr
        have hik : i < k := List.mem_range.mp hi
        simp only [beq_iff_eq]
        omega
      rw [h1, List.nil_append]
      simp [List.filter]

/-- C7: on a CA-SCC table requested with capacity 30 (which the
constructor rounds to 32 slots), inserting `(i, i)` for every
`i < 1000` — a run that crosses the 400% load-factor threshold and
resizes — leaves a table in which `GetValue i` returns exactly one
value, equal to `i`, for every inserted key. -/
theorem C7_bulk_insert_get :
    (CASCC.new 30 SimpleInt64Hasher (LoadFactorPercent 400) : CASCC Nat).slot_count
      = 32 ∧
    ∀ i : Nat, i < 1000 → c7Table.GetValue i = [i] := by
  constructor
  · decide
  · intro i hi
    have hinv0 : CASCC.SCCInv
        (CASCC.new 30 SimpleInt64Hasher (LoadFactorPercent 400) : CASCC Nat) :=
      SCCInv_new _ _ _
    have hc7 : c7Table = CASCC.runInserts
        (CASCC.new 30 SimpleInt64Hasher (LoadFactorPercent 400))
        ((List.range 1000).map (fun j => (j, j))) := rfl
    have hinv : CASCC.SCCInv c7Table := by
      rw [hc7]
      exact SCCInv_runInserts _ _ hinv0
    have hperm := allNodes_runInserts
      ((List.range 1000).map (fun j => (j, j))) _ hinv0
    have h0 : CASCC.allNodes
        (CASCC.new 30 SimpleInt64Hasher (LoadFactorPercent 400) : CASCC Nat)
        = [] := by
      rw [allNodes_eq]
      show (List.replicate (caRoundSlotCount 30).1
        ([] : List (SCCEntry Nat))).flatten = []
      simp
    rw [h0, List.append_nil] at hperm
    have hfilter := hperm.filter (fun e => e.key == i)
    rw [List.map_filter] at hfilter
    have hpred : (((List.range 1000).map (fun j => (j, j))).filter
        ((fun e => SCCEntry.key e == i) ∘ fun pr =>
          (⟨(CASCC.new 30 SimpleInt64Hasher
              (LoadFactorPercent 400) : CASCC Nat).key_hash_obj pr.1,
            pr.1, pr.2⟩ : SCCEntry Nat)))
        = ((List.range 1000).map (fun j => (j, j))).filter
            (fun pr => pr.1 == i) := by
      apply List.filter_congr
      intro x _
      rfl
    rw [hpred, range_pair_filter 1000 i hi] at hfilter
    have heq := List.perm_singleton.mp hfilter
    rw [GetValue_eq_allNodes hinv, hc7] at *
    rw [heq]
    rfl

/-- C7, witness: the last inserted key, read back from the loaded
table. -/
theorem C7_bulk_insert_get_witness :
    (CASCC.new 30 SimpleInt64Hasher (LoadFactorPercent 400) : CASCC Nat).slot_count
      = 32 ∧
    c7Table.GetValue 999 = [999] :=
  ⟨C7_bulk_insert_get.1, C7_bulk_insert_get.2 999 (by decide)⟩


/-! ### OA-KVL insert-only correctness (C1): probe geometry -/

/-- A zero probe distance identifies the two slots. -/
theorem probeDist_eq_zero {ec p i : Nat} (hp : p < ec) (hi : i < ec) :
    probeDist ec p i = 0 ↔ p = i := by
  unfold probeDist
  split <;> omega

/-- The probe distance between two real slots is below the slot count. -/
theorem probeDist_lt {ec p i : Nat} (hp : p < ec) (hi : i < ec) :
    probeDist ec p i < ec := by
  unfold probeDist
  split <;> omega

/-- Probe positions stay below the slot count. -/
theorem probeSlot_lt {ec p d : Nat} (hp : p < ec) (hd : d ≤ ec) :
    probeSlot ec p d < ec := by
  unfold probeSlot
  split <;> omega

/-- Zero probe steps stay in place. -/
theorem probeSlot_zero {ec p : Nat} (hp : p < ec) : probeSlot ec p 0 = p := by
  unfold probeSlot
  split <;> omega

/-- Advancing one step decrements the distance to a distinct target. -/
theorem probeDist_succ {ec p i : Nat} (hp : p < ec) (hi : i < ec) (hne : p ≠ i) :
    probeDist ec (probeSlot ec p 1) i + 1 = probeDist ec p i := by
  unfold probeDist probeSlot
  split <;> split <;> split <;> omega

/-- Step composition: `d` steps after one step is `d + 1` steps. -/
theorem probeSlot_succ {ec p d : Nat} (hp : p < ec) (hd : d + 1 ≤ ec) :
    probeSlot ec (probeSlot ec p 1) d = probeSlot ec p (d + 1) := by
  unfold probeSlot
  split <;> split <;> split <;> omega

/-- Walking the distance to a slot reaches it. -/
theorem probeSlot_probeDist {ec p i : Nat} (hp : p < ec) (hi : i < ec) :
    probeSlot ec p (probeDist ec p i) = i := by
  unfold probeDist probeSlot
  split <;> split <;> omega

/-- The distance to the `d`-step position is `d`. -/
theorem probeDist_probeSlot {ec p d : Nat} (hp : p < ec) (hd : d < ec) :
    probeDist ec p (probeSlot ec p d) = d := by
  unfold probeDist probeSlot
  split <;> split <;> omega

/-- `GetNextEntry` is one probe step. -/
theorem nextIndex_eq_probeSlot {V : Type} (t : OAKVL V) {p : Nat}
    (hp : p < t.entry_count) : t.nextIndex p = probeSlot t.entry_count p 1 := by
  unfold OAKVL.nextIndex probeSlot
  split <;> split <;> omega

/-! ### Status-code case facts -/

/-- A valid entry is not FREE. -/
theorem valid_not_free {V : Type} {e : HashEntry V}
    (h : e.IsValidEntry = true) : e.IsFree = false := by
  unfold HashEntry.IsValidEntry at h
  unfold HashEntry.IsFree
  cases hs : e.status <;> simp [hs] at h ⊢

/-- A valid entry is not DELETED. -/
theorem valid_not_deleted {V : Type} {e : HashEntry V}
    (h : e.IsValidEntry = true) : e.IsDeleted = false := by
  unfold HashEntry.IsValidEntry at h
  unfold HashEntry.IsDeleted
  cases hs : e.status <;> simp [hs] at h ⊢

/-- Neither FREE nor DELETED means valid. -/
theorem valid_of_not_free_not_deleted {V : Type} {e : HashEntry V}
    (h1 : e.IsFree = false) (h2 : e.IsDeleted = false) :
    e.IsValidEntry = true := by
  unfold HashEntry.IsFree at h1
  unfold HashEntry.IsDeleted at h2
  unfold HashEntry.IsValidEntry
  cases hs : e.status <;> simp [hs] at h1 h2 ⊢

/-- A FREE flag pins the status word. -/
theorem status_of_free {V : Type} {e : HashEntry V}
    (h : e.IsFree = true) : e.status = .FREE := by
  unfold HashEntry.IsFree at h
  cases hs : e.status <;> simp [hs] at h ⊢

/-- A valid status is INLINE or MULTIPLE. -/
theorem status_of_valid {V : Type} {e : HashEntry V}
    (h : e.IsValidEntry = true) :
    e.status = .INLINE_VALUE ∨ ∃ kv, e.status = .MULTIPLE_VALUES kv := by
  unfold HashEntry.IsValidEntry at h
  cases hs : e.status <;> simp [hs] at h ⊢

/-- Copied entries contribute the same values to `GetValue`. -/
theorem entryVals_copied {V : Type} {tgt e : HashEntry V}
    (h : copiedFrom tgt e) : entryVals tgt = entryVals e := by
  obtain ⟨hs, _, _, hv⟩ := h
  unfold entryVals
  rw [hs]
  cases he : e.status with
  | INLINE_VALUE =>
    rw [hv]
    unfold HashEntry.HasKeyValueList
    rw [he]
  | _ => rfl

/-- Copies of valid entries are valid. -/
theorem valid_copied {V : Type} {tgt e : HashEntry V}
    (h : copiedFrom tgt e) (hv : e.IsValidEntry = true) :
    tgt.IsValidEntry = true := by
  unfold HashEntry.IsValidEntry at hv ⊢
  rw [h.1]
  exact hv

/-! ### Counting valid slots -/

/-- How a point update moves a `countP`. -/
theorem countP_set {α : Type} (p : α → Bool) :
    ∀ (l : List α) (j : Nat) (e : α), j < l.length →
      (l.set j e).countP p + (if p (l.getD j e) then 1 else 0)
        = l.countP p + (if p e then 1 else 0) := by
  intro l
  induction l with
  | nil => intro j e h; simp at h
  | cons a rest ih =>
    intro j e h
    cases j with
    | zero =>
      rw [List.set_cons_zero, List.countP_cons, List.countP_cons]
      have hgd : (a :: rest).getD 0 e = a := rfl
      rw [hgd]
      omega
    | succ j =>
      rw [List.set_cons_succ, List.countP_cons, List.countP_cons]
      have := ih j e (by simpa using h)
      have hgd : (a :: rest).getD (j + 1) e = rest.getD j e := rfl
      rw [hgd]
      omega

/-- Setting a slot past the kept prefix, after `take`. -/
theorem take_set_comm {α : Type} (l : List α) (j m : Nat) (e : α) :
    (l.set j e).take m = (l.take m).set j e := List.set_take

/-- Taking one slot beyond a point update snocs the update. -/
theorem take_set_snoc {α : Type} :
    ∀ (l : List α) (s : Nat) (v : α), s < l.length →
      (l.set s v).take (s + 1) = l.take s ++ [v] := by
  intro l
  induction l with
  | nil => intro s v h; simp at h
  | cons a rest ih =>
    intro s v h
    cases s with
    | zero => rfl
    | succ s =>
      rw [List.set_cons_succ]
      show a :: (rest.set s v).take (s + 1) = a :: rest.take s ++ [v]
      rw [ih s v (by simpa using h), List.cons_append]

/-- Reading inside the kept prefix. -/
theorem getD_take {α : Type} (l : List α) {i m : Nat} (d : α) (h : i < m) :
    (l.take m).getD i d = l.getD i d := by
  rw [List.getD_eq_getElem?_getD, List.getD_eq_getElem?_getD,
    List.getElem?_take_of_lt h]

/-- A in-range `getD` ignores its default. -/
theorem getD_irrel {α : Type} {l : List α} {i : Nat} (h : i < l.length)
    (d1 d2 : α) : l.getD i d1 = l.getD i d2 := by
  rw [List.getD_eq_getElem?_getD, List.getD_eq_getElem?_getD,
    List.getElem?_eq_getElem h]
  rfl

/-- An in-range entry read through the kept prefix of the array. -/
theorem entryAt_take {V : Type} (t : OAKVL V) {i : Nat} (h : i < t.entry_count)
    (hlen : t.entry_list_p.length = t.entry_count + 1)
    (d : HashEntry V) :
    (t.entry_list_p.take t.entry_count).getD i d = t.entryAt i := by
  rw [getD_take _ _ h]
  unfold OAKVL.entryAt
  exact getD_irrel (by omega) _ _

/-- Overwriting a non-valid slot with a valid entry adds one valid
slot. -/
theorem validCount_setEntry_new {V : Type} (t : OAKVL V) {j : Nat}
    (hj : j < t.entry_count) (hlen : t.entry_list_p.length = t.entry_count + 1)
    (e : HashEntry V)
    (hold : (t.entryAt j).IsValidEntry = false) (hnew : e.IsValidEntry = true) :
    validCount (t.setEntry j e) = validCount t + 1 := by
  unfold validCount
  have hstep := countP_set (fun e => e.IsValidEntry)
    (t.entry_list_p.take t.entry_count) j e
    (by rw [List.length_take]; omega)
  rw [setEntry_listp, setEntry_count, take_set_comm]
  rw [entryAt_take t hj hlen e] at hstep
  simp [hold, hnew] at hstep
  omega

/-- Overwriting a slot without changing its validity keeps the valid
count. -/
theorem validCount_setEntry_same {V : Type} (t : OAKVL V) {j : Nat}
    (hj : j < t.entry_count) (hlen : t.entry_list_p.length = t.entry_count + 1)
    (e : HashEntry V)
    (hsame : e.IsValidEntry = (t.entryAt j).IsValidEntry) :
    validCount (t.setEntry j e) = validCount t := by
  unfold validCount
  have hstep := countP_set (fun e => e.IsValidEntry)
    (t.entry_list_p.take t.entry_count) j e
    (by rw [List.length_take]; omega)
  rw [setEntry_listp, setEntry_count, take_set_comm]
  rw [entryAt_take t hj hlen e] at hstep
  simp only [← hsame] at hstep
  omega

/-- A table with spare room has a non-valid slot. -/
theorem exists_not_valid {V : Type} (t : OAKVL V)
    (hlen : t.entry_list_p.length = t.entry_count + 1)
    (h : validCount t < t.entry_count) :
    ∃ i, i < t.entry_count ∧ (t.entryAt i).IsValidEntry = false := by
  by_contra hc
  push_neg at hc
  have hall : ∀ e ∈ t.entry_list_p.take t.entry_count, e.IsValidEntry = true := by
    intro e he
    obtain ⟨m, hm, rfl⟩ := List.mem_iff_getElem.mp he
    have hmec : m < t.entry_count := by
      have := List.length_take_le t.entry_count t.entry_list_p
      omega
    have hml : m < t.entry_list_p.length := by omega
    have h1 : (t.entry_list_p.take t.entry_count)[m] = t.entry_list_p[m] :=
      List.getElem_take t.entry_list_p
    have h2 : t.entryAt m = t.entry_list_p[m] := by
      unfold OAKVL.entryAt
      rw [List.getD_eq_getElem?_getD, List.getElem?_eq_getElem hml]
      rfl
    rw [h1, ← h2]
    have hb := hc m hmec
    cases hv : (t.entryAt m).IsValidEntry
    · exact absurd hv hb
    · rfl
  have : (t.entry_list_p.take t.entry_count).countP
      (fun e => e.IsValidEntry) = (t.entry_list_p.take t.entry_count).length := by
    rw [List.countP_eq_length]
    exact hall
  unfold validCount at h
  rw [this, List.length_take] at h
  omega

/-- A freshly allocated entry array has no valid real slot. -/
theorem validCount_fresh {V : Type} (t : OAKVL V)
    (h1 : t.entry_list_p = GetHashEntryListStatic V t.entry_count) :
    validCount t = 0 := by
  unfold validCount
  rw [h1]
  unfold GetHashEntryListStatic
  rw [List.take_left' (List.length_replicate _ _)]
  rw [List.countP_eq_zero]
  intro e he
  rw [List.eq_of_mem_replicate he]
  intro hv
  cases hv

/-- Under the array invariant, a key occupies at most one slot. -/
theorem key_unique {V : Type} {hashf : Nat → Nat} {t : OAKVL V}
    (hP : PINV hashf t) {i j : Nat} (hi : i < t.entry_count)
    (hj : j < t.entry_count)
    (hvi : (t.entryAt i).IsValidEntry = true)
    (hvj : (t.entryAt j).IsValidEntry = true)
    (hk : (t.entryAt i).key = (t.entryAt j).key) : i = j := by
  obtain ⟨k, hki, hhi, _⟩ := hP.hwf i hi hvi
  obtain ⟨k2, hkj, hhj, _⟩ := hP.hwf j hj hvj
  have hkk : k2 = k := by
    rw [hki, hkj] at hk
    exact (Option.some_inj.mp hk).symm
  rw [hkk] at hkj hhj
  obtain ⟨b, hec, hm⟩ := hP.hpow
  have hec0 : 0 < t.entry_count := by rw [hec]; exact Nat.two_pow_pos b
  have hhome : hashf k &&& t.index_mask < t.entry_count := by
    rw [hm, hec]
    exact land_mask_lt _ b
  have hsi := probeSlot_probeDist (i := i) hhome hi
  have hsj := probeSlot_probeDist (i := j) hhome hj
  rcases Nat.lt_trichotomy (probeDist t.entry_count (hashf k &&& t.index_mask) i)
      (probeDist t.entry_count (hashf k &&& t.index_mask) j) with hlt | heq | hgt
  · have := hP.hpath j hj hvj (probeDist t.entry_count (hashf k &&& t.index_mask) i)
      (by rw [hhj]; exact hlt)
    rw [hhj, hsi] at this
    exact absurd hk this.2
  · rw [← hsi, ← hsj, heq]
  · have := hP.hpath i hi hvi (probeDist t.entry_count (hashf k &&& t.index_mask) j)
      (by rw [hhi]; exact hgt)
    rw [hhi, hsj] at this
    exact absurd hk.symm this.2

/-- Some free slot on the probe circle yields a first free slot: free,
with every strictly earlier probe position non-free. -/
theorem exists_first_free {V : Type} (t : OAKVL V) {home : Nat}
    (hhome : home < t.entry_count)
    (hfree : ∃ s, s < t.entry_count ∧ (t.entryAt s).IsFree = true) :
    ∃ j, j < t.entry_count ∧ (t.entryAt j).IsFree = true ∧
      ∀ d, d < probeDist t.entry_count home j →
        (t.entryAt (probeSlot t.entry_count home d)).IsFree = false := by
  obtain ⟨s, hs, hsf⟩ := hfree
  have hex : ∃ d, (t.entryAt (probeSlot t.entry_count home d)).IsFree = true :=
    ⟨probeDist t.entry_count home s, by rw [probeSlot_probeDist hhome hs]; exact hsf⟩
  have hfind := Nat.find_spec hex
  have hDlt : Nat.find hex < t.entry_count := by
    have hle := Nat.find_min' hex
      (show (t.entryAt (probeSlot t.entry_count home
          (probeDist t.entry_count home s))).IsFree = true from
        by rw [probeSlot_probeDist hhome hs]; exact hsf)
    have := probeDist_lt hhome hs
    omega
  refine ⟨probeSlot t.entry_count home (Nat.find hex),
    probeSlot_lt hhome (by omega), hfind, ?_⟩
  intro d hd
  rw [probeDist_probeSlot hhome hDlt] at hd
  have h1 := Nat.find_min hex hd
  cases hb : (t.entryAt (probeSlot t.entry_count home d)).IsFree
  · rfl
  · exact absurd hb h1

/-- The resize probe lands on the first free slot of the probe circle. -/
theorem probeResizeAux_spec {V : Type} (t : OAKVL V) {j : Nat}
    (hj : j < t.entry_count) (hjf : (t.entryAt j).IsFree = true) :
    ∀ fuel p, p < t.entry_count → probeDist t.entry_count p j < fuel →
      (∀ d, d < probeDist t.entry_count p j →
        (t.entryAt (probeSlot t.entry_count p d)).IsFree = false) →
      OAKVL.probeResizeAux t p fuel = some j := by
  intro fuel
  induction fuel with
  | zero => intro p hp h _; omega
  | succ f ih =>
    intro p hp hfuel hpath
    by_cases hpj : p = j
    · subst hpj
      simp [OAKVL.probeResizeAux, hjf]
    · have hd0 : 0 < probeDist t.entry_count p j := by
        rcases Nat.eq_zero_or_pos (probeDist t.entry_count p j) with h0 | h
        · exact absurd ((probeDist_eq_zero hp hj).mp h0) hpj
        · exact h
      have hfp := hpath 0 hd0
      rw [probeSlot_zero hp] at hfp
      have hstep := probeDist_succ hp hj hpj
      have hdlt := probeDist_lt hp hj
      unfold OAKVL.probeResizeAux
      rw [hfp]
      simp only [Bool.false_eq_true, if_false]
      rw [nextIndex_eq_probeSlot t hp]
      apply ih
      · exact probeSlot_lt hp (by omega)
      · omega
      · intro d hd
        rw [probeSlot_succ hp (by omega)]
        exact hpath (d + 1) (by omega)

/-- The search probe finds a valid slot holding the key when the probe
path up to it is filled with valid entries of other keys. -/
theorem probeSearchAux_spec {V : Type} (t : OAKVL V) {k i : Nat}
    (hi : i < t.entry_count)
    (hvi : (t.entryAt i).IsValidEntry = true)
    (hki : (t.entryAt i).key = some k)
    (hnd : ∀ m, m < t.entry_count → (t.entryAt m).IsDeleted = false) :
    ∀ fuel p, p < t.entry_count → probeDist t.entry_count p i < fuel →
      (∀ d, d < probeDist t.entry_count p i →
        (t.entryAt (probeSlot t.entry_count p d)).IsValidEntry = true ∧
        (t.entryAt (probeSlot t.entry_count p d)).key ≠ some k) →
      OAKVL.probeSearchAux t k p fuel = some i := by
  intro fuel
  induction fuel with
  | zero => intro p hp h _; omega
  | succ f ih =>
    intro p hp hfuel hpath
    by_cases hpi : p = i
    · subst hpi
      have h1 : (t.entryAt p).IsProbeEndForSearch = false := valid_not_free hvi
      have h2 : (t.entryAt p).IsDeleted = false := hnd p hp
      simp only [OAKVL.probeSearchAux]
      rw [h1, h2, hki]
      simp
    · have hd0 : 0 < probeDist t.entry_count p i := by
        rcases Nat.eq_zero_or_pos (probeDist t.entry_count p i) with h0 | h
        · exact absurd ((probeDist_eq_zero hp hi).mp h0) hpi
        · exact h
      have hfp := hpath 0 hd0
      rw [probeSlot_zero hp] at hfp
      have h1 : (t.entryAt p).IsProbeEndForSearch = false := valid_not_free hfp.1
      have h2 : ((t.entryAt p).key == some k) = false :=
        beq_eq_false_iff_ne.mpr hfp.2
      have hstep := probeDist_succ hp hi hpi
      have hdlt := probeDist_lt hp hi
      simp only [OAKVL.probeSearchAux]
      rw [h1, h2]
      simp only [Bool.false_eq_true, if_false, Bool.and_false]
      rw [nextIndex_eq_probeSlot t hp]
      apply ih
      · exact probeSlot_lt hp (by omega)
      · omega
      · intro d hd
        rw [probeSlot_succ hp (by omega)]
        exact hpath (d + 1) (by omega)

/-- The insert probe walks past a valid slot of another key. -/
theorem probeInsertAux_skip {V : Type} (t : OAKVL V) (k h p fuel : Nat)
    (hv : (t.entryAt p).IsValidEntry = true)
    (hk : (t.entryAt p).key ≠ some k) :
    OAKVL.probeInsertAux t k h p (fuel + 1)
      = OAKVL.probeInsertAux t k h (t.nextIndex p) fuel := by
  have hbeq : ((t.entryAt p).key == some k) = false := beq_eq_false_iff_ne.mpr hk
  rcases status_of_valid hv with hst | ⟨kv, hst⟩
  · conv_lhs => unfold OAKVL.probeInsertAux
    simp only [hst, hbeq, Bool.false_eq_true, if_false]
  · conv_lhs => unfold OAKVL.probeInsertAux
    simp only [hst, hbeq, Bool.false_eq_true, if_false]

/-- The insert probe claims the first free slot on a path of valid
entries of other keys. -/
theorem probeInsertAux_free_path {V : Type} (t : OAKVL V) (k h : Nat) {j : Nat}
    (hj : j < t.entry_count) (hjf : (t.entryAt j).IsFree = true) :
    ∀ fuel p, p < t.entry_count → probeDist t.entry_count p j < fuel →
      (∀ d, d < probeDist t.entry_count p j →
        (t.entryAt (probeSlot t.entry_count p d)).IsValidEntry = true ∧
        (t.entryAt (probeSlot t.entry_count p d)).key ≠ some k) →
      OAKVL.probeInsertAux t k h p fuel
        = some ({ t.setEntry j
              { t.entryAt j with
                status := .INLINE_VALUE, hash_value := h, key := some k } with
            active_entry_count := t.active_entry_count + 1 },
          .inlineSlot j) := by
  intro fuel
  induction fuel with
  | zero => intro p hp hd _; omega
  | succ f ih =>
    intro p hp hfuel hpath
    by_cases hpj : p = j
    · subst hpj
      exact probeInsertAux_free t k h p f (status_of_free hjf)
    · have hd0 : 0 < probeDist t.entry_count p j := by
        rcases Nat.eq_zero_or_pos (probeDist t.entry_count p j) with h0 | hpos
        · exact absurd ((probeDist_eq_zero hp hj).mp h0) hpj
        · exact hpos
      have hfp := hpath 0 hd0
      rw [probeSlot_zero hp] at hfp
      have hstep := probeDist_succ hp hj hpj
      have hdlt := probeDist_lt hp hj
      rw [probeInsertAux_skip t k h p f hfp.1 hfp.2]
      rw [nextIndex_eq_probeSlot t hp]
      apply ih
      · exact probeSlot_lt hp (by omega)
      · omega
      · intro d hd
        rw [probeSlot_succ hp (by omega)]
        exact hpath (d + 1) (by omega)

/-- The insert probe stops at the key's valid slot at the end of a
path of valid entries of other keys. -/
theorem probeInsertAux_hit_path {V : Type} (t : OAKVL V) (k h : Nat) {i : Nat}
    (hi : i < t.entry_count)
    (hvi : (t.entryAt i).IsValidEntry = true)
    (hki : (t.entryAt i).key = some k) :
    ∀ fuel p, p < t.entry_count → probeDist t.entry_count p i < fuel →
      (∀ d, d < probeDist t.entry_count p i →
        (t.entryAt (probeSlot t.entry_count p d)).IsValidEntry = true ∧
        (t.entryAt (probeSlot t.entry_count p d)).key ≠ some k) →
      OAKVL.probeInsertAux t k h p fuel = some (insertHit t i) := by
  intro fuel
  induction fuel with
  | zero => intro p hp hd _; omega
  | succ f ih =>
    intro p hp hfuel hpath
    by_cases hpi : p = i
    · subst hpi
      rcases status_of_valid hvi with hst | ⟨kv, hst⟩
      · rw [probeInsertAux_inline_hit t k h p f hst hki]
        unfold insertHit
        simp only [hst]
      · cases hfull : kv.IsFull
        · rw [probeInsertAux_multi_hit t k h p f hst hki hfull]
          unfold insertHit
          simp only [hst, hfull, Bool.false_eq_true, if_false]
        · rw [probeInsertAux_multi_full t k h p f hst hki hfull]
          unfold insertHit
          simp only [hst, hfull, if_true]
    · have hd0 : 0 < probeDist t.entry_count p i := by
        rcases Nat.eq_zero_or_pos (probeDist t.entry_count p i) with h0 | hpos
        · exact absurd ((probeDist_eq_zero hp hi).mp h0) hpi
        · exact hpos
      have hfp := hpath 0 hd0
      rw [probeSlot_zero hp] at hfp
      have hstep := probeDist_succ hp hi hpi
      have hdlt := probeDist_lt hp hi
      rw [probeInsertAux_skip t k h p f hfp.1 hfp.2]
      rw [nextIndex_eq_probeSlot t hp]
      apply ih
      · exact probeSlot_lt hp (by omega)
      · omega
      · intro d hd
        rw [probeSlot_succ hp (by omega)]
        exact hpath (d + 1) (by omega)

/-- Home slots are in range under the power-of-two geometry. -/
theorem home_lt {V : Type} {t : OAKVL V} {b : Nat}
    (hec : t.entry_count = 2 ^ b) (hm : t.index_mask = 2 ^ b - 1) (x : Nat) :
    x &&& t.index_mask < t.entry_count := by
  rw [hm, hec]
  exact land_mask_lt _ b

/-- The probe path of a valid slot, renormalized to start at the
slot's key's home. -/
theorem path_of_slot {V : Type} {hashf : Nat → Nat} {t : OAKVL V}
    (hP : PINV hashf t) {i k : Nat} (hi : i < t.entry_count)
    (hvi : (t.entryAt i).IsValidEntry = true)
    (hki : (t.entryAt i).key = some k) :
    (t.entryAt i).hash_value = hashf k ∧
    ∀ d, d < probeDist t.entry_count (hashf k &&& t.index_mask) i →
      (t.entryAt (probeSlot t.entry_count (hashf k &&& t.index_mask) d)).IsValidEntry
        = true ∧
      (t.entryAt (probeSlot t.entry_count (hashf k &&& t.index_mask) d)).key
        ≠ some k := by
  obtain ⟨k0, hk0, hh0, _⟩ := hP.hwf i hi hvi
  have hk0k : k0 = k := by
    rw [hki] at hk0
    exact Option.some_inj.mp hk0.symm
  have hhash : (t.entryAt i).hash_value = hashf k := by rw [hh0, hk0k]
  refine ⟨hhash, ?_⟩
  intro d hd
  have h2 := hP.hpath i hi hvi d (by rw [hhash]; exact hd)
  rw [hhash, hki] at h2
  exact h2

/-- `Insert` of a key that occupies no slot, without a resize: the
probe claims the first free slot of the key's probe sequence and the
value lands inline there. -/
theorem Insert_new_key {V : Type} {hashf : Nat → Nat} (t : OAKVL V) (k : Nat)
    (v : V) (hP : PINV hashf t)
    (hkh : t.key_hash_obj = hashf)
    (hne : t.active_entry_count ≠ t.resize_threshold)
    (hfree : ∃ s, s < t.entry_count ∧ (t.entryAt s).IsFree = true)
    (habs : ∀ i, i < t.entry_count → (t.entryAt i).IsValidEntry = true →
      (t.entryAt i).key ≠ some k) :
    ∃ j, j < t.entry_count ∧ (t.entryAt j).IsFree = true ∧
      (∀ d, d < probeDist t.entry_count (hashf k &&& t.index_mask) j →
        (t.entryAt (probeSlot t.entry_count
          (hashf k &&& t.index_mask) d)).IsValidEntry = true) ∧
      t.Insert k v = some
        { t.setEntry j
            { t.entryAt j with
              status := .INLINE_VALUE, hash_value := hashf k,
              key := some k, value := some v } with
          active_entry_count := t.active_entry_count + 1 } := by
  obtain ⟨b, hec, hm⟩ := hP.hpow
  have hhome : hashf k &&& t.index_mask < t.entry_count := home_lt hec hm _
  obtain ⟨j, hj, hjf, hjpath⟩ := exists_first_free t hhome hfree
  have hdlt := probeDist_lt hhome hj
  have hpath : ∀ d, d < probeDist t.entry_count (hashf k &&& t.index_mask) j →
      (t.entryAt (probeSlot t.entry_count
        (hashf k &&& t.index_mask) d)).IsValidEntry = true ∧
      (t.entryAt (probeSlot t.entry_count
        (hashf k &&& t.index_mask) d)).key ≠ some k := by
    intro d hd
    have hnf := hjpath d hd
    have hslot : probeSlot t.entry_count (hashf k &&& t.index_mask) d
        < t.entry_count := probeSlot_lt hhome (by omega)
    have hv := valid_of_not_free_not_deleted hnf (hP.hnodel _ hslot)
    exact ⟨hv, habs _ hslot hv⟩
  refine ⟨j, hj, hjf, fun d hd => (hpath d hd).1, ?_⟩
  unfold OAKVL.Insert
  rw [if_neg hne]
  show (match t.ProbeForInsert k with
        | none => none
        | some (t2, loc) => some (t2.writeValue loc v)) = _
  unfold OAKVL.ProbeForInsert
  rw [hkh]
  rw [probeInsertAux_free_path t k (hashf k) hj hjf t.entry_count
    (hashf k &&& t.index_mask) hhome hdlt hpath]
  have hlt : j < t.entry_list_p.length := by
    have := hP.hlen
    omega
  simp only [OAKVL.writeValue, entryAt_active_mod, setEntry_active_mod,
    entryAt_setEntry_self t _ _ hlt, setEntry_setEntry]

/-- `Insert` of a key already inline at slot `i`, without a resize:
the entry grows its initial key-value list. -/
theorem Insert_hit_inline {V : Type} {hashf : Nat → Nat} (t : OAKVL V) (k : Nat)
    (v : V) (hP : PINV hashf t)
    (hkh : t.key_hash_obj = hashf)
    (hne : t.active_entry_count ≠ t.resize_threshold)
    {i : Nat} (hi : i < t.entry_count)
    (hvi : (t.entryAt i).IsValidEntry = true)
    (hki : (t.entryAt i).key = some k)
    (hst : (t.entryAt i).status = .INLINE_VALUE) :
    t.Insert k v = some
      (t.setEntry i
        { t.entryAt i with
          status := .MULTIPLE_VALUES
            { size := 2, capacity := 4,
              data := ((List.replicate 4 (none : Option V)).set 0
                (t.entryAt i).value).set 1 (some v) }
          value := none }) := by
  obtain ⟨b, hec, hm⟩ := hP.hpow
  have hhome : hashf k &&& t.index_mask < t.entry_count := home_lt hec hm _
  obtain ⟨hhash, hpath⟩ := path_of_slot hP hi hvi hki
  have hdlt := probeDist_lt hhome hi
  have hlt : i < t.entry_list_p.length := by
    have := hP.hlen
    omega
  unfold OAKVL.Insert
  rw [if_neg hne]
  show (match t.ProbeForInsert k with
        | none => none
        | some (t2, loc) => some (t2.writeValue loc v)) = _
  unfold OAKVL.ProbeForInsert
  rw [hkh]
  rw [probeInsertAux_hit_path t k (hashf k) hi hvi hki t.entry_count
    (hashf k &&& t.index_mask) hhome hdlt hpath]
  unfold insertHit
  simp only [hst]
  simp only [OAKVL.writeValue, entryAt_setEntry_self t _ _ hlt, setEntry_setEntry,
    KeyValueList.FillValue]

/-- `Insert` of a key with a non-full key-value list at slot `i`,
without a resize: the value is appended in place. -/
theorem Insert_hit_multi {V : Type} {hashf : Nat → Nat} (t : OAKVL V) (k : Nat)
    (v : V) (hP : PINV hashf t)
    (hkh : t.key_hash_obj = hashf)
    (hne : t.active_entry_count ≠ t.resize_threshold)
    {i : Nat} (hi : i < t.entry_count)
    (hvi : (t.entryAt i).IsValidEntry = true)
    (hki : (t.entryAt i).key = some k)
    {kv : KeyValueList V}
    (hst : (t.entryAt i).status = .MULTIPLE_VALUES kv)
    (hfull : kv.IsFull = false) :
    t.Insert k v = some
      (t.setEntry i
        { t.entryAt i with
          status := .MULTIPLE_VALUES
            { size := kv.size + 1, capacity := kv.capacity,
              data := kv.data.set kv.size (some v) } }) := by
  obtain ⟨b, hec, hm⟩ := hP.hpow
  have hhome : hashf k &&& t.index_mask < t.entry_count := home_lt hec hm _
  obtain ⟨hhash, hpath⟩ := path_of_slot hP hi hvi hki
  have hdlt := probeDist_lt hhome hi
  have hlt : i < t.entry_list_p.length := by
    have := hP.hlen
    omega
  unfold OAKVL.Insert
  rw [if_neg hne]
  show (match t.ProbeForInsert k with
        | none => none
        | some (t2, loc) => some (t2.writeValue loc v)) = _
  unfold OAKVL.ProbeForInsert
  rw [hkh]
  rw [probeInsertAux_hit_path t k (hashf k) hi hvi hki t.entry_count
    (hashf k &&& t.index_mask) hhome hdlt hpath]
  unfold insertHit
  simp only [hst, hfull, Bool.false_eq_true, if_false]
  simp only [OAKVL.writeValue, entryAt_setEntry_self t _ _ hlt, setEntry_setEntry,
    KeyValueList.FillValue]

/-- `Insert` of a key with a full key-value list at slot `i`, without
a resize: the list doubles and the value is appended after the copied
ones. -/
theorem Insert_hit_full {V : Type} {hashf : Nat → Nat} (t : OAKVL V) (k : Nat)
    (v : V) (hP : PINV hashf t)
    (hkh : t.key_hash_obj = hashf)
    (hne : t.active_entry_count ≠ t.resize_threshold)
    {i : Nat} (hi : i < t.entry_count)
    (hvi : (t.entryAt i).IsValidEntry = true)
    (hki : (t.entryAt i).key = some k)
    {kv : KeyValueList V}
    (hst : (t.entryAt i).status = .MULTIPLE_VALUES kv)
    (hfull : kv.IsFull = true) :
    t.Insert k v = some
      (t.setEntry i
        { t.entryAt i with
          status := .MULTIPLE_VALUES
            { size := kv.size + 1, capacity := kv.capacity <<< 1,
              data := (kv.data.take kv.size ++
                List.replicate ((kv.capacity <<< 1) - kv.size) none).set kv.size
                  (some v) } }) := by
  obtain ⟨b, hec, hm⟩ := hP.hpow
  have hhome : hashf k &&& t.index_mask < t.entry_count := home_lt hec hm _
  obtain ⟨hhash, hpath⟩ := path_of_slot hP hi hvi hki
  have hdlt := probeDist_lt hhome hi
  have hlt : i < t.entry_list_p.length := by
    have := hP.hlen
    omega
  unfold OAKVL.Insert
  rw [if_neg hne]
  show (match t.ProbeForInsert k with
        | none => none
        | some (t2, loc) => some (t2.writeValue loc v)) = _
  unfold OAKVL.ProbeForInsert
  rw [hkh]
  rw [probeInsertAux_hit_path t k (hashf k) hi hvi hki t.entry_count
    (hashf k &&& t.index_mask) hhome hdlt hpath]
  unfold insertHit
  simp only [hst, hfull, if_true]
  simp only [OAKVL.writeValue, entryAt_setEntry_self t _ _ hlt, setEntry_setEntry,
    KeyValueList.GetResized, KeyValueList.FillValue]

/-- Under the array invariant, `GetValue` of a key occupying slot `i`
reads exactly that entry. -/
theorem GetValue_at_slot {V : Type} {hashf : Nat → Nat} (t : OAKVL V) (k : Nat)
    (hP : PINV hashf t) (hkh : t.key_hash_obj = hashf)
    {i : Nat} (hi : i < t.entry_count)
    (hvi : (t.entryAt i).IsValidEntry = true)
    (hki : (t.entryAt i).key = some k) :
    t.GetValue k = entryVals (t.entryAt i) := by
  obtain ⟨b, hec, hm⟩ := hP.hpow
  have hhome : hashf k &&& t.index_mask < t.entry_count := home_lt hec hm _
  obtain ⟨hhash, hpath⟩ := path_of_slot hP hi hvi hki
  have hdlt := probeDist_lt hhome hi
  unfold OAKVL.GetValue OAKVL.ProbeForSearch
  rw [hkh]
  rw [probeSearchAux_spec t hi hvi hki hP.hnodel t.entry_count
    (hashf k &&& t.index_mask) hhome hdlt hpath]
  rcases status_of_valid hvi with hst | ⟨kv, hst⟩
  · unfold entryVals
    simp only [hst]
  · unfold entryVals
    simp only [hst]

/-- `Resize` as a rehash of the old array into the doubled fresh
table. -/
theorem Resize_eq {V : Type} (t : OAKVL V) :
    t.Resize = OAKVL.resizeWalk
      { t with
        entry_count := t.entry_count <<< 1
        index_mask := t.entry_count <<< 1 - 1
        resize_threshold := t.lfc (t.entry_count <<< 1)
        entry_list_p := GetHashEntryListStatic V (t.entry_count <<< 1) }
      t.entry_list_p t.active_entry_count := rfl

/-- The rehash loop processes exactly the first `remaining` valid old
entries, in order. -/
theorem resizeWalk_eq {V : Type} :
    ∀ (olds : List (HashEntry V)) (t_new : OAKVL V) (remaining : Nat),
      remaining ≤ (olds.filter (fun e => e.IsValidEntry)).length →
      OAKVL.resizeWalk t_new olds remaining
        = placeAll t_new ((olds.filter (fun e => e.IsValidEntry)).take remaining) := by
  intro olds
  induction olds with
  | nil =>
    intro t_new remaining h
    simp only [List.filter_nil, List.length_nil, Nat.le_zero] at h
    subst h
    rfl
  | cons e rest ih =>
    intro t_new remaining h
    cases remaining with
    | zero => rfl
    | succ r =>
      cases hv : e.IsValidEntry with
      | false =>
        have hwalk : OAKVL.resizeWalk t_new (e :: rest) (r + 1)
            = OAKVL.resizeWalk t_new rest (r + 1) := by
          conv_lhs => unfold OAKVL.resizeWalk
          simp only [hv, Bool.false_eq_true, if_false]
        rw [hwalk]
        rw [List.filter_cons_of_neg (by simp [hv])] at h ⊢
        exact ih t_new (r + 1) h
      | true =>
        rw [List.filter_cons_of_pos (by simp [hv])] at h ⊢
        rw [List.take_succ_cons]
        conv_lhs => unfold OAKVL.resizeWalk
        simp only [hv, if_true]
        show (match t_new.ProbeForResize e.hash_value with
          | none => none
          | some idx =>
            OAKVL.resizeWalk (t_new.setEntry idx
              { t_new.entryAt idx with
                status := e.status
                hash_value := e.hash_value
                key := e.key
                value := if e.HasKeyValueList then (t_new.entryAt idx).value
                  else e.value }) rest r) = _
        conv_rhs => unfold placeAll
        unfold placeEntry
        cases hpr : t_new.ProbeForResize e.hash_value with
        | none => simp only [hpr]
        | some idx =>
          simp only [hpr]
          rw [List.length_cons] at h
          exact ih _ r (by omega)

/-- A table with spare room has a FREE slot. -/
theorem exists_free_slot {V : Type} {hashf : Nat → Nat} (t : OAKVL V)
    (hP : PINV hashf t) (hcnt : validCount t < t.entry_count) :
    ∃ s, s < t.entry_count ∧ (t.entryAt s).IsFree = true := by
  obtain ⟨i, hi, hnv⟩ := exists_not_valid t hP.hlen hcnt
  refine ⟨i, hi, ?_⟩
  cases hb : (t.entryAt i).IsFree
  · exact absurd (valid_of_not_free_not_deleted hb (hP.hnodel i hi)) (by rw [hnv]; intro hx; cases hx)
  · rfl

/-- A FREE entry is not valid. -/
theorem free_not_valid {V : Type} {e : HashEntry V}
    (h : e.IsFree = true) : e.IsValidEntry = false := by
  cases hb : e.IsValidEntry
  · rfl
  · rw [valid_not_free hb] at h
    cases h

/-- Copies keep payload well-formedness. -/
theorem entryWF_copied {V : Type} {tgt e : HashEntry V}
    (h : copiedFrom tgt e) (hw : entryWF e) : entryWF tgt := by
  unfold entryWF at hw ⊢
  rw [h.1]
  exact hw

/-- `ProbeForResize` succeeds and lands on the first free slot of the
hash's probe sequence whenever a free slot exists. -/
theorem ProbeForResize_spec {V : Type} (t : OAKVL V) {b : Nat}
    (hec : t.entry_count = 2 ^ b) (hm : t.index_mask = 2 ^ b - 1)
    (hash : Nat)
    (hfree : ∃ s, s < t.entry_count ∧ (t.entryAt s).IsFree = true) :
    ∃ j, j < t.entry_count ∧ (t.entryAt j).IsFree = true ∧
      (∀ d, d < probeDist t.entry_count (hash &&& t.index_mask) j →
        (t.entryAt (probeSlot t.entry_count
          (hash &&& t.index_mask) d)).IsFree = false) ∧
      t.ProbeForResize hash = some j := by
  have hhome : hash &&& t.index_mask < t.entry_count := home_lt hec hm _
  obtain ⟨j, hj, hjf, hjpath⟩ := exists_first_free t hhome hfree
  refine ⟨j, hj, hjf, hjpath, ?_⟩
  unfold OAKVL.ProbeForResize
  exact probeResizeAux_spec t hj hjf t.entry_count _ hhome
    (probeDist_lt hhome hj) hjpath

/-- Filling one free slot `j` with a copy of a fresh-keyed valid entry
preserves the array invariant, stated abstractly for the pre- and
post-tables. -/
theorem PINV_after_fill {V : Type} {hashf : Nat → Nat} (t t2 : OAKVL V)
    (j : Nat) (e : HashEntry V) (hP : PINV hashf t)
    (hj : j < t.entry_count)
    (hjf : (t.entryAt j).IsFree = true)
    (hjpath : ∀ d, d < probeDist t.entry_count (e.hash_value &&& t.index_mask) j →
      (t.entryAt (probeSlot t.entry_count
        (e.hash_value &&& t.index_mask) d)).IsFree = false)
    (hlen2 : t2.entry_list_p.length = t2.entry_count + 1)
    (hec2 : t2.entry_count = t.entry_count)
    (hm2 : t2.index_mask = t.index_mask)
    (hatj : copiedFrom (t2.entryAt j) e)
    (hunch : ∀ i, i < t.entry_count → i ≠ j → t2.entryAt i = t.entryAt i)
    (hev : e.IsValidEntry = true)
    (hewf : ∃ k, e.key = some k ∧ e.hash_value = hashf k ∧ entryWF e)
    (hfresh : ∀ i, i < t.entry_count → (t.entryAt i).IsValidEntry = true →
      (t.entryAt i).key ≠ e.key) :
    PINV hashf t2 := by
  obtain ⟨b, hec, hm⟩ := hP.hpow
  obtain ⟨k, hek, heh, hew⟩ := hewf
  have hvj := valid_copied hatj hev
  refine ⟨hlen2, ⟨b, by rw [hec2]; exact hec, by rw [hm2]; exact hm⟩, ?_, ?_, ?_⟩
  · intro i hi
    rw [hec2] at hi
    by_cases hij : i = j
    · subst hij
      exact valid_not_deleted hvj
    · rw [hunch i hi hij]
      exact hP.hnodel i hi
  · intro i hi hvi
    rw [hec2] at hi
    by_cases hij : i = j
    · subst hij
      refine ⟨k, ?_, ?_, entryWF_copied hatj hew⟩
      · rw [hatj.2.2.1, hek]
      · rw [hatj.2.1, heh]
    · rw [hunch i hi hij] at hvi ⊢
      exact hP.hwf i hi hvi
  · intro i hi hvi d hd
    rw [hec2] at hi
    by_cases hij : i = j
    · have hkey2 : (t2.entryAt i).key = e.key := by
        rw [hij]
        exact hatj.2.2.1
      have hhash2 : (t2.entryAt i).hash_value = e.hash_value := by
        rw [hij]
        exact hatj.2.1
      rw [hhash2, hm2, hec2] at hd ⊢
      have hhome : e.hash_value &&& t.index_mask < t.entry_count :=
        home_lt hec hm _
      have hdj : d < probeDist t.entry_count (e.hash_value &&& t.index_mask) j := by
        rw [← hij]
        exact hd
      have hdlt := probeDist_lt hhome hj
      have hslot : probeSlot t.entry_count (e.hash_value &&& t.index_mask) d
          < t.entry_count := probeSlot_lt hhome (by omega)
      have hsne : probeSlot t.entry_count (e.hash_value &&& t.index_mask) d ≠ j := by
        intro hx
        have h5 := probeDist_probeSlot hhome (show d < t.entry_count by omega)
        rw [hx] at h5
        omega
      rw [hij, hunch _ hslot hsne]
      have hnf := hjpath d hdj
      have hv2 := valid_of_not_free_not_deleted hnf (hP.hnodel _ hslot)
      refine ⟨hv2, ?_⟩
      rw [hatj.2.2.1]
      exact hfresh _ hslot hv2
    · rw [hunch i hi hij] at hvi hd ⊢
      rw [hm2, hec2] at hd ⊢
      have hold := hP.hpath i hi hvi d hd
      have hhome : (t.entryAt i).hash_value &&& t.index_mask < t.entry_count :=
        home_lt hec hm _
      have hdlt := probeDist_lt hhome hi
      have hslot : probeSlot t.entry_count
          ((t.entryAt i).hash_value &&& t.index_mask) d
          < t.entry_count := probeSlot_lt hhome (by omega)
      have hsne : probeSlot t.entry_count
          ((t.entryAt i).hash_value &&& t.index_mask) d ≠ j := by
        intro hx
        have := hold.1
        rw [hx] at this
        rw [valid_not_free this] at hjf
        cases hjf
      rw [hunch _ hslot hsne]
      exact hold

/-- One `Resize` re-insertion: it succeeds, fills a previously free
slot with a copy of the entry, preserves everything else, and keeps
the array invariant. -/
theorem placeEntry_spec {V : Type} {hashf : Nat → Nat} (t : OAKVL V)
    (e : HashEntry V) (hP : PINV hashf t)
    (hcnt : validCount t < t.entry_count)
    (hev : e.IsValidEntry = true)
    (hewf : ∃ k, e.key = some k ∧ e.hash_value = hashf k ∧ entryWF e)
    (hfresh : ∀ i, i < t.entry_count → (t.entryAt i).IsValidEntry = true →
      (t.entryAt i).key ≠ e.key) :
    ∃ t2 j, placeEntry t e = some t2 ∧
      j < t.entry_count ∧ (t.entryAt j).IsFree = true ∧
      t2.entry_count = t.entry_count ∧
      t2.index_mask = t.index_mask ∧
      t2.active_entry_count = t.active_entry_count ∧
      t2.resize_threshold = t.resize_threshold ∧
      t2.key_hash_obj = t.key_hash_obj ∧
      t2.lfc = t.lfc ∧
      PINV hashf t2 ∧
      validCount t2 = validCount t + 1 ∧
      (t2.entryAt j).IsValidEntry = true ∧
      copiedFrom (t2.entryAt j) e ∧
      (∀ i, i < t.entry_count → i ≠ j → t2.entryAt i = t.entryAt i) := by
  obtain ⟨b, hec, hm⟩ := hP.hpow
  obtain ⟨k, hek, heh, hew⟩ := hewf
  obtain ⟨j, hj, hjf, hjpath, hprobe⟩ := ProbeForResize_spec t hec hm e.hash_value
    (exists_free_slot t hP hcnt)
  have hjlen : j < t.entry_list_p.length := by
    have := hP.hlen
    omega
  have hpe : placeEntry t e = some (t.setEntry j
      { t.entryAt j with
        status := e.status
        hash_value := e.hash_value
        key := e.key
        value := if e.HasKeyValueList then (t.entryAt j).value else e.value }) := by
    unfold placeEntry
    rw [hprobe]
  have hatj : (t.setEntry j
      { t.entryAt j with
        status := e.status
        hash_value := e.hash_value
        key := e.key
        value := if e.HasKeyValueList then (t.entryAt j).value
          else e.value }).entryAt j
      = { t.entryAt j with
          status := e.status
          hash_value := e.hash_value
          key := e.key
          value := if e.HasKeyValueList then (t.entryAt j).value
            else e.value } := entryAt_setEntry_self t j _ hjlen
  have hcop : copiedFrom ((t.setEntry j
      { t.entryAt j with
        status := e.status
        hash_value := e.hash_value
        key := e.key
        value := if e.HasKeyValueList then (t.entryAt j).value
          else e.value }).entryAt j) e := by
    rw [hatj]
    refine ⟨rfl, rfl, rfl, ?_⟩
    intro hh
    show (if e.HasKeyValueList then (t.entryAt j).value else e.value) = e.value
    rw [hh]
    rfl
  have hvj := valid_copied hcop hev
  have hunch : ∀ i, i < t.entry_count → i ≠ j →
      (t.setEntry j
        { t.entryAt j with
          status := e.status
          hash_value := e.hash_value
          key := e.key
          value := if e.HasKeyValueList then (t.entryAt j).value
            else e.value }).entryAt i = t.entryAt i := by
    intro i hi hne
    exact entryAt_setEntry_ne t _ (fun hx => hne hx.symm)
  refine ⟨_, j, hpe, hj, hjf, rfl, rfl, rfl, rfl, rfl, rfl, ?_, ?_, hvj, hcop,
    hunch⟩
  · exact PINV_after_fill t _ j e hP hj hjf hjpath
      (by rw [setEntry_length]; exact hP.hlen) rfl rfl hcop hunch hev
      ⟨k, hek, heh, hew⟩ hfresh
  · exact validCount_setEntry_new t hj hP.hlen _ (free_not_valid hjf)
      (by rw [hatj] at hvj; exact hvj)

/-- Re-inserting a list of valid, well-formed, pairwise-fresh entries
into a table with enough room: every step succeeds, the array
invariant is preserved, previously valid slots are untouched, every
entry lands on some valid slot as a copy, and every valid slot of the
result is an untouched old slot or such a copy. -/
theorem placeAll_spec {V : Type} {hashf : Nat → Nat} :
    ∀ (es : List (HashEntry V)) (t0 : OAKVL V),
      PINV hashf t0 →
      validCount t0 + es.length < t0.entry_count →
      (∀ e ∈ es, e.IsValidEntry = true ∧
        ∃ k, e.key = some k ∧ e.hash_value = hashf k ∧ entryWF e) →
      es.Pairwise (fun a b => a.key ≠ b.key) →
      (∀ e ∈ es, ∀ i, i < t0.entry_count →
        (t0.entryAt i).IsValidEntry = true → (t0.entryAt i).key ≠ e.key) →
      ∃ t2, placeAll t0 es = some t2 ∧
        PINV hashf t2 ∧
        t2.entry_count = t0.entry_count ∧
        t2.index_mask = t0.index_mask ∧
        t2.active_entry_count = t0.active_entry_count ∧
        t2.resize_threshold = t0.resize_threshold ∧
        t2.key_hash_obj = t0.key_hash_obj ∧
        t2.lfc = t0.lfc ∧
        validCount t2 = validCount t0 + es.length ∧
        (∀ i, i < t0.entry_count → (t0.entryAt i).IsValidEntry = true →
          t2.entryAt i = t0.entryAt i) ∧
        (∀ e ∈ es, ∃ i, i < t0.entry_count ∧
          (t2.entryAt i).IsValidEntry = true ∧ copiedFrom (t2.entryAt i) e) ∧
        (∀ i, i < t0.entry_count → (t2.entryAt i).IsValidEntry = true →
          ((t0.entryAt i).IsValidEntry = true ∧ t2.entryAt i = t0.entryAt i) ∨
          ∃ e ∈ es, copiedFrom (t2.entryAt i) e) := by
  intro es
  induction es with
  | nil =>
    intro t0 hP hcnt _ _ _
    exact ⟨t0, rfl, hP, rfl, rfl, rfl, rfl, rfl, rfl, by simp,
      fun i _ _ => rfl, fun e he => absurd he (List.not_mem_nil e),
      fun i hi hv => Or.inl ⟨hv, rfl⟩⟩
  | cons e es ih =>
    intro t0 hP hcnt hwf hpw hfresh
    obtain ⟨hv_e, hwf_e⟩ := hwf e (List.mem_cons_self e es)
    obtain ⟨hpw_head, hpw_tail⟩ := List.pairwise_cons.mp hpw
    rw [List.length_cons] at hcnt
    obtain ⟨t1, j, hpe, hj, hjf, hec1, hm1, hac1, hthr1, hkh1, hlf1, hP1, hvc1,
      hvj1, hcop1, hunch1⟩ :=
      placeEntry_spec t0 e hP (by omega) hv_e hwf_e
        (fun i hi hvi => hfresh e (List.mem_cons_self e es) i hi hvi)
    have hfresh1 : ∀ e2 ∈ es, ∀ i, i < t1.entry_count →
        (t1.entryAt i).IsValidEntry = true → (t1.entryAt i).key ≠ e2.key := by
      intro e2 he2 i hi hvi
      rw [hec1] at hi
      by_cases hij : i = j
      · rw [hij, hcop1.2.2.1]
        exact hpw_head e2 he2
      · rw [hunch1 i hi hij] at hvi ⊢
        exact hfresh e2 (List.mem_cons_of_mem e he2) i hi hvi
    obtain ⟨t2, hpa, hP2, hec2, hm2, hac2, hthr2, hkh2, hlf2, hvc2, hunch2,
      hplaced2, hprov2⟩ :=
      ih t1 hP1 (by rw [hvc1, hec1]; omega) (fun e2 he2 =>
        hwf e2 (List.mem_cons_of_mem e he2)) hpw_tail hfresh1
    have hvalid_j1 : (t1.entryAt j).IsValidEntry = true := hvj1
    refine ⟨t2, ?_, hP2, by rw [hec2, hec1], by rw [hm2, hm1],
      by rw [hac2, hac1], by rw [hthr2, hthr1], by rw [hkh2, hkh1],
      by rw [hlf2, hlf1], by rw [hvc2, hvc1, List.length_cons]; omega,
      ?_, ?_, ?_⟩
    · show (match placeEntry t0 e with
        | none => none
        | some t_next => placeAll t_next es) = some t2
      rw [hpe]
      exact hpa
    · -- old valid slots untouched
      intro i hi hvi
      have hij : i ≠ j := by
        intro hx
        rw [hx] at hvi
        rw [free_not_valid hjf] at hvi
        cases hvi
      have h1 : t1.entryAt i = t0.entryAt i := hunch1 i hi hij
      have h2 : t2.entryAt i = t1.entryAt i := by
        apply hunch2 i (by rw [hec1]; exact hi)
        rw [h1]
        exact hvi
      rw [h2, h1]
    · -- every entry placed
      intro e2 he2
      rcases List.mem_cons.mp he2 with rfl | he2tail
      · refine ⟨j, hj, ?_, ?_⟩
        · rw [hunch2 j (by rw [hec1]; exact hj) hvalid_j1]
          exact hvalid_j1
        · rw [hunch2 j (by rw [hec1]; exact hj) hvalid_j1]
          exact hcop1
      · obtain ⟨i, hi, hvi, hcop⟩ := hplaced2 e2 he2tail
        exact ⟨i, by rw [← hec1]; exact hi, hvi, hcop⟩
    · -- provenance
      intro i hi hvi
      rcases hprov2 i (by rw [hec1]; exact hi) hvi with ⟨hv1, heq⟩ | ⟨e2, he2, hcop⟩
      · by_cases hij : i = j
        · refine Or.inr ⟨e, List.mem_cons_self e es, ?_⟩
          rw [heq, hij]
          exact hcop1
        · have h1 : t1.entryAt i = t0.entryAt i := hunch1 i hi hij
          rw [h1] at hv1
          exact Or.inl ⟨hv1, by rw [heq, h1]⟩
      · exact Or.inr ⟨e2, List.mem_cons_of_mem e he2, hcop⟩

/-- Indexing the kept prefix is reading the table. -/
theorem take_getElem_entryAt {V : Type} (t : OAKVL V)
    (hlen : t.entry_list_p.length = t.entry_count + 1) {m : Nat}
    (hm : m < (t.entry_list_p.take t.entry_count).length) :
    (t.entry_list_p.take t.entry_count)[m] = t.entryAt m := by
  have hmec : m < t.entry_count := by
    rw [List.length_take] at hm
    omega
  have hml : m < t.entry_list_p.length := by omega
  have h1 : (t.entry_list_p.take t.entry_count)[m] = t.entry_list_p[m] :=
    List.getElem_take t.entry_list_p
  rw [h1]
  unfold OAKVL.entryAt
  rw [List.getD_eq_getElem?_getD, List.getElem?_eq_getElem hml]
  rfl

/-- A valid slot's entry is among the table's valid entries. -/
theorem mem_validEntries {V : Type} (t : OAKVL V)
    (hlen : t.entry_list_p.length = t.entry_count + 1) {i : Nat}
    (hi : i < t.entry_count) (hvi : (t.entryAt i).IsValidEntry = true) :
    t.entryAt i ∈ (t.entry_list_p.take t.entry_count).filter
      (fun e => e.IsValidEntry) := by
  rw [List.mem_filter]
  refine ⟨?_, hvi⟩
  have hm : i < (t.entry_list_p.take t.entry_count).length := by
    rw [List.length_take]
    omega
  rw [← take_getElem_entryAt t hlen hm]
  exact List.getElem_mem hm

/-- A valid entry of the table sits on some slot. -/
theorem slot_of_mem_validEntries {V : Type} (t : OAKVL V)
    (hlen : t.entry_list_p.length = t.entry_count + 1) {e : HashEntry V}
    (he : e ∈ (t.entry_list_p.take t.entry_count).filter
      (fun e => e.IsValidEntry)) :
    ∃ m, m < t.entry_count ∧ t.entryAt m = e ∧ e.IsValidEntry = true := by
  obtain ⟨hmem, hval⟩ := List.mem_filter.mp he
  obtain ⟨m, hm, rfl⟩ := List.mem_iff_getElem.mp hmem
  have hmec : m < t.entry_count := by
    rw [List.length_take] at hm
    omega
  exact ⟨m, hmec, (take_getElem_entryAt t hlen hm).symm, hval⟩

/-- Under the invariant the table's valid entries carry pairwise
distinct keys. -/
theorem validEntries_pairwise {V : Type} {hashf : Nat → Nat} (t : OAKVL V)
    (hP : PINV hashf t) :
    ((t.entry_list_p.take t.entry_count).filter
      (fun e => e.IsValidEntry)).Pairwise (fun a b => a.key ≠ b.key) := by
  have hbase : (t.entry_list_p.take t.entry_count).Pairwise
      (fun a b => a.IsValidEntry = true → b.IsValidEntry = true →
        a.key ≠ b.key) := by
    rw [List.pairwise_iff_getElem]
    intro i j hi hj hij
    rw [take_getElem_entryAt t hP.hlen hi, take_getElem_entryAt t hP.hlen hj]
    intro hvi hvj hk
    have hiec : i < t.entry_count := by
      rw [List.length_take] at hi
      have := hP.hlen
      omega
    have hjec : j < t.entry_count := by
      rw [List.length_take] at hj
      have := hP.hlen
      omega
    have := key_unique hP hiec hjec hvi hvj hk
    omega
  have hfil := List.Pairwise.filter (fun e => e.IsValidEntry) hbase
  refine List.Pairwise.imp_of_mem ?_ hfil
  intro a b ha hb hr
  exact hr (List.mem_filter.mp ha).2 (List.mem_filter.mp hb).2

/-- One shift left doubles. -/
theorem shiftLeft_one_eq (n : Nat) : n <<< 1 = 2 * n := by
  rw [Nat.shiftLeft_eq, Nat.pow_one]
  omega

/-- `Resize` on a live table: it succeeds, keeps the run facts of the
processed operations, and leaves the active count strictly under the
new threshold. -/
theorem Resize_run {V : Type} {hashf lfc : Nat → Nat} {ops : List (Nat × V)}
    (t : OAKVL V) (hR : ORun hashf lfc ops t)
    (hlfc : ∀ n, 1 ≤ n → lfc n < n ∧ lfc n < lfc (2 * n))
    (htrig : t.active_entry_count = t.resize_threshold) :
    ∃ t2, t.Resize = some t2 ∧ ORun hashf lfc ops t2 ∧
      t2.active_entry_count < t2.resize_threshold := by
  have hP := hR.inv.core
  obtain ⟨b, hec, hm⟩ := hP.hpow
  have hec1 : 1 ≤ t.entry_count := by
    rw [hec]
    exact Nat.one_le_two_pow
  have hecN : t.entry_count <<< 1 = 2 ^ (b + 1) := by
    rw [hec, Nat.shiftLeft_eq, Nat.pow_one, Nat.pow_succ]
  have hecN2 : t.entry_count <<< 1 = 2 * t.entry_count := shiftLeft_one_eq _
  have hlenN : (GetHashEntryListStatic V (t.entry_count <<< 1)).length
      = t.entry_count <<< 1 + 1 := GetHashEntryListStatic_length V _
  -- the fresh doubled table
  have hfreeN : ∀ i, i < t.entry_count <<< 1 →
      ({ t with
        entry_count := t.entry_count <<< 1
        index_mask := t.entry_count <<< 1 - 1
        resize_threshold := t.lfc (t.entry_count <<< 1)
        entry_list_p := GetHashEntryListStatic V (t.entry_count <<< 1) }
        : OAKVL V).entryAt i = freeEntry V := by
    intro i hi
    show (GetHashEntryListStatic V (t.entry_count <<< 1)).getD i (freeEntry V)
      = freeEntry V
    exact GetHashEntryListStatic_getD V hi
  have hPN : PINV hashf { t with
      entry_count := t.entry_count <<< 1
      index_mask := t.entry_count <<< 1 - 1
      resize_threshold := t.lfc (t.entry_count <<< 1)
      entry_list_p := GetHashEntryListStatic V (t.entry_count <<< 1) } := by
    refine ⟨hlenN, ⟨b + 1, hecN, by rw [hecN]⟩, ?_, ?_, ?_⟩
    · intro i hi
      rw [hfreeN i hi]
      rfl
    · intro i hi hvi
      rw [hfreeN i hi] at hvi
      cases hvi
    · intro i hi hvi
      rw [hfreeN i hi] at hvi
      cases hvi
  have hvcN : validCount { t with
      entry_count := t.entry_count <<< 1
      index_mask := t.entry_count <<< 1 - 1
      resize_threshold := t.lfc (t.entry_count <<< 1)
      entry_list_p := GetHashEntryListStatic V (t.entry_count <<< 1) } = 0 :=
    validCount_fresh _ rfl
  -- the list of old valid entries
  have heslen : ((t.entry_list_p.take t.entry_count).filter
      (fun e => e.IsValidEntry)).length = t.active_entry_count := by
    rw [← hR.inv.hcount]
    unfold validCount
    rw [List.countP_eq_length_filter]
  have hsplit : t.entry_list_p.filter (fun e => e.IsValidEntry)
      = (t.entry_list_p.take t.entry_count).filter (fun e => e.IsValidEntry)
        ++ (t.entry_list_p.drop t.entry_count).filter
          (fun e => e.IsValidEntry) := by
    conv_lhs => rw [← List.take_append_drop t.entry_count t.entry_list_p]
    rw [List.filter_append]
  have hwalklen : t.active_entry_count
      ≤ (t.entry_list_p.filter (fun e => e.IsValidEntry)).length := by
    rw [hsplit, List.length_append, heslen]
    omega
  have htake : (t.entry_list_p.filter (fun e => e.IsValidEntry)).take
      t.active_entry_count
      = (t.entry_list_p.take t.entry_count).filter (fun e => e.IsValidEntry) := by
    rw [hsplit]
    exact List.take_left' heslen
  have hwalk : t.Resize = placeAll { t with
      entry_count := t.entry_count <<< 1
      index_mask := t.entry_count <<< 1 - 1
      resize_threshold := t.lfc (t.entry_count <<< 1)
      entry_list_p := GetHashEntryListStatic V (t.entry_count <<< 1) }
      ((t.entry_list_p.take t.entry_count).filter (fun e => e.IsValidEntry)) := by
    rw [Resize_eq, resizeWalk_eq t.entry_list_p _ t.active_entry_count hwalklen,
      htake]
  obtain ⟨t2, hpa, hP2, hec2, hm2, hac2, hthr2, hkh2, hlf2, hvc2, hunch2,
    hplaced2, hprov2⟩ :=
    placeAll_spec ((t.entry_list_p.take t.entry_count).filter
        (fun e => e.IsValidEntry))
      { t with
        entry_count := t.entry_count <<< 1
        index_mask := t.entry_count <<< 1 - 1
        resize_threshold := t.lfc (t.entry_count <<< 1)
        entry_list_p := GetHashEntryListStatic V (t.entry_count <<< 1) }
      hPN
      (by
        rw [hvcN, heslen]
        show 0 + t.active_entry_count < t.entry_count <<< 1
        have h1 := hR.inv.hthr
        have h2 := hR.inv.hthrlt
        have h3 := hecN2
        omega)
      (by
        intro e he
        obtain ⟨m, hmec, hme, hval⟩ := slot_of_mem_validEntries t hP.hlen he
        refine ⟨hval, ?_⟩
        obtain ⟨k, hk1, hk2, hk3⟩ := hP.hwf m hmec (by rw [hme]; exact hval)
        rw [hme] at hk1 hk2 hk3
        exact ⟨k, hk1, hk2, hk3⟩)
      (validEntries_pairwise t hP)
      (by
        intro e he i hi hvi
        rw [hfreeN i hi] at hvi
        cases hvi)
  have hthr2v : t2.resize_threshold = lfc (t.entry_count <<< 1) := by
    rw [hthr2]
    show t.lfc (t.entry_count <<< 1) = _
    rw [hR.inv.hlf]
  have hac2v : t2.active_entry_count = t.active_entry_count := by
    rw [hac2]
  have hstrict : t2.active_entry_count < t2.resize_threshold := by
    rw [hac2v, hthr2v, htrig, hR.inv.hthreq, hecN2]
    exact (hlfc t.entry_count hec1).2
  refine ⟨t2, by rw [hwalk]; exact hpa, ?_, hstrict⟩
  refine ⟨⟨hP2, ?_, ?_, ?_, ?_, ?_, ?_⟩, ?_, ?_⟩
  · rw [hkh2]
    show t.key_hash_obj = hashf
    exact hR.inv.hkh
  · rw [hlf2]
    show t.lfc = lfc
    exact hR.inv.hlf
  · omega
  · rw [hthr2v, hec2]
    show lfc (t.entry_count <<< 1) < t.entry_count <<< 1
    rw [hecN2]
    exact (hlfc (2 * t.entry_count) (by omega)).1
  · rw [hthr2v, hec2]
  · rw [hvc2, hvcN, heslen, hac2v]
    omega
  · -- absent keys stay absent
    intro k hk i hi hvi
    rw [hec2] at hi
    rcases hprov2 i hi hvi with ⟨hvN, _⟩ | ⟨e, he, hcop⟩
    · rw [hfreeN i hi] at hvN
      cases hvN
    · rw [hcop.2.2.1]
      obtain ⟨m, hmec, hme, hval⟩ := slot_of_mem_validEntries t hP.hlen he
      rw [← hme]
      exact hR.habsent k hk m hmec (by rw [hme]; exact hval)
  · -- present keys keep their history
    intro k hk
    obtain ⟨i, hi, hvi, hki, hvals⟩ := hR.hpresent k hk
    obtain ⟨i2, hi2, hvi2, hcop⟩ := hplaced2 (t.entryAt i)
      (mem_validEntries t hP.hlen hi hvi)
    refine ⟨i2, ?_, hvi2, ?_, ?_⟩
    · rw [hec2]
      exact hi2
    · rw [hcop.2.2.1]
      exact hki
    · rw [entryVals_copied hcop]
      exact hvals

/-- Updating a valid slot in place — same key, hash and validity —
preserves the array invariant. -/
theorem PINV_after_update {V : Type} {hashf : Nat → Nat} (t t2 : OAKVL V)
    (i : Nat) (hP : PINV hashf t) (hi : i < t.entry_count)
    (hlen2 : t2.entry_list_p.length = t2.entry_count + 1)
    (hec2 : t2.entry_count = t.entry_count)
    (hm2 : t2.index_mask = t.index_mask)
    (hkey : (t2.entryAt i).key = (t.entryAt i).key)
    (hhash : (t2.entryAt i).hash_value = (t.entryAt i).hash_value)
    (hviOld : (t.entryAt i).IsValidEntry = true)
    (hvalid2 : (t2.entryAt i).IsValidEntry = true)
    (hwf2 : entryWF (t2.entryAt i))
    (hunch : ∀ m, m < t.entry_count → m ≠ i → t2.entryAt m = t.entryAt m) :
    PINV hashf t2 := by
  obtain ⟨b, hec, hm⟩ := hP.hpow
  refine ⟨hlen2, ⟨b, by rw [hec2]; exact hec, by rw [hm2]; exact hm⟩, ?_, ?_, ?_⟩
  · intro m hm2a
    rw [hec2] at hm2a
    by_cases hmi : m = i
    · rw [hmi]
      exact valid_not_deleted hvalid2
    · rw [hunch m hm2a hmi]
      exact hP.hnodel m hm2a
  · intro m hm2a hvm
    rw [hec2] at hm2a
    by_cases hmi : m = i
    · obtain ⟨k, hk1, hk2, _⟩ := hP.hwf i hi hviOld
      rw [hmi]
      exact ⟨k, by rw [hkey]; exact hk1, by rw [hhash]; exact hk2, hwf2⟩
    · rw [hunch m hm2a hmi] at hvm ⊢
      exact hP.hwf m hm2a hvm
  · intro m hm2a hvm d hd
    rw [hec2] at hm2a
    have hhome : ∀ x : Nat, x &&& t.index_mask < t.entry_count := home_lt hec hm
    by_cases hmi : m = i
    · rw [hmi] at hd ⊢
      rw [hhash, hm2, hec2] at hd ⊢
      have hdlt := probeDist_lt (hhome (t.entryAt i).hash_value) hi
      have hslot : probeSlot t.entry_count
          ((t.entryAt i).hash_value &&& t.index_mask) d < t.entry_count :=
        probeSlot_lt (hhome (t.entryAt i).hash_value) (by omega)
      have hsne : probeSlot t.entry_count
          ((t.entryAt i).hash_value &&& t.index_mask) d ≠ i := by
        intro hx
        have h5 := probeDist_probeSlot (hhome (t.entryAt i).hash_value)
          (show d < t.entry_count by omega)
        rw [hx] at h5
        omega
      rw [hunch _ hslot hsne, hkey]
      exact hP.hpath i hi hviOld d hd
    · rw [hunch m hm2a hmi] at hvm hd ⊢
      rw [hm2, hec2] at hd ⊢
      have hold := hP.hpath m hm2a hvm d hd
      have hdlt := probeDist_lt (hhome (t.entryAt m).hash_value) hm2a
      have hslot : probeSlot t.entry_count
          ((t.entryAt m).hash_value &&& t.index_mask) d < t.entry_count :=
        probeSlot_lt (hhome (t.entryAt m).hash_value) (by omega)
      by_cases hsi : probeSlot t.entry_count
          ((t.entryAt m).hash_value &&& t.index_mask) d = i
      · rw [hsi]
        rw [hsi] at hold
        refine ⟨hvalid2, ?_⟩
        rw [hkey]
        exact hold.2
      · rw [hunch _ hslot hsi]
        exact hold

/-- The history of an extended run, at the inserted key. -/
theorem histOf_append_eq {V : Type} (ops : List (Nat × V)) (k : Nat) (v : V) :
    histOf (ops ++ [(k, v)]) k = histOf ops k ++ [v] := by
  unfold histOf
  rw [List.filter_append, List.map_append]
  have : List.filter (fun pr => pr.1 == k) [(k, v)] = [(k, v)] := by
    simp [List.filter]
  rw [this]
  rfl

/-- The history of an extended run, at any other key. -/
theorem histOf_append_ne {V : Type} (ops : List (Nat × V)) {k k2 : Nat} (v : V)
    (h : k2 ≠ k) : histOf (ops ++ [(k, v)]) k2 = histOf ops k2 := by
  unfold histOf
  rw [List.filter_append]
  have : List.filter (fun pr => pr.1 == k2) [(k, v)] = [] := by
    simp [List.filter, beq_eq_false_iff_ne.mpr (fun hx => h hx.symm)]
  rw [this, List.append_nil]

/-- A map-to-`some` that is a singleton comes from a singleton. -/
theorem map_some_singleton {V : Type} {l : List V} {x : Option V}
    (h : l.map some = [x]) : ∃ v0, l = [v0] ∧ x = some v0 := by
  cases l with
  | nil => cases h
  | cons a rest =>
    cases rest with
    | nil =>
      rw [List.map_cons, List.map_nil] at h
      exact ⟨a, rfl, (List.cons_eq_cons.mp h).1.symm⟩
    | cons b rest2 => cases h

/-- The active-count wrapper does not change the valid-slot count. -/
theorem validCount_active_mod {V : Type} (t : OAKVL V) (n : Nat) :
    validCount { t with active_entry_count := n } = validCount t := rfl

/-- A run's insert keeps running after a triggered resize. -/
theorem Insert_after_resize {V : Type} (t t1 : OAKVL V) (k : Nat) (v : V)
    (htrig : t.active_entry_count = t.resize_threshold)
    (hres : t.Resize = some t1)
    (hne1 : t1.active_entry_count ≠ t1.resize_threshold) :
    t.Insert k v = t1.Insert k v := by
  unfold OAKVL.Insert
  rw [if_pos htrig, hres, if_neg hne1]

/-- One `Insert` of a fresh key on a table that will not resize:
success, and the run facts extend by the new binding. -/
theorem Insert_run_new {V : Type} {hashf lfc : Nat → Nat} {ops : List (Nat × V)}
    (t1 : OAKVL V) (hR : ORun hashf lfc ops t1)
    (hne : t1.active_entry_count ≠ t1.resize_threshold)
    (k : Nat) (v : V) (hmem : histOf ops k = []) :
    ∃ t2, t1.Insert k v = some t2 ∧ ORun hashf lfc (ops ++ [(k, v)]) t2 := by
  have hP := hR.inv.core
  have hfree : ∃ s, s < t1.entry_count ∧ (t1.entryAt s).IsFree = true := by
    apply exists_free_slot t1 hP
    rw [hR.inv.hcount]
    have h1 := hR.inv.hthr
    have h2 := hR.inv.hthrlt
    omega
  have habs : ∀ i, i < t1.entry_count → (t1.entryAt i).IsValidEntry = true →
      (t1.entryAt i).key ≠ some k := fun i hi hvi => hR.habsent k hmem i hi hvi
  obtain ⟨j, hj, hjf, hjpath, hins⟩ :=
    Insert_new_key t1 k v hP hR.inv.hkh hne hfree habs
  refine ⟨_, hins, ?_⟩
  have hlenj : j < t1.entry_list_p.length := by
    have := hP.hlen
    omega
  have hat2j : ({ t1.setEntry j
      { t1.entryAt j with
        status := .INLINE_VALUE, hash_value := hashf k,
        key := some k, value := some v } with
      active_entry_count := t1.active_entry_count + 1 } : OAKVL V).entryAt j
      = { t1.entryAt j with
          status := .INLINE_VALUE, hash_value := hashf k,
          key := some k, value := some v } := by
    rw [entryAt_active_mod]
    exact entryAt_setEntry_self t1 j _ hlenj
  have hunch : ∀ m, m < t1.entry_count → m ≠ j →
      ({ t1.setEntry j
        { t1.entryAt j with
          status := .INLINE_VALUE, hash_value := hashf k,
          key := some k, value := some v } with
        active_entry_count := t1.active_entry_count + 1 } : OAKVL V).entryAt m
        = t1.entryAt m := by
    intro m hm hmj
    rw [entryAt_active_mod]
    exact entryAt_setEntry_ne t1 _ (fun hx => hmj hx.symm)
  have hcop : copiedFrom (({ t1.setEntry j
      { t1.entryAt j with
        status := .INLINE_VALUE, hash_value := hashf k,
        key := some k, value := some v } with
      active_entry_count := t1.active_entry_count + 1 } : OAKVL V).entryAt j)
      { status := .INLINE_VALUE, hash_value := hashf k,
        key := some k, value := some v } := by
    rw [hat2j]
    exact ⟨rfl, rfl, rfl, fun hh => rfl⟩
  have hP2 : PINV hashf { t1.setEntry j
      { t1.entryAt j with
        status := .INLINE_VALUE, hash_value := hashf k,
        key := some k, value := some v } with
      active_entry_count := t1.active_entry_count + 1 } := by
    refine PINV_after_fill t1 _ j
      { status := .INLINE_VALUE, hash_value := hashf k,
        key := some k, value := some v }
      hP hj hjf ?_ ?_ rfl rfl hcop hunch rfl ⟨k, rfl, rfl, True.intro⟩ habs
    · intro d hd
      exact valid_not_free (hjpath d hd)
    · show (t1.entry_list_p.set j _).length = t1.entry_count + 1
      rw [List.length_set]
      exact hP.hlen
  have hvc2 : validCount { t1.setEntry j
      { t1.entryAt j with
        status := .INLINE_VALUE, hash_value := hashf k,
        key := some k, value := some v } with
      active_entry_count := t1.active_entry_count + 1 }
      = validCount t1 + 1 := by
    rw [validCount_active_mod]
    exact validCount_setEntry_new t1 hj hP.hlen _ (free_not_valid hjf) rfl
  refine ⟨⟨hP2, hR.inv.hkh, hR.inv.hlf, ?_, hR.inv.hthrlt, hR.inv.hthreq, ?_⟩,
    ?_, ?_⟩
  · show t1.active_entry_count + 1 ≤ t1.resize_threshold
    have h1 := hR.inv.hthr
    omega
  · rw [hvc2, hR.inv.hcount]
  · -- absent keys stay absent
    intro k2 h2 i hi hvi
    have hk2ne : k2 ≠ k := by
      intro hx
      rw [hx, histOf_append_eq] at h2
      exact absurd h2 (by simp)
    rw [histOf_append_ne ops v hk2ne] at h2
    by_cases hij : i = j
    · rw [hij, hat2j]
      intro hx
      have hx2 : some k = some k2 := hx
      exact hk2ne (Option.some_inj.mp hx2).symm
    · have hi1 : i < t1.entry_count := hi
      rw [hunch i hi1 hij] at hvi ⊢
      exact hR.habsent k2 h2 i hi1 hvi
  · -- present keys
    intro k2 h2
    by_cases hk2 : k2 = k
    · refine ⟨j, hj, ?_, ?_, ?_⟩
      · rw [hat2j]
        rfl
      · rw [hat2j, hk2]
      · rw [hat2j, hk2, histOf_append_eq, hmem]
        rfl
    · rw [histOf_append_ne ops v hk2] at h2
      obtain ⟨i, hi, hvi, hki, hvals⟩ := hR.hpresent k2 h2
      have hij : i ≠ j := by
        intro hx
        rw [hx] at hvi
        rw [free_not_valid hjf] at hvi
        cases hvi
      refine ⟨i, hi, ?_, ?_, ?_⟩
      · rw [hunch i hi hij]
        exact hvi
      · rw [hunch i hi hij]
        exact hki
      · rw [hunch i hi hij, histOf_append_ne ops v hk2]
        exact hvals

/-- Rewriting the key's slot in place with an entry holding the
extended value history extends the run facts. -/
theorem ORun_after_hit {V : Type} {hashf lfc : Nat → Nat} {ops : List (Nat × V)}
    (t1 : OAKVL V) (hR : ORun hashf lfc ops t1) (k : Nat) (v : V)
    {i : Nat} (hi : i < t1.entry_count)
    (hvi : (t1.entryAt i).IsValidEntry = true)
    (hki : (t1.entryAt i).key = some k)
    (E2 : HashEntry V)
    (hkey2 : E2.key = (t1.entryAt i).key)
    (hhash2 : E2.hash_value = (t1.entryAt i).hash_value)
    (hvalid2 : E2.IsValidEntry = true)
    (hwf2 : entryWF E2)
    (hvals2 : entryVals E2 = (histOf ops k ++ [v]).map some) :
    ORun hashf lfc (ops ++ [(k, v)]) (t1.setEntry i E2) := by
  have hP := hR.inv.core
  have hlenI : i < t1.entry_list_p.length := by
    have := hP.hlen
    omega
  have hat2 : (t1.setEntry i E2).entryAt i = E2 :=
    entryAt_setEntry_self t1 i E2 hlenI
  have hunch : ∀ m, m < t1.entry_count → m ≠ i →
      (t1.setEntry i E2).entryAt m = t1.entryAt m := by
    intro m hm hmi
    exact entryAt_setEntry_ne t1 _ (fun hx => hmi hx.symm)
  have hP2 : PINV hashf (t1.setEntry i E2) := by
    refine PINV_after_update t1 _ i hP hi ?_ rfl rfl ?_ ?_ hvi ?_ ?_ hunch
    · rw [setEntry_length]
      exact hP.hlen
    · rw [hat2]
      exact hkey2
    · rw [hat2]
      exact hhash2
    · rw [hat2]
      exact hvalid2
    · rw [hat2]
      exact hwf2
  refine ⟨⟨hP2, hR.inv.hkh, hR.inv.hlf, hR.inv.hthr, hR.inv.hthrlt,
    hR.inv.hthreq, ?_⟩, ?_, ?_⟩
  · rw [validCount_setEntry_same t1 hi hP.hlen E2 (by rw [hvalid2, hvi])]
    exact hR.inv.hcount
  · -- absent keys
    intro k2 h2 m hm hvm
    have hk2ne : k2 ≠ k := by
      intro hx
      rw [hx, histOf_append_eq] at h2
      exact absurd h2 (by simp)
    rw [histOf_append_ne ops v hk2ne] at h2
    by_cases hmi : m = i
    · rw [hmi, hat2]
      rw [hkey2, hki]
      intro hx
      exact hk2ne (Option.some_inj.mp hx).symm
    · rw [hunch m hm hmi] at hvm ⊢
      exact hR.habsent k2 h2 m hm hvm
  · -- present keys
    intro k2 h2
    by_cases hk2 : k2 = k
    · refine ⟨i, hi, ?_, ?_, ?_⟩
      · rw [hat2]
        exact hvalid2
      · rw [hat2, hkey2, hki, hk2]
      · rw [hat2, hvals2, hk2, histOf_append_eq]
    · rw [histOf_append_ne ops v hk2] at h2
      obtain ⟨m, hm, hvm, hkm, hvalsm⟩ := hR.hpresent k2 h2
      have hmi : m ≠ i := by
        intro hx
        rw [hx, hki] at hkm
        exact hk2 (Option.some_inj.mp hkm).symm
      refine ⟨m, hm, ?_, ?_, ?_⟩
      · rw [hunch m hm hmi]
        exact hvm
      · rw [hunch m hm hmi]
        exact hkm
      · rw [hunch m hm hmi, histOf_append_ne ops v hk2]
        exact hvalsm

/-- One `Insert` of an already-present key on a table that will not
resize: success, and the run facts extend by the new binding. -/
theorem Insert_run_hit {V : Type} {hashf lfc : Nat → Nat} {ops : List (Nat × V)}
    (t1 : OAKVL V) (hR : ORun hashf lfc ops t1)
    (hne : t1.active_entry_count ≠ t1.resize_threshold)
    (k : Nat) (v : V) (hmem : histOf ops k ≠ []) :
    ∃ t2, t1.Insert k v = some t2 ∧ ORun hashf lfc (ops ++ [(k, v)]) t2 := by
  have hP := hR.inv.core
  obtain ⟨i, hi, hvi, hki, hvals⟩ := hR.hpresent k hmem
  rcases status_of_valid hvi with hst | ⟨kv, hst⟩
  · -- the key is inline: the initial key-value list materializes
    have hvalsI : [(t1.entryAt i).value] = (histOf ops k).map some := by
      have h := hvals
      unfold entryVals at h
      simp only [hst] at h
      exact h
    obtain ⟨v0, hh0, hv0⟩ := map_some_singleton hvalsI.symm
    have hins := Insert_hit_inline t1 k v hP hR.inv.hkh hne hi hvi hki hst
    refine ⟨_, hins, ?_⟩
    apply ORun_after_hit t1 hR k v hi hvi hki
    · rfl
    · rfl
    · rfl
    · exact ⟨by show (2 : Nat) ≤ 2; omega, by show (2 : Nat) ≤ 4; omega, rfl⟩
    · show (((List.replicate 4 (none : Option V)).set 0
          (t1.entryAt i).value).set 1 (some v)).take 2
        = (histOf ops k ++ [v]).map some
      rw [hv0, hh0]
      rfl
  · -- the key owns a list
    obtain ⟨k0, hk0, hh0w, hwfI⟩ := hP.hwf i hi hvi
    have hwfkv : 2 ≤ kv.size ∧ kv.size ≤ kv.capacity ∧
        kv.data.length = kv.capacity := by
      unfold entryWF at hwfI
      simp only [hst] at hwfI
      exact hwfI
    have hvalsM : kv.data.take kv.size = (histOf ops k).map some := by
      have h := hvals
      unfold entryVals at h
      simp only [hst] at h
      exact h
    cases hfull : kv.IsFull with
    | false =>
      have hne_sc : kv.size ≠ kv.capacity := by
        unfold KeyValueList.IsFull at hfull
        exact beq_eq_false_iff_ne.mp hfull
      have hslt : kv.size < kv.data.length := by omega
      have hins := Insert_hit_multi t1 k v hP hR.inv.hkh hne hi hvi hki hst hfull
      refine ⟨_, hins, ?_⟩
      apply ORun_after_hit t1 hR k v hi hvi hki
      · rfl
      · rfl
      · rfl
      · refine ⟨?_, ?_, ?_⟩
        · show 2 ≤ kv.size + 1
          omega
        · show kv.size + 1 ≤ kv.capacity
          omega
        · show (kv.data.set kv.size (some v)).length = kv.capacity
          rw [List.length_set]
          omega
      · show (kv.data.set kv.size (some v)).take (kv.size + 1)
          = (histOf ops k ++ [v]).map some
        rw [take_set_snoc kv.data kv.size (some v) hslt, hvalsM,
          List.map_append]
        rfl
    | true =>
      have heq_sc : kv.size = kv.capacity := by
        unfold KeyValueList.IsFull at hfull
        exact beq_iff_eq.mp hfull
      have hins := Insert_hit_full t1 k v hP hR.inv.hkh hne hi hvi hki hst hfull
      refine ⟨_, hins, ?_⟩
      apply ORun_after_hit t1 hR k v hi hvi hki
      · rfl
      · rfl
      · rfl
      · refine ⟨?_, ?_, ?_⟩
        · show 2 ≤ kv.size + 1
          omega
        · show kv.size + 1 ≤ kv.capacity <<< 1
          rw [shiftLeft_one_eq]
          omega
        · show ((kv.data.take kv.size ++
              List.replicate ((kv.capacity <<< 1) - kv.size) none).set kv.size
                (some v)).length = kv.capacity <<< 1
          rw [List.length_set, List.length_append, List.length_replicate,
            List.length_take, shiftLeft_one_eq]
          omega
      · show ((kv.data.take kv.size ++
            List.replicate ((kv.capacity <<< 1) - kv.size) none).set kv.size
              (some v)).take (kv.size + 1)
          = (histOf ops k ++ [v]).map some
        have hlentake : (kv.data.take kv.size).length = kv.size := by
          rw [List.length_take]
          omega
        have hlen2 : kv.size < (kv.data.take kv.size ++
            List.replicate ((kv.capacity <<< 1) - kv.size)
              (none : Option V)).length := by
          rw [List.length_append, List.length_replicate, hlentake,
            shiftLeft_one_eq]
          omega
        rw [take_set_snoc _ _ _ hlen2, List.take_left' hlentake, hvalsM,
          List.map_append]
        rfl

/-- One `Insert` on a live table: success, and the run facts extend by
the new binding (resizing first when the threshold is hit). -/
theorem Insert_run {V : Type} {hashf lfc : Nat → Nat} {ops : List (Nat × V)}
    (t : OAKVL V) (hR : ORun hashf lfc ops t)
    (hlfc : ∀ n, 1 ≤ n → lfc n < n ∧ lfc n < lfc (2 * n))
    (k : Nat) (v : V) :
    ∃ t2, t.Insert k v = some t2 ∧ ORun hashf lfc (ops ++ [(k, v)]) t2 := by
  by_cases htrig : t.active_entry_count = t.resize_threshold
  · obtain ⟨t1, hres, hR1, hlt⟩ := Resize_run t hR hlfc htrig
    have hne1 : t1.active_entry_count ≠ t1.resize_threshold := by omega
    by_cases hmem : histOf ops k = []
    · obtain ⟨t2, hins, hR2⟩ := Insert_run_new t1 hR1 hne1 k v hmem
      exact ⟨t2, by
        rw [Insert_after_resize t t1 k v htrig hres hne1]
        exact hins, hR2⟩
    · obtain ⟨t2, hins, hR2⟩ := Insert_run_hit t1 hR1 hne1 k v hmem
      exact ⟨t2, by
        rw [Insert_after_resize t t1 k v htrig hres hne1]
        exact hins, hR2⟩
  · by_cases hmem : histOf ops k = []
    · exact Insert_run_new t hR htrig k v hmem
    · exact Insert_run_hit t hR htrig k v hmem

/-- Running a list of inserts keeps extending the run facts. -/
theorem runInserts_run {V : Type} {hashf lfc : Nat → Nat}
    (hlfc : ∀ n, 1 ≤ n → lfc n < n ∧ lfc n < lfc (2 * n)) :
    ∀ (rest pre : List (Nat × V)) (t : OAKVL V), ORun hashf lfc pre t →
      ∃ t2, OAKVL.runInserts t rest = some t2 ∧
        ORun hashf lfc (pre ++ rest) t2 := by
  intro rest
  induction rest with
  | nil =>
    intro pre t h
    exact ⟨t, rfl, by rw [List.append_nil]; exact h⟩
  | cons pr rest ih =>
    intro pre t h
    obtain ⟨t1, hins, h1⟩ := Insert_run t h hlfc pr.1 pr.2
    obtain ⟨t2, hrun, h2⟩ := ih (pre ++ [pr]) t1 h1
    refine ⟨t2, ?_, ?_⟩
    · show OAKVL.runInserts t (pr :: rest) = some t2
      unfold OAKVL.runInserts
      rw [List.foldlM_cons]
      show (t.Insert pr.1 pr.2 >>= fun t3 =>
        List.foldlM (fun t3 kv => t3.Insert kv.1 kv.2) t3 rest) = some t2
      rw [hins]
      show OAKVL.runInserts t1 rest = some t2
      exact hrun
    · rw [List.append_assoc] at h2
      exact h2

/-- A fresh table carries the empty run's facts. -/
theorem ORun_new {V : Type} (esz req : Nat) (hashf lfc : Nat → Nat)
    (hlfc : ∀ n, 1 ≤ n → lfc n < n ∧ lfc n < lfc (2 * n)) :
    ORun hashf lfc ([] : List (Nat × V)) (OAKVL.new V esz req hashf lfc) := by
  obtain ⟨b, hb5, hcount, hmask⟩ := new_count_spec V esz req hashf lfc
  have hec1 : 1 ≤ (OAKVL.new V esz req hashf lfc).entry_count := by
    rw [hcount]
    exact Nat.one_le_two_pow
  have hlen : (OAKVL.new V esz req hashf lfc).entry_list_p.length
      = (OAKVL.new V esz req hashf lfc).entry_count + 1 :=
    GetHashEntryListStatic_length V _
  have hfree : ∀ i, i < (OAKVL.new V esz req hashf lfc).entry_count →
      (OAKVL.new V esz req hashf lfc).entryAt i = freeEntry V := by
    intro i hi
    exact GetHashEntryListStatic_getD V hi
  have hthreq : (OAKVL.new V esz req hashf lfc).resize_threshold
      = lfc (OAKVL.new V esz req hashf lfc).entry_count := rfl
  refine ⟨⟨⟨hlen, ⟨b, hcount, hmask⟩, ?_, ?_, ?_⟩, rfl, rfl, ?_, ?_, hthreq,
    ?_⟩, ?_, ?_⟩
  · intro i hi
    rw [hfree i hi]
    rfl
  · intro i hi hvi
    rw [hfree i hi] at hvi
    cases hvi
  · intro i hi hvi
    rw [hfree i hi] at hvi
    cases hvi
  · show (0 : Nat) ≤ _
    omega
  · rw [hthreq]
    exact (hlfc _ hec1).1
  · rw [validCount_fresh _ rfl]
    rfl
  · intro k hk i hi hvi
    rw [hfree i hi] at hvi
    cases hvi
  · intro k hk
    exact absurd rfl hk

/-- C1 (amended): for every insert-only operation sequence on a fresh
OA-KVL table — any entry size, requested capacity and hasher, and any
load-factor policy that keeps the threshold under the table size and
grows it strictly across a doubling — the whole run succeeds, and for
every key that was inserted, `GetValue` returns exactly the values
inserted for that key, in insertion order.  (The original claim over
sequences that also delete is refuted by `C1_cex`.) -/
theorem C1_amended {V : Type} (esz req : Nat) (hashf lfc : Nat → Nat)
    (hlfc : ∀ n, 1 ≤ n → lfc n < n ∧ lfc n < lfc (2 * n))
    (ops : List (Nat × V)) :
    ∃ t, OAKVL.runInserts (OAKVL.new V esz req hashf lfc) ops = some t ∧
      ∀ k, histOf ops k ≠ [] →
        t.GetValue k = (histOf ops k).map some := by
  obtain ⟨t, hrun, hR⟩ := runInserts_run hlfc ops []
    (OAKVL.new V esz req hashf lfc) (ORun_new esz req hashf lfc hlfc)
  rw [List.nil_append] at hR
  refine ⟨t, hrun, ?_⟩
  intro k hk
  obtain ⟨i, hi, hvi, hki, hvals⟩ := hR.hpresent k hk
  rw [GetValue_at_slot t k hR.inv.core hR.inv.hkh hi hvi hki, hvals]

/-- C1, witness: the specification's four-insert scenario on one key,
read back in insertion order. -/
theorem C1_amended_witness :
    ∃ t, OAKVL.runInserts (OAKVL.new Nat 32 0 id LoadFactorHalfFull)
        [(12345, 67890), (12345, 67891), (12345, 67893), (12345, 67892)]
      = some t ∧
      t.GetValue 12345
        = [some 67890, some 67891, some 67893, some 67892] := by
  obtain ⟨t, hrun, hget⟩ := C1_amended 32 0 id LoadFactorHalfFull
    (by
      intro n hn
      unfold LoadFactorHalfFull
      rw [Nat.shiftRight_one, Nat.shiftRight_one]
      omega)
    [(12345, 67890), (12345, 67891), (12345, 67893), (12345, 67892)]
  refine ⟨t, hrun, ?_⟩
  rw [hget 12345 (by decide)]
  rfl
end Peloton
